import Mathlib

/-!
Verification of the characterization-database engine of `bag/tech/core.py`
(`CharDB` and its helpers).  The Python source is shallowly embedded below:
numeric attribute values become rationals, numpy scatter writes become
association lists keyed by discrete index tuples, HDF5 files become explicit
structures, and every `raise` site becomes a constructor of an error type.
External modules that are not part of the sources under verification
(`bag.math.interpolate.interpolate_grid`, `bag.math.dfun`) are represented by
opaque constructors recording exactly the arguments the source passes to them.
-/

namespace BagCharDB

/-- An attribute / sweep value: a string or a (real-number) scalar, modelled
exactly (floats become rationals). -/
inductive Value where
  | str (s : String)
  | num (q : ℚ)
deriving DecidableEq, Repr

/-! Rational arithmetic, in a kernel-evaluable form (the standard operations
are `irreducible`); each operation is proved equal to the standard one. -/

/-- Addition on `ℚ`. -/
def qadd (a b : ℚ) : ℚ := mkRat (a.num * b.den + b.num * a.den) (a.den * b.den)

/-- Subtraction on `ℚ`. -/
def qsub (a b : ℚ) : ℚ := mkRat (a.num * b.den - b.num * a.den) (a.den * b.den)

/-- Multiplication on `ℚ`. -/
def qmul (a b : ℚ) : ℚ := mkRat (a.num * b.num) (a.den * b.den)

/-- Division on `ℚ`. -/
def qdiv (a b : ℚ) : ℚ := Rat.divInt (a.num * b.den) (a.den * b.num)

/-- Absolute value on `ℚ`. -/
def qabs (a : ℚ) : ℚ := mkRat a.num.natAbs a.den

theorem qadd_eq (a b : ℚ) : qadd a b = a + b := (Rat.add_def' a b).symm

theorem qsub_eq (a b : ℚ) : qsub a b = a - b := (Rat.sub_def' a b).symm

theorem qmul_eq (a b : ℚ) : qmul a b = a * b := by
  rw [qmul, Rat.mul_def, Rat.normalize_eq_mkRat]

theorem qabs_eq (a : ℚ) : qabs a = |a| := by
  rcases le_or_lt 0 a with h | h
  · rw [abs_of_nonneg h, qabs, Int.natAbs_of_nonneg (Rat.num_nonneg.mpr h), Rat.mkRat_self]
  · rw [abs_of_neg h, qabs]
    have hn : a.num ≤ 0 := le_of_lt (Rat.num_neg.mpr h)
    rw [Int.ofNat_natAbs_of_nonpos hn, ← Rat.neg_mkRat, Rat.mkRat_self]

theorem qdiv_eq (a b : ℚ) : qdiv a b = a / b := by
  by_cases hb : b = 0
  · subst hb
    simp [qdiv]
  · have had : (a.den : ℚ) ≠ 0 := by exact_mod_cast a.den_nz
    have hbn : (b.num : ℚ) ≠ 0 := by exact_mod_cast Rat.num_ne_zero.mpr hb
    have ha : (a.num : ℚ) = a * a.den := (div_eq_iff had).mp (Rat.num_div_den a)
    have hbd : (b.den : ℚ) ≠ 0 := by exact_mod_cast b.den_nz
    have hb2 : (b.num : ℚ) = b * b.den := (div_eq_iff hbd).mp (Rat.num_div_den b)
    rw [qdiv, Rat.divInt_eq_div]
    push_cast
    rw [div_eq_div_iff (mul_ne_zero had hbn) hb, ha, hb2]
    ring

/-- `np.allclose` on two scalars: `|a - b| <= atol + rtol * |b|`. -/
def closeQ (rtol atol : ℚ) (a b : ℚ) : Bool :=
  qabs (qsub a b) ≤ qadd atol (qmul rtol (qabs b))

theorem closeQ_eq (rtol atol a b : ℚ) :
    closeQ rtol atol a b = decide (|a - b| ≤ atol + rtol * |b|) := by
  rw [closeQ, qabs_eq, qsub_eq, qadd_eq, qmul_eq, qabs_eq]

/-- `_equal(a, b, rtol, atol)` from `core.py`: strings compare exactly,
numbers with `np.allclose`; a string never equals a number. -/
def vequal (rtol atol : ℚ) : Value → Value → Bool
  | .str s, .str t => s == t
  | .num a, .num b => closeQ rtol atol a b
  | _, _ => false

/-- Auxiliary loop of `_index_in_list`, carrying the current position. -/
def indexInListAux (rtol atol : ℚ) (v : Value) : List Value → ℤ → ℤ
  | [], _ => -1
  | t :: rest, i => if vequal rtol atol t v then i else indexInListAux rtol atol v rest (i + 1)

/-- `_index_in_list(item_list, item, rtol, atol)`: index of the first
tolerance-equal element, `-1` if absent. -/
def indexInList (rtol atol : ℚ) (l : List Value) (v : Value) : ℤ :=
  indexInListAux rtol atol v l 0

/-- `_in_list(item_list, item, rtol, atol)`. -/
def inList (rtol atol : ℚ) (l : List Value) (v : Value) : Bool :=
  0 ≤ indexInList rtol atol l v

/-- Lexicographic order on character lists by Unicode code point, matching
Python's string comparison. -/
def strDataLe : List Char → List Char → Bool
  | [], _ => true
  | _ :: _, [] => false
  | a :: as, b :: bs => if a = b then strDataLe as bs else decide (a < b)

/-- Python's `<=` on strings. -/
def sle (s t : String) : Prop :=
  strDataLe s.data t.data = true

instance : DecidableRel sle := fun _ _ => decEq _ _

theorem strDataLe_total (as bs : List Char) :
    strDataLe as bs = true ∨ strDataLe bs as = true := by
  induction as generalizing bs with
  | nil => exact Or.inl rfl
  | cons a as ih =>
    cases bs with
    | nil => exact Or.inr rfl
    | cons b bs =>
      by_cases hab : a = b
      · subst hab
        simpa [strDataLe] using ih bs
      · rcases lt_or_gt_of_ne hab with h | h
        · exact Or.inl (by simp [strDataLe, hab, h])
        · exact Or.inr (by simp [strDataLe, Ne.symm hab, h])

theorem strDataLe_trans (as bs cs : List Char) (h₁ : strDataLe as bs = true)
    (h₂ : strDataLe bs cs = true) : strDataLe as cs = true := by
  induction as generalizing bs cs with
  | nil => rfl
  | cons a as ih =>
    cases bs with
    | nil => simp [strDataLe] at h₁
    | cons b bs =>
      cases cs with
      | nil => simp [strDataLe] at h₂
      | cons c cs =>
        by_cases hab : a = b <;> by_cases hbc : b = c
        · subst hab; subst hbc
          simp only [strDataLe, if_pos rfl] at *
          exact ih bs cs h₁ h₂
        · subst hab
          simp only [strDataLe, if_pos rfl, if_neg hbc, decide_eq_true_eq] at *
          simp [if_neg hbc, h₂]
        · subst hbc
          simp only [strDataLe, if_neg hab, decide_eq_true_eq] at h₁
          simp [strDataLe, if_neg hab, h₁]
        · simp only [strDataLe, if_neg hab, if_neg hbc, decide_eq_true_eq] at h₁ h₂
          have hac : a < c := lt_trans h₁ h₂
          simp [strDataLe, ne_of_lt hac, hac]

theorem strDataLe_antisymm (as bs : List Char) (h₁ : strDataLe as bs = true)
    (h₂ : strDataLe bs as = true) : as = bs := by
  induction as generalizing bs with
  | nil =>
    cases bs with
    | nil => rfl
    | cons b bs => simp [strDataLe] at h₂
  | cons a as ih =>
    cases bs with
    | nil => simp [strDataLe] at h₁
    | cons b bs =>
      by_cases hab : a = b
      · subst hab
        simp only [strDataLe, if_pos rfl] at h₁ h₂
        exact congrArg _ (ih bs h₁ h₂)
      · simp only [strDataLe, if_neg hab, if_neg (Ne.symm hab), decide_eq_true_eq] at h₁ h₂
        exact absurd h₂ (not_lt_of_gt h₁)

theorem sle_antisymm_str {s t : String} (h₁ : sle s t) (h₂ : sle t s) : s = t := by
  cases s with
  | mk ds =>
    cases t with
    | mk dt =>
      exact congrArg _ (strDataLe_antisymm ds dt h₁ h₂)

/-- The order used by Python's `sorted` on a homogeneous list of values
(numbers by `≤`, strings lexicographically); a mixed list would raise
`TypeError` in Python 3, theorems therefore only sort homogeneous lists. -/
def vle : Value → Value → Prop
  | .num a, .num b => a ≤ b
  | .num _, .str _ => True
  | .str _, .num _ => False
  | .str s, .str t => sle s t

instance : DecidableRel vle := by
  intro a b
  cases a <;> cases b <;> simp only [vle] <;> infer_instance

instance : IsTotal Value vle := by
  constructor
  intro a b
  cases a <;> cases b <;> simp only [vle]
  case str.str s t => exact strDataLe_total s.data t.data
  case str.num => exact Or.inr trivial
  case num.str => exact Or.inl trivial
  case num.num a b => exact le_total a b

instance : IsTrans Value vle := by
  constructor
  intro a b c hab hbc
  cases a <;> cases b <;> cases c <;> simp only [vle, sle] at * <;>
    first
      | exact le_trans hab hbc
      | exact strDataLe_trans _ _ _ hab hbc

instance : IsAntisymm Value vle := by
  constructor
  intro a b hab hba
  cases a <;> cases b <;> simp only [vle] at * <;> first
    | rfl | exact absurd hab id | exact absurd hba id
    | exact congrArg _ (le_antisymm hab hba)
    | exact congrArg _ (sle_antisymm_str hab hba)

/-- Python's `sorted` on a list of values. -/
def sortVals (l : List Value) : List Value :=
  l.insertionSort vle

/-- Python's `sorted` on attribute names (strings). -/
def sortStrs (l : List String) : List String :=
  l.insertionSort sle

/-! ## The raw simulation file (`CircuitCharacterization._record_data` format)

One HDF5 group per environment/discrete sweep point.  Each group carries one
attribute per axis (its coordinate), the `sweep_params` attribute (ordered
continuous-axis names, held in a separate field here), and one dataset per
output spanning the continuous grid (kept abstract as a flat list). -/

/-- A record's dense sub-array over the continuous grid (contents opaque). -/
abbrev Sub := List ℚ

/-- A dense output array, represented by its scatter map: the index along each
attribute axis (the leading dimensions) paired with the sub-array stored
there.  Writes cons on the front, so `List.lookup` sees the newest write. -/
abbrev Arr := List (List ℤ × Sub)

/-- A top-level HDF5 attribute: a constant scalar, or the
`(start, stop, num_points)` triple of a continuous sweep parameter. -/
inductive FAttr where
  | scalar (v : Value)
  | triple (start stop : ℚ) (num : ℕ)
deriving DecidableEq, Repr

/-- One group of the raw file. -/
structure Group where
  name : String
  attrs : List (String × Value)
  sweepParams : List String
  dsets : List (String × Sub)
deriving DecidableEq, Repr

/-- The raw simulation file. -/
structure RawFile where
  attrs : List (String × FAttr)
  groups : List Group
deriving DecidableEq, Repr

/-- `_equal(val, f.attrs[key])` where the file side may be a sweep triple
(a 3-element array, compared by broadcast `np.allclose`). -/
def vequalA (rtol atol : ℚ) : Value → FAttr → Bool
  | v, .scalar w => vequal rtol atol v w
  | .num q, .triple a b n => closeQ rtol atol q a && closeQ rtol atol q b && closeQ rtol atol q n
  | .str _, .triple .. => false

/-- Every error raised in `CharDB._load_sim_data`, one constructor per raise
site (Python raises `ValueError` everywhere; the spec's taxonomy maps
`incompleteSweep` to IncompleteSweepError and `irregularGrid` /
`constantsMismatch` to InconsistentDataError). -/
inductive LoadErr where
  | fileMissing
  | keyErr (k : String)
  | constantsMismatch (k : String)
  | noData
  | incompleteSweep (expected actual : ℕ)
  | discreteMissing (name : String)
  | typeErr
  | irregularGrid (name : String)
deriving DecidableEq, Repr

deriving instance DecidableEq for Except

/-- The `for key, val in constants.items()` consistency loop (lines 611-613). -/
def checkConstants (rtol atol : ℚ) (constants : List (String × Value))
    (fattrs : List (String × FAttr)) : Except LoadErr Unit :=
  match constants with
  | [] => .ok ()
  | (k, v) :: rest =>
    match fattrs.lookup k with
    | none => .error (.keyErr k)
    | some a =>
      if vequalA rtol atol v a then checkConstants rtol atol rest fattrs
      else .error (.constantsMismatch k)

/-- Append `val` to an axis value list unless a tolerance-equal value is
already present (lines 629-633). -/
def updEntry (rtol atol : ℚ) (l : List Value) (v : Value) : List Value :=
  if inList rtol atol l v then l else l ++ [v]

/-- Insert one `(key, val)` group attribute into `attr_table`, preserving
Python-dict insertion order. -/
def addVal (rtol atol : ℚ) : List (String × List Value) → String → Value →
    List (String × List Value)
  | [], k, v => [(k, [v])]
  | (k', l) :: rest, k, v =>
    if k' = k then (k', updEntry rtol atol l v) :: rest
    else (k', l) :: addVal rtol atol rest k v

/-- Fold one group's attributes into `attr_table` (the `sweep_params`
attribute is kept in its own field and hence skipped, as in the source). -/
def addGroup (rtol atol : ℚ) (tbl : List (String × List Value)) (g : Group) :
    List (String × List Value) :=
  g.attrs.foldl (fun t kv => addVal rtol atol t kv.1 kv.2) tbl

/-- The `attr_table` built over all groups (lines 620-633). -/
def attrTable (rtol atol : ℚ) (gs : List Group) : List (String × List Value) :=
  gs.foldl (addGroup rtol atol) []

/-- `expected_len`: the product of the axis value-set sizes (lines 635-637). -/
def expectedLen (tbl : List (String × List Value)) : ℕ :=
  (tbl.map (fun kv => kv.2.length)).prod

/-- The `for disc_par in discrete_params` membership check (lines 643-646). -/
def checkDiscrete (discreteParams : List String) (tbl : List (String × List Value)) :
    Except LoadErr Unit :=
  match discreteParams with
  | [] => .ok ()
  | d :: rest =>
    if (tbl.lookup d).isSome then checkDiscrete rest tbl
    else .error (.discreteMissing d)

/-- `np.linspace(a, b, n, endpoint=True)` over rationals:
entry `i` is `a + i * (b - a) / (n - 1)`. -/
def linspace (a b : ℚ) (n : ℕ) : List ℚ :=
  if n ≤ 1 then (List.range n).map (fun _ => a)
  else (List.range n).map (fun i : ℕ =>
    qadd a (qdiv (qmul ((i : ℕ) : ℚ) (qsub b a)) ((n - 1 : ℕ) : ℚ)))

/-- `np.allclose` on two vectors of equal length. -/
def allcloseQ (rtol atol : ℚ) (xs ys : List ℚ) : Bool :=
  xs.length == ys.length && (xs.zip ys).all (fun p => closeQ rtol atol p.1 p.2)

/-- Extract an all-numeric axis; a string in a continuous axis would make
`np.linspace` raise `TypeError` in the source. -/
def axisNums : List Value → Option (List ℚ)
  | [] => some []
  | .num q :: rest => (axisNums rest).map (q :: ·)
  | .str _ :: _ => none

/-- The regular-grid acceptance test for one continuous attribute axis
(lines 654-655): compare against `linspace(first, last, len)`. -/
def regularOk (rtol atol : ℚ) (qs : List ℚ) : Bool :=
  allcloseQ rtol atol (linspace (qs.headD 0) (qs.getLastD 0) qs.length) qs

/-- The loop over `zip(attr_order, attr_values)` checking every non-discrete
non-`env` axis (lines 652-656). -/
def checkRegular (rtol atol : ℚ) (discreteParams : List String) :
    List (String × List Value) → Except LoadErr Unit
  | [] => .ok ()
  | (attr, avals) :: rest =>
    if attr ∈ discreteParams ∨ attr = "env" then
      checkRegular rtol atol discreteParams rest
    else
      match axisNums avals with
      | none => .error .typeErr
      | some qs =>
        if regularOk rtol atol qs then checkRegular rtol atol discreteParams rest
        else .error (.irregularGrid attr)

/-- `f['0']`: the group named `"0"`. -/
def findGroup (gs : List Group) (name : String) : Option Group :=
  gs.find? (fun g => g.name == name)

/-- `linspace(f.attrs[var][0], f.attrs[var][1], f.attrs[var][2])` for each
continuous sweep parameter (lines 670-671). -/
def sweepValuesOf (fattrs : List (String × FAttr)) : List String →
    Except LoadErr (List (List ℚ))
  | [] => .ok []
  | var :: rest =>
    match fattrs.lookup var with
    | none => .error (.keyErr var)
    | some (.scalar _) => .error .typeErr
    | some (.triple a b n) => do
      let tail ← sweepValuesOf fattrs rest
      return linspace a b n :: tail

/-- `master_index` of one group: the tolerance-based position of each of its
coordinates along the corresponding (sorted, deduplicated) axis
(lines 680-681); the continuous dimensions are full slices and are kept
implicit in the scatter-map representation. -/
def groupIndex (rtol atol : ℚ) (axes : List (String × List Value)) (g : Group) :
    Except LoadErr (List ℤ) :=
  match axes with
  | [] => .ok []
  | (attr, avals) :: rest =>
    match g.attrs.lookup attr with
    | none => .error (.keyErr attr)
    | some v => do
      let tail ← groupIndex rtol atol rest g
      return indexInList rtol atol avals v :: tail

/-- `master_dict[output][master_index] = dset`: numpy assignment, modelled as
a front insertion so that lookups see the most recent write. -/
def writeOut (dict : List (String × Arr)) (o : String) (idx : List ℤ) (d : Sub) :
    List (String × Arr) :=
  match dict with
  | [] => [(o, [(idx, d)])]
  | (o', arr) :: rest =>
    if o' = o then (o', (idx, d) :: arr) :: rest
    else (o', arr) :: writeOut rest o idx d

/-- The consolidation loop over all groups (lines 676-687). -/
def buildMaster (rtol atol : ℚ) (axes : List (String × List Value)) (gs : List Group) :
    Except LoadErr (List (String × Arr)) :=
  gs.foldlM (fun dict g => do
    let idx ← groupIndex rtol atol axes g
    return g.dsets.foldl (fun dd od => writeOut dd od.1 idx od.2) dict) []

/-- Result of `_load_sim_data`. -/
structure LoadResult where
  masterDict : List (String × Arr)
  masterAttrs : List String
  masterValues : List (List Value)
  fileConstants : List (String × FAttr)
deriving DecidableEq, Repr

/-- `CharDB._load_sim_data` (lines 577-689).  `none` for the file models
`os.path.exists(fname)` being false. -/
def loadSimData (rtol atol : ℚ) (constants : List (String × Value))
    (discreteParams : List String) : Option RawFile → Except LoadErr LoadResult
  | none => .error .fileMissing
  | some f => do
    checkConstants rtol atol constants f.attrs
    if f.groups.length = 0 then throw .noData else do
    let tbl := attrTable rtol atol f.groups
    if expectedLen tbl ≠ f.groups.length then
      throw (.incompleteSweep (expectedLen tbl) f.groups.length) else do
    checkDiscrete discreteParams tbl
    let attrOrder := sortStrs (tbl.map (·.1))
    let axes := attrOrder.map (fun a => (a, sortVals ((tbl.lookup a).getD [])))
    checkRegular rtol atol discreteParams axes
    match findGroup f.groups "0" with
    | none => throw (.keyErr "0")
    | some testGrp => do
      let sweepParams := testGrp.sweepParams
      let fileConstants := f.attrs.filter (fun kv => decide (kv.1 ∉ sweepParams))
      let swp ← sweepValuesOf f.attrs sweepParams
      let masterDict ← buildMaster rtol atol axes f.groups
      return ⟨masterDict, attrOrder ++ sweepParams,
              axes.map (·.2) ++ swp.map (fun qs => qs.map Value.num), fileConstants⟩

/-! ## The in-memory database (a constructed `CharDB` instance)

`bag.math.dfun.DiffFunction` objects and `interpolate_grid` live outside the
sources under verification, so an interpolant is represented by the exact
arguments the source hands to its builder: the continuous axis values (from
which lines 908-911 compute the scale list), the sliced dense data
`char_data[didx]`, and the interpolation method.  Derived functions produced
by a subclass's `compute_derived_parameters` are arbitrary further values of
the same type, and `VectorDiffFunction(fun_list)` is the `vector` form. -/

/-- A differentiable-function object (`bag.math.dfun.DiffFunction`). -/
inductive DFun where
  | interp (contValues : List (List Value)) (slice : Arr) (method : String)
  | ext (tag : String) (args : List DFun)

/-- A value stored in a `query` result dictionary: an output evaluation
`fun(arg)` (kept as the unevaluated application, since `DiffFunction.__call__`
is external), or an echoed parameter value. -/
inductive RVal where
  | out (funs : List (Option DFun)) (arg : List Value)
  | pval (v : Option Value)

/-- The instance state of a constructed `CharDB`: the fields assigned in
`__init__` plus the two pluggable subclass hooks (`compute_derived_parameters`
used once on function dictionaries and once on query-result dictionaries). -/
structure CharDB where
  discreteParams : List String
  discreteValues : List (List Value)
  contParams : List String
  contValues : List (List Value)
  envValues : List Value
  envList : List String
  constants : List (String × FAttr)
  params : List (String × Option Value)
  rtol : ℚ
  atol : ℚ
  method : String
  data : List (String × Arr)
  derivedNames : List String
  computeDerivedFuns : List (String × DFun) → List (String × DFun)
  computeDerivedVals : (String → Option RVal) → List (String × RVal)

/-- The keys of `self._data`. -/
def dataNames (db : CharDB) : List String :=
  db.data.map (·.1)

/-- `self._data[name]` (callers only use names known to be present). -/
def dataLookup (db : CharDB) (name : String) : Arr :=
  (db.data.lookup name).getD []

/-- `char_data[didx]`: fix the leading environment/discrete dimensions at
`fidx` and keep the continuous dimensions whole. -/
def sliceArr (arr : Arr) (fidx : List ℤ) : Arr :=
  arr.filterMap (fun kv =>
    if kv.1.take fidx.length = fidx then some (kv.1.drop fidx.length, kv.2) else none)

/-- `interpolate_grid(scale_list, cur_data, method=method)` at lines 906-916,
recorded as a value (the scale list is the stated function of `contValues`). -/
def buildInterp (db : CharDB) (name : String) (fidx : List ℤ) : DFun :=
  .interp db.contValues (sliceArr (dataLookup db name) fidx) db.method

/-- The lazy function table `self._fun` plus an instrumentation counter for
invocations of the interpolation builder, per key. -/
structure FunState where
  tbl : String → List ℤ → Option DFun
  builds : String → List ℤ → ℕ

/-- The freshly initialized table (`np.full(shape, None)`). -/
def initFunState : FunState :=
  ⟨fun _ _ => none, fun _ _ => 0⟩

/-- `self._fun[name][fidx] = f`. -/
def FunState.store (s : FunState) (name : String) (idx : List ℤ) (f : DFun) : FunState :=
  { s with tbl := fun n i => if n = name ∧ i = idx then some f else s.tbl n i }

/-- Count one invocation of `interpolate_grid` for the given key. -/
def FunState.bump (s : FunState) (name : String) (idx : List ℤ) : FunState :=
  { s with builds := fun n i => if n = name ∧ i = idx then s.builds n i + 1 else s.builds n i }

/-- `_get_function_helper` restricted to a core (simulated) output, as invoked
on every `fn in self._data` by the derived branch: return the cached
interpolant or build, store and count it. -/
def coreGet (db : CharDB) (s : FunState) (name : String) (idx : List ℤ) :
    DFun × FunState :=
  match s.tbl name idx with
  | some f => (f, s)
  | none =>
    let f := buildInterp db name idx
    (f, (s.store name idx f).bump name idx)

/-- `core_fdict = {fn: self._get_function_helper(fn, fidx_list) for fn in self._data}`. -/
def coreDictAux (db : CharDB) (idx : List ℤ) :
    List String → FunState → List (String × DFun) × FunState
  | [], s => ([], s)
  | n :: rest, s =>
    let p := coreGet db s n idx
    let q := coreDictAux db idx rest p.2
    ((n, p.1) :: q.1, q.2)

/-- `for fn, deriv_fun in deriv_fdict.items(): self._fun[fn][fidx_list] = deriv_fun`. -/
def storeAll (idx : List ℤ) (s : FunState) (deriv : List (String × DFun)) : FunState :=
  deriv.foldl (fun st p => st.store p.1 idx p.2) s

/-- `CharDB._get_function_helper` (lines 882-924).  The error is the
`KeyError` of `self._fun[name]` for a name that is neither a simulated output
nor a derived parameter. -/
def getFunctionHelper (db : CharDB) (s : FunState) (name : String) (idx : List ℤ) :
    Except Unit (Option DFun × FunState) :=
  if name ∈ dataNames db ∨ name ∈ db.derivedNames then
    match s.tbl name idx with
    | some f => .ok (some f, s)
    | none =>
      if name ∈ dataNames db then
        let f := buildInterp db name idx
        .ok (some f, (s.store name idx f).bump name idx)
      else
        let p := coreDictAux db idx (dataNames db) s
        let s₂ := storeAll idx p.2 (db.computeDerivedFuns p.1)
        .ok (s₂.tbl name idx, s₂)
  else .error ()

/-- Run a sequence of `get_function_helper` requests against one instance,
threading the lazy table (a failed request leaves the table unchanged). -/
def runRequests (db : CharDB) (reqs : List (String × List ℤ)) (s : FunState) : FunState :=
  reqs.foldl (fun st r =>
    match getFunctionHelper db st r.1 r.2 with
    | .ok p => p.2
    | .error _ => st) s

/-- The value the last store of `storeAll` leaves at a name, if any. -/
def lastVal : List (String × DFun) → String → Option DFun
  | [], _ => none
  | p :: ds, a =>
    match lastVal ds a with
    | some f => some f
    | none => if p.1 = a then some p.2 else none

/-! ## The parameter registry (`__getitem__` / `__setitem__`) -/

/-- Python's `<` between two dynamically typed values: numbers numerically,
strings lexicographically, a mixed comparison raises `TypeError` (`none`). -/
def vlt : Value → Value → Option Bool
  | .num a, .num b => some (decide (a < b))
  | .str s, .str t => some (strDataLe s.data t.data && s != t)
  | _, _ => none

/-- Errors raised by `__setitem__`: the two `ValueError`s for out-of-range
values (the spec taxonomy's OutOfRangeError), the `ValueError` for an unknown
variable name (UnknownParameterError), and Python's `TypeError` for an
order comparison between a string and a number. -/
inductive SetErr where
  | outOfRange (k : String)
  | unknown (k : String)
  | typeErr
deriving DecidableEq, Repr

/-- `self._params[key] = value`: update in place, insert if absent. -/
def paramSet : List (String × Option Value) → String → Option Value →
    List (String × Option Value)
  | [], k, v => [(k, v)]
  | (k', w) :: rest, k, v =>
    if k' = k then (k', v) :: rest else (k', w) :: paramSet rest k v

/-- `CharDB.__setitem__` (lines 706-732). -/
def setItem (db : CharDB) (key : String) (value : Option Value) :
    Except SetErr CharDB := do
  if key ∈ db.discreteParams then
    match value with
    | none => pure ()
    | some w =>
      let i := db.discreteParams.indexOf key
      if inList db.rtol db.atol (db.discreteValues.getD i []) w then pure ()
      else throw (.outOfRange key)
  else if key ∈ db.contParams then
    match value with
    | none => pure ()
    | some w =>
      let vals := db.contValues.getD (db.contParams.indexOf key) []
      match vlt w (vals.headD (.num 0)) with
      | none => throw .typeErr
      | some true => throw (.outOfRange key)
      | some false =>
        match vlt (vals.getLastD (.num 0)) w with
        | none => throw .typeErr
        | some true => throw (.outOfRange key)
        | some false => pure ()
  else throw (.unknown key)
  return { db with params := paramSet db.params key value }

/-- `CharDB.__getitem__` (lines 691-704): `self._params[param]`; `none` is
the `KeyError` for a name with no entry in the parameter dictionary. -/
def getItem (db : CharDB) (par : String) : Option (Option Value) :=
  db.params.lookup par

/-! ## The query engine (`_get_fun_arg`, `_get_function_index`,
`get_function`, `query`) -/

/-- Errors surfaced by the query path: the `KeyError` of an uninitialized
parameter, the `ValueError` "Parameter %s value not specified" (the taxonomy's
UnsetParameterError), the `ValueError` for an illegal discrete value, and the
`IndexError` of `np.where(self._env_values == env)[0][0]` when the
environment is absent. -/
inductive QErr where
  | keyError (k : String)
  | unsetParam (k : String)
  | illegalDiscrete (k : String)
  | envNotFound (e : String)
deriving DecidableEq, Repr

/-- `kwargs.get(par, self[par])`: the default argument `self[par]` is
evaluated before the dictionary lookup, so a name absent from the parameter
registry raises `KeyError` even when `kwargs` supplies a value for it. -/
def resolveParam (db : CharDB) (kw : List (String × Option Value)) (par : String) :
    Except QErr (Option Value) :=
  match db.params.lookup par with
  | none => .error (.keyError par)
  | some d => .ok ((kw.lookup par).getD d)

/-- `CharDB._get_fun_arg` (lines 989-998): the interpolation argument vector,
one resolved value per continuous parameter, in order. -/
def getFunArg (db : CharDB) (kw : List (String × Option Value)) :
    List String → Except QErr (List Value)
  | [] => .ok []
  | par :: rest => do
    match ← resolveParam db kw par with
    | none => throw (.unsetParam par)
    | some w => do
      let t ← getFunArg db kw rest
      return w :: t

/-- The loop of `CharDB._get_function_index` over
`zip(self._discrete_params, self._discrete_values)` (lines 869-878). -/
def getFunctionIndexAux (db : CharDB) (kw : List (String × Option Value)) :
    List (String × List Value) → Except QErr (List ℤ)
  | [] => .ok []
  | (par, vals) :: rest => do
    match ← resolveParam db kw par with
    | none => throw (.unsetParam par)
    | some w =>
      let vi := indexInList db.rtol db.atol vals w
      if vi < 0 then throw (.illegalDiscrete par)
      else do
        let t ← getFunctionIndexAux db kw rest
        return vi :: t

/-- `CharDB._get_function_index` (lines 852-880): environment slot 0 followed
by the index of each discrete parameter's value. -/
def getFunctionIndex (db : CharDB) (kw : List (String × Option Value)) :
    Except QErr (List ℤ) := do
  let t ← getFunctionIndexAux db kw (db.discreteParams.zip db.discreteValues)
  return 0 :: t

/-- `np.where(self._env_values == env)[0][0]`. -/
def envIndex (db : CharDB) (e : String) : Except QErr ℤ :=
  match db.envValues.findIdx? (fun v => v = Value.str e) with
  | some i => .ok i
  | none => .error (.envNotFound e)

/-- The per-environment loop of `CharDB.get_function` (lines 943-947),
threading the lazy table through `_get_function_helper`. -/
def getFunListAux (db : CharDB) (name : String) (fidxTail : List ℤ) :
    List String → FunState → Except QErr (List (Option DFun) × FunState)
  | [], s => .ok ([], s)
  | e :: rest, s => do
    let ei ← envIndex db e
    match getFunctionHelper db s name (ei :: fidxTail) with
    | .error _ => throw (.keyError name)
    | .ok (f, s') => do
      let (fs, s'') ← getFunListAux db name fidxTail rest s'
      return (f :: fs, s'')

/-- `CharDB.get_function` (lines 926-948): the list of per-environment
interpolants wrapped by `VectorDiffFunction`. -/
def getFunction (db : CharDB) (s : FunState) (name : String)
    (kw : List (String × Option Value)) :
    Except QErr (List (Option DFun) × FunState) := do
  let fidx ← getFunctionIndex db kw
  getFunListAux db name (fidx.drop 1) db.envList s

/-- A query-result dictionary. -/
def RMap := String → Option RVal

/-- `results[n] = v`. -/
def rupd (r : RMap) (n : String) (v : RVal) : RMap :=
  fun m => if m = n then some v else r m

/-- The `for name in self._data` output loop of `query` (lines 1017-1019). -/
def queryOutputs (db : CharDB) (kw : List (String × Option Value)) (arg : List Value) :
    List String → RMap → FunState → Except QErr (RMap × FunState)
  | [], r, s => .ok (r, s)
  | n :: rest, r, s => do
    let (fl, s') ← getFunction db s n kw
    queryOutputs db kw arg rest (rupd r n (.out fl arg)) s'

/-- The echo loop of `query` (lines 1021-1022): store the input value
actually used for every discrete and continuous parameter. -/
def queryEcho (db : CharDB) (kw : List (String × Option Value)) :
    List String → RMap → Except QErr RMap
  | [], r => .ok r
  | v :: rest, r => do
    let w ← resolveParam db kw v
    queryEcho db kw rest (rupd r v (.pval w))

/-- `CharDB.query` (lines 1000-1026): build the argument vector, evaluate
every output, echo every discrete and continuous input actually used, then
overlay the derived parameters computed from the result dictionary. -/
def query (db : CharDB) (s : FunState) (kw : List (String × Option Value)) :
    Except QErr (RMap × FunState) :=
  (getFunArg db kw db.contParams).bind (fun arg =>
    (queryOutputs db kw arg (dataNames db) (fun _ => none) s).bind (fun rs =>
      (queryEcho db kw (db.discreteParams ++ db.contParams) rs.1).bind (fun r₂ =>
        .ok ((db.computeDerivedVals r₂).foldl (fun r p => rupd r p.1 p.2) r₂, rs.2))))

/-! ## Construction (`CharDB.__init__`) -/

/-- Swap two positions of a list (`l[i], l[j] = l[j], l[i]`); out-of-range
indices never occur on the paths exercised below. -/
def listSwap {α : Type} (l : List α) (i j : ℕ) : List α :=
  if h : i < l.length ∧ j < l.length then
    (l.set i (l.get ⟨j, h.2⟩)).set j (l.get ⟨i, h.1⟩)
  else l

/-- `np.swapaxes(val, idx, didx)` on the scatter-map representation: permute
the two positions of every stored key.  Dimensions beyond the attribute block
are implicit in this representation; the verified constructions only swap
attribute dimensions. -/
def keySwap (i j : ℕ) (k : List ℤ) : List ℤ :=
  listSwap k i j

/-- Swap two axes of one dense array. -/
def swapArr (i j : ℕ) (arr : Arr) : Arr :=
  arr.map (fun kv => (keySwap i j kv.1, kv.2))

/-- `for key, val in self._data.items(): self._data[key] = np.swapaxes(val, idx, didx)`. -/
def swapData (i j : ℕ) (d : List (String × Arr)) : List (String × Arr) :=
  d.map (fun kv => (kv.1, swapArr i j kv.2))

/-- State of the axis reorder pass (lines 542-555), with an instrumentation
counter for the number of swaps performed. -/
structure CanonSt where
  ps : List String
  vs : List (List Value)
  data : List (String × Arr)
  swaps : ℕ
deriving DecidableEq, Repr

/-- One iteration of the reorder loop: leave position `idx` alone when it
already holds `dpar`, otherwise locate `dpar` and swap axis metadata and
array dimensions.  `none` models the `IndexError` of `total_params[idx]` or
the `ValueError` of `total_params.index(dpar)`. -/
def canonStep (st : CanonSt) (idx : ℕ) (dpar : String) : Option CanonSt :=
  match st.ps.get? idx with
  | none => none
  | some p =>
    if p = dpar then some st
    else
      let didx := st.ps.indexOf dpar
      if didx < st.ps.length then
        some ⟨listSwap st.ps idx didx, listSwap st.vs idx didx,
              swapData idx didx st.data, st.swaps + 1⟩
      else none

/-- The `for idx, dpar in enumerate(env_disc_params)` loop. -/
def canonLoop (st : CanonSt) (idx : ℕ) : List String → Option CanonSt
  | [] => some st
  | d :: rest => do
    let st' ← canonStep st idx d
    canonLoop st' (idx + 1) rest

/-- The axis canonicalization pass: bring `env` and the discrete parameters
to the front of the sweep axes, swapping array contents alongside. -/
def canonicalize (envDisc : List String) (ps : List String) (vs : List (List Value))
    (data : List (String × Arr)) : Option CanonSt :=
  canonLoop ⟨ps, vs, data, 0⟩ 0 envDisc

/-- The post-processed cache artifact (`get_cache_file` contents). -/
structure CacheFile where
  constants : List (String × FAttr)
  sweepOrder : List String
  sweepValues : List (List Value)
  data : List (String × Arr)
deriving DecidableEq

/-- Arguments of `CharDB.__init__`.  `cache = none` models
`os.path.isfile(cache_fname)` being false, `raw = none` a missing simulation
file. -/
structure InitArgs where
  dirExists : Bool
  constants : List (String × Value)
  discreteParams : List String
  initParams : List (String × Option Value)
  envList : List String
  update : Bool
  rtol : ℚ
  atol : ℚ
  method : String
  cache : Option CacheFile
  raw : Option RawFile

/-- Errors of `__init__`: the missing-directory `ValueError`, an error from
`_load_sim_data`, and the index errors of the reorder / slicing code. -/
inductive InitErr where
  | dirMissing
  | load (e : LoadErr)
  | canonErr
  | indexErr
deriving DecidableEq, Repr

/-- The subclass capability surface: `post_process_data`,
`derived_parameters` and the two typed views of `compute_derived_parameters`. -/
structure Subclass where
  postProcess : List (String × Arr) → List String → List (List Value) →
    List (String × FAttr) → List (String × Arr)
  derivedNames : List String
  computeDerivedFuns : List (String × DFun) → List (String × DFun)
  computeDerivedVals : (String → Option RVal) → List (String × RVal)

/-- Result of construction: the database instance plus the caller's
`discrete_params` list object as left after the in-place `remove('env')`
(the source stores that same object as `self._discrete_params`). -/
structure InitResult where
  db : CharDB
  callerDiscreteParams : List String

/-- `if 'env' in discrete_params: discrete_params.remove('env')` (lines
492-493): an in-place removal of the first occurrence, visible to the caller
through the shared list object. -/
def removeEnv (l : List String) : List String :=
  if "env" ∈ l then l.erase "env" else l

/-- The load-or-build step of `__init__` (lines 510-540): take axes, arrays
and constants from the cache on a cache hit without `update`, otherwise run
`_load_sim_data` on the raw file and post-process. -/
def initLoad (sub : Subclass) (args : InitArgs) (dp : List String) :
    Except InitErr
      (List String × List (List Value) × List (String × FAttr) × List (String × Arr)) :=
  match args.cache, args.update with
  | some c, false => .ok (c.sweepOrder, c.sweepValues, c.constants, c.data)
  | _, _ =>
    match loadSimData args.rtol args.atol args.constants dp args.raw with
    | .error e => .error (.load e)
    | .ok res =>
      .ok (res.masterAttrs, res.masterValues, res.fileConstants,
           sub.postProcess res.masterDict res.masterAttrs res.masterValues
             res.fileConstants)

/-- The tail of `__init__` after the load-or-build step: axis reorder and
field assignment (lines 542-568). -/
def initFinish (sub : Subclass) (args : InitArgs) (dp : List String)
    (tps : List String) (tvs : List (List Value)) (constants : List (String × FAttr))
    (data : List (String × Arr)) : Except InitErr InitResult :=
  match canonicalize ("env" :: dp) tps tvs data with
  | none => .error .canonErr
  | some st =>
    let sidx := dp.length + 1
    if st.vs.length < sidx then .error .indexErr
    else
    match st.vs with
    | [] => .error .indexErr
    | ev :: _ =>
        .ok ⟨{ discreteParams := dp
               discreteValues := (st.vs.drop 1).take dp.length
               contParams := st.ps.drop sidx
               contValues := st.vs.drop sidx
               envValues := ev
               envList := args.envList
               constants := constants
               params := args.initParams
               rtol := args.rtol
               atol := args.atol
               method := args.method
               data := st.data
               derivedNames := sub.derivedNames
               computeDerivedFuns := sub.computeDerivedFuns
               computeDerivedVals := sub.computeDerivedVals }, dp⟩

/-- `CharDB.__init__` (lines 482-568).  The cache-write side effect of the
rebuild path has no bearing on the constructed instance and is omitted. -/
def charDBInit (sub : Subclass) (args : InitArgs) : Except InitErr InitResult :=
  if ¬args.dirExists then .error .dirMissing
  else
  match initLoad sub args (removeEnv args.discreteParams) with
  | .error e => .error e
  | .ok loaded =>
    initFinish sub args (removeEnv args.discreteParams) loaded.1 loaded.2.1
      loaded.2.2.1 loaded.2.2.2

/-! ## Claims about the axis canonicalization pass -/

theorem canonLoop_fixed (st : CanonSt) (idx : ℕ) (ds : List String)
    (h : ∀ k, k < ds.length → st.ps.get? (idx + k) = ds.get? k) :
    canonLoop st idx ds = some st := by
  induction ds generalizing idx with
  | nil => rfl
  | cons d rest ih =>
    have h0 : st.ps.get? idx = some d := by
      have := h 0 (by simp)
      simpa using this
    show (canonStep st idx d).bind (fun st2 => canonLoop st2 (idx + 1) rest) = some st
    rw [canonStep, h0]
    simp only [if_pos rfl, Option.bind_some]
    apply ih
    intro k hk
    have := h (k + 1) (by simpa using Nat.succ_lt_succ hk)
    simpa [Nat.add_assoc, Nat.add_comm 1 k] using this

/-- C6: the axis canonicalization pass is idempotent: on an axis list that is
already in canonical order — `env`, then the discrete parameters in caller
order, then the remaining (continuous) parameters — the reorder loop performs
zero swaps and leaves the axis metadata and every dense array unchanged. -/
theorem canonicalize_already_canonical (envDisc contTail : List String)
    (vs : List (List Value)) (data : List (String × Arr)) :
    canonicalize envDisc (envDisc ++ contTail) vs data =
      some ⟨envDisc ++ contTail, vs, data, 0⟩ := by
  apply canonLoop_fixed
  intro k hk
  rw [Nat.zero_add, List.get?_eq_getElem?, List.get?_eq_getElem?,
    List.getElem?_append_left hk]

/-! ## Claims about construction -/

/-- A minimal concrete subclass, used in the concrete scenarios: the identity
post-processing step, no derived parameters. -/
def subBase : Subclass :=
  ⟨fun d _ _ _ => d, [], fun _ => [], fun _ => []⟩

theorem initFinish_ok_shape (sub : Subclass) (args : InitArgs) (dp : List String)
    (tps : List String) (tvs : List (List Value)) (constants : List (String × FAttr))
    (data : List (String × Arr)) (r : InitResult)
    (hok : initFinish sub args dp tps tvs constants data = .ok r) :
    r.callerDiscreteParams = dp ∧ r.db.discreteParams = dp ∧
    r.db.constants = constants := by
  unfold initFinish at hok
  split at hok
  · exact absurd hok (by simp)
  · split at hok
    · exact absurd hok (by simp)
    · dsimp only at hok
      split at hok
      · exact absurd hok (by simp)
      · rw [show r = _ from (Except.ok.inj hok).symm]
        exact ⟨rfl, rfl, rfl⟩

/-- Successful construction publishes the caller's `discrete_params` list
after the in-place `remove('env')` both back to the caller and as
`self._discrete_params`, and the constants of the branch taken. -/
theorem charDBInit_ok_shape (sub : Subclass) (args : InitArgs) (r : InitResult)
    (hok : charDBInit sub args = .ok r) :
    r.callerDiscreteParams = removeEnv args.discreteParams ∧
    r.db.discreteParams = removeEnv args.discreteParams ∧
    (∀ c, args.cache = some c → args.update = false →
      r.db.constants = c.constants) := by
  unfold charDBInit at hok
  split at hok
  · exact absurd hok (by simp)
  · split at hok
    · exact absurd hok (by simp)
    · rename_i loaded hload
      have hs := initFinish_ok_shape sub args (removeEnv args.discreteParams)
        loaded.1 loaded.2.1 loaded.2.2.1 loaded.2.2.2 r hok
      refine ⟨hs.1, hs.2.1, ?_⟩
      intro c hc hu
      rw [hs.2.2]
      unfold initLoad at hload
      rw [hc, hu] at hload
      simp at hload
      rw [← hload]

/-- C10 (amended): when the caller's `discrete_params` list contains `'env'`,
the constructor removes its FIRST occurrence by mutating the caller-supplied
list in place (`List.erase`; the removal is visible to the caller, and the
same list object becomes `self._discrete_params`); the environment axis is
therefore not treated as a discrete parameter whenever `'env'` occurred at
most once. -/
theorem init_removes_env (sub : Subclass) (args : InitArgs) (r : InitResult)
    (hmem : "env" ∈ args.discreteParams)
    (hok : charDBInit sub args = .ok r) :
    r.callerDiscreteParams = args.discreteParams.erase "env" ∧
    r.db.discreteParams = args.discreteParams.erase "env" ∧
    (args.discreteParams.count "env" ≤ 1 → "env" ∉ r.db.discreteParams) := by
  have hs := charDBInit_ok_shape sub args r hok
  have hre : removeEnv args.discreteParams = args.discreteParams.erase "env" := by
    rw [removeEnv, if_pos hmem]
  refine ⟨hre ▸ hs.1, hre ▸ hs.2.1, ?_⟩
  intro hcount hmem2
  rw [hs.2.1, hre] at hmem2
  have := List.count_erase_self "env" args.discreteParams
  have hpos := List.count_pos_iff.mpr hmem2
  rw [this] at hpos
  omega

/-- The concrete C10 construction: caller passes `["vb", "env"]`. -/
def argsC10 : InitArgs :=
  ⟨true, [], ["vb", "env"], [], ["tt"], false, mkRat 1 100000, mkRat 1 1000000,
   "spline", some ⟨[], ["env", "vb"], [[.str "tt"], [.num 0, .num 1]], []⟩, none⟩

/-- The database instance the C10 scenario constructs. -/
def dbC10 : CharDB :=
  ⟨["vb"], [[.num 0, .num 1]], [], [], [.str "tt"], ["tt"], [], [],
   mkRat 1 100000, mkRat 1 1000000, "spline", [], [], fun _ => [], fun _ => []⟩

/-- Witness for C10's amended statement at a concrete construction. -/
theorem init_removes_env_witness :
    charDBInit subBase argsC10 = .ok ⟨dbC10, ["vb"]⟩ ∧
    (InitResult.mk dbC10 ["vb"]).callerDiscreteParams =
      argsC10.discreteParams.erase "env" ∧
    (InitResult.mk dbC10 ["vb"]).db.discreteParams =
      argsC10.discreteParams.erase "env" ∧
    "env" ∉ (InitResult.mk dbC10 ["vb"]).db.discreteParams :=
  have h := init_removes_env subBase argsC10 ⟨dbC10, ["vb"]⟩ (by decide) rfl
  ⟨rfl, h.1, h.2.1, h.2.2 (by decide)⟩

/-- Counterexample for C10 as stated: with `discrete_params = ["env", "env"]`
(which contains `'env'`), construction succeeds with `'env'` still among the
discrete parameters, so the environment axis IS treated as a discrete
parameter; only the first occurrence is removed. -/
theorem init_removes_env_counterexample :
    ((charDBInit subBase
        ⟨true, [], ["env", "env"], [], ["tt"], false, mkRat 1 100000, mkRat 1 1000000,
         "spline", some ⟨[], ["env", "env"], [[.str "tt"], [.str "tt"]], []⟩,
         none⟩).map (fun r => decide ("env" ∈ r.db.discreteParams))) = .ok true := by
  decide

/-- If every requested constant's key is present in the file attributes and
some requested constant fails the tolerance comparison, the constants
consistency loop raises the mismatch error. -/
theorem checkConstants_mismatch (rtol atol : ℚ) (cs : List (String × Value))
    (fattrs : List (String × FAttr))
    (hsome : ∀ k v, (k, v) ∈ cs → (fattrs.lookup k).isSome)
    (hmis : ∃ k v a, (k, v) ∈ cs ∧ fattrs.lookup k = some a ∧
      vequalA rtol atol v a = false) :
    ∃ k2, checkConstants rtol atol cs fattrs = .error (.constantsMismatch k2) := by
  induction cs with
  | nil =>
    obtain ⟨k, v, a, hkv, _, _⟩ := hmis
    simp at hkv
  | cons kv rest ih =>
    obtain ⟨k0, v0⟩ := kv
    obtain ⟨a0, ha0⟩ := Option.isSome_iff_exists.mp
      (hsome k0 v0 (List.mem_cons_self _ _))
    by_cases he : vequalA rtol atol v0 a0 = true
    · obtain ⟨fd, s2⟩ := ih
        (fun k v hk => hsome k v (List.mem_cons_of_mem _ hk))
        (by
          obtain ⟨k, v, a, hkv, hl, hv⟩ := hmis
          rcases List.mem_cons.mp hkv with heq | hmem
          · exfalso
            rw [Prod.mk.injEq] at heq
            obtain ⟨hk, hv2⟩ := heq
            subst hk
            subst hv2
            rw [hl] at ha0
            rw [Option.some.inj ha0] at hv
            rw [hv] at he
            exact Bool.false_ne_true he
          · exact ⟨k, v, a, hmem, hl, hv⟩)
      exact ⟨fd, by simp only [checkConstants, ha0, if_pos he]; exact s2⟩
    · refine ⟨k0, ?_⟩
      simp only [checkConstants, ha0, if_neg he]

/-- A failing constants check makes `_load_sim_data` fail with that error. -/
theorem loadSimData_constants_error (rtol atol : ℚ) (cs : List (String × Value))
    (dps : List String) (f : RawFile) (e : LoadErr)
    (h : checkConstants rtol atol cs f.attrs = .error e) :
    loadSimData rtol atol cs dps (some f) = .error e := by
  simp only [loadSimData]
  rw [h]
  rfl

/-- C1 (amended): on a cache hit without the forced-rebuild flag, the
constructor loads the cached axes and arrays and ADOPTS the cache's stored
constants without comparing them against the requested constants (a
mismatched cache is used silently); the requested-versus-stored constants
verification, raising an error on mismatch, happens only on the rebuild path
against the raw simulation file's attributes. -/
theorem init_cache_constants (sub : Subclass) (args : InitArgs) :
    (∀ c r, args.cache = some c → args.update = false → charDBInit sub args = .ok r →
      r.db.constants = c.constants) ∧
    (args.dirExists = true → args.cache = none → ∀ f, args.raw = some f →
      (∀ k v, (k, v) ∈ args.constants → (f.attrs.lookup k).isSome) →
      (∃ k v a, (k, v) ∈ args.constants ∧ f.attrs.lookup k = some a ∧
        vequalA args.rtol args.atol v a = false) →
      ∃ k2, charDBInit sub args = .error (.load (.constantsMismatch k2))) := by
  constructor
  · intro c r hc hu hok
    exact (charDBInit_ok_shape sub args r hok).2.2 c hc hu
  · intro hdir hc f hf hsome hmis
    obtain ⟨k2, hk2⟩ := checkConstants_mismatch args.rtol args.atol args.constants
      f.attrs hsome hmis
    refine ⟨k2, ?_⟩
    have hload := loadSimData_constants_error args.rtol args.atol args.constants
      (removeEnv args.discreteParams) f _ hk2
    unfold charDBInit initLoad
    rw [hdir, hc, hf] at *
    rw [hload]
    simp

/-- The cache artifact of the concrete C1 scenario: stored constant `W = 2`. -/
def cacheC1 : CacheFile :=
  ⟨[("W", .scalar (.num 2))], ["env"], [[.str "tt"]], []⟩

/-- The concrete C1 construction arguments: requested constant `W = 1`, a
cache present, no forced rebuild. -/
def argsC1 : InitArgs :=
  ⟨true, [("W", .num 1)], [], [], ["tt"], false, mkRat 1 100000, mkRat 1 1000000,
   "spline", some cacheC1, none⟩

/-- The database instance the C1 scenario constructs. -/
def dbC1 : CharDB :=
  ⟨[], [], [], [], [.str "tt"], ["tt"], [("W", .scalar (.num 2))], [],
   mkRat 1 100000, mkRat 1 1000000, "spline", [], [], fun _ => [], fun _ => []⟩

/-- The C1 rebuild scenario: no cache, raw file whose stored `W = 2`
mismatches the requested `W = 1`. -/
def argsC1raw : InitArgs :=
  ⟨true, [("W", .num 1)], [], [], ["tt"], false, mkRat 1 100000, mkRat 1 1000000,
   "spline", none, some ⟨[("W", .scalar (.num 2))], [⟨"0", [("env", .str "tt")], [], []⟩]⟩⟩

/-- Witness for C1's amended statement: the concrete cache hit adopts the
cached constants, and the concrete rebuild rejects the mismatch. -/
theorem init_cache_constants_witness :
    (charDBInit subBase argsC1 = .ok ⟨dbC1, []⟩ ∧ dbC1.constants = cacheC1.constants) ∧
    (charDBInit subBase argsC1raw).map (fun r => r.db.method) =
      .error (.load (.constantsMismatch "W")) :=
  ⟨⟨rfl, (init_cache_constants subBase argsC1).1 cacheC1 ⟨dbC1, []⟩ rfl rfl rfl⟩,
   by decide⟩

/-- Counterexample for C1 as stated: a cache whose stored constant
`W = 2` differs (beyond tolerance) from the requested `W = 1` is loaded and
adopted silently — construction succeeds instead of raising the mismatch
error. -/
theorem init_cache_constants_counterexample :
    ((charDBInit subBase
        ⟨true, [("W", .num 1)], [], [], ["tt"], false, mkRat 1 100000, mkRat 1 1000000,
         "spline", some ⟨[("W", .scalar (.num 2))], ["env"], [[.str "tt"]], []⟩,
         none⟩).map (fun r => r.db.constants)) = .ok [("W", .scalar (.num 2))] ∧
    vequalA (mkRat 1 100000) (mkRat 1 1000000) (.num 1) (.scalar (.num 2)) = false := by
  decide

/-! ## Claims about the parameter registry -/

theorem paramSet_lookup (l : List (String × Option Value)) (k : String) (v : Option Value) :
    (paramSet l k v).lookup k = some v := by
  induction l with
  | nil => simp [paramSet, List.lookup]
  | cons kv rest ih =>
    obtain ⟨k2, w⟩ := kv
    by_cases hk : k2 = k
    · subst hk
      simp [paramSet, List.lookup]
    · have hbeq : (k == k2) = false := by
        simp [Ne.symm hk]
      simp [paramSet, hk, List.lookup, hbeq, ih]

/-- C8: setting any parameter (a name that is a discrete or a continuous
parameter) to None always succeeds, and a subsequent get of that parameter
returns None. -/
theorem setItem_none (db : CharDB) (key : String)
    (h : key ∈ db.discreteParams ∨ key ∈ db.contParams) :
    setItem db key none = .ok { db with params := paramSet db.params key none } ∧
    getItem { db with params := paramSet db.params key none } key = some none := by
  refine ⟨?_, by simp [getItem, paramSet_lookup]⟩
  by_cases hd : key ∈ db.discreteParams
  · simp [setItem, hd]
    rfl
  · have hc : key ∈ db.contParams := h.resolve_left hd
    simp [setItem, hd, hc]
    rfl

/-- A concrete registry for the registry witnesses: one discrete parameter
`vb` with values `{0, 1/2}`, one continuous parameter `vgs` over `[0, 1]`. -/
def dbReg : CharDB :=
  ⟨["vb"], [[.num 0, .num (mkRat 1 2)]], ["vgs"], [[.num 0, .num 1]], [.str "tt"],
   ["tt"], [], [("vb", none), ("vgs", none)], mkRat 1 100000, mkRat 1 1000000,
   "spline", [], [], fun _ => [], fun _ => []⟩

/-- Witness for C8 on the concrete registry. -/
theorem setItem_none_witness :
    setItem dbReg "vgs" none =
      .ok { dbReg with params := paramSet dbReg.params "vgs" none } ∧
    getItem { dbReg with params := paramSet dbReg.params "vgs" none } "vgs" =
      some none :=
  setItem_none dbReg "vgs" (Or.inr (by decide))

/-- C7 (amended): `__setitem__` with a non-None value: a discrete parameter
accepts exactly the tolerance-members of its axis value set; a continuous
parameter accepts exactly the values between the FIRST and LAST stored axis
values (`val_list[0]` and `val_list[-1]`, which are the observed minimum and
maximum only when the axis is stored in ascending order); any other name is
rejected (with any value). -/
theorem setItem_validation (db : CharDB) (key : String) :
    (key ∈ db.discreteParams → ∀ w,
      (inList db.rtol db.atol
          (db.discreteValues.getD (db.discreteParams.indexOf key) []) w = true →
        setItem db key (some w) =
          .ok { db with params := paramSet db.params key (some w) }) ∧
      (inList db.rtol db.atol
          (db.discreteValues.getD (db.discreteParams.indexOf key) []) w = false →
        setItem db key (some w) = .error (.outOfRange key))) ∧
    (key ∉ db.discreteParams → key ∈ db.contParams → ∀ q h0 hl,
      (db.contValues.getD (db.contParams.indexOf key) []).headD (.num 0) = .num h0 →
      (db.contValues.getD (db.contParams.indexOf key) []).getLastD (.num 0) = .num hl →
      ((h0 ≤ q ∧ q ≤ hl →
        setItem db key (some (.num q)) =
          .ok { db with params := paramSet db.params key (some (.num q)) }) ∧
       (q < h0 ∨ hl < q →
        setItem db key (some (.num q)) = .error (.outOfRange key)))) ∧
    (key ∉ db.discreteParams → key ∉ db.contParams → ∀ v,
      setItem db key v = .error (.unknown key)) := by
  refine ⟨?_, ?_, ?_⟩
  · intro hd w
    constructor
    · intro hin
      simp at hin
      simp [setItem, hd, hin]
      rfl
    · intro hin
      simp at hin
      simp [setItem, hd, hin]
      rfl
  · intro hd hc q h0 hl hh0 hhl
    simp at hh0 hhl
    constructor
    · rintro ⟨hq1, hq2⟩
      simp [setItem, hd, hc, hh0, hhl, vlt, not_lt_of_ge hq1, not_lt_of_ge hq2]
      rfl
    · intro hor
      rcases hor with hq | hq
      · simp [setItem, hd, hc, hh0, vlt, hq]
        rfl
      · by_cases hlt : q < h0
        · simp [setItem, hd, hc, hh0, vlt, hlt]
          rfl
        · simp [setItem, hd, hc, hh0, hhl, vlt, hlt, hq]
          rfl
  · intro hd hc v
    simp [setItem, hd, hc]
    rfl

/-- Witness for C7's amended statement on the concrete registry: a discrete
member accepted, a continuous value beyond the last axis value rejected, an
unknown name rejected. -/
theorem setItem_validation_witness :
    (setItem dbReg "vb" (some (.num (mkRat 1 2))) =
      .ok { dbReg with params := paramSet dbReg.params "vb" (some (.num (mkRat 1 2))) }) ∧
    (setItem dbReg "vgs" (some (.num 2)) = .error (.outOfRange "vgs")) ∧
    (setItem dbReg "nope" none = .error (.unknown "nope")) :=
  ⟨((setItem_validation dbReg "vb").1 (by decide) (.num (mkRat 1 2))).1 (by decide),
   (((setItem_validation dbReg "vgs").2.1 (by decide) (by decide) 2 0 1
      (by decide) (by decide)).2 (Or.inr (by decide))),
   (setItem_validation dbReg "nope").2.2 (by decide) (by decide) none⟩

/-- The concrete C7 scenario: a raw file whose continuous sweep parameter `x`
is recorded as `linspace(1, 0, 2)`, a DECREASING axis `[1, 0]`. -/
def argsC7 : InitArgs :=
  ⟨true, [("W", .num 1)], [], [("x", none)], ["tt"], false, mkRat 1 100000,
   mkRat 1 1000000, "spline", none,
   some ⟨[("W", .scalar (.num 1)), ("x", .triple 1 0 2)],
         [⟨"0", [("env", .str "tt")], ["x"], [("ids", [5, 6])]⟩]⟩⟩

/-- Counterexample for C7 as stated: after constructing from a decreasing
continuous axis `x = [1, 0]` (observed minimum 0, maximum 1), setting
`x := 1/2` — which lies within the observed `[min, max]` — raises the
out-of-range error, because the code compares against `val_list[0]` and
`val_list[-1]`, not against min and max. -/
theorem setItem_minmax_counterexample :
    (charDBInit subBase argsC7).map (fun r => r.db.contValues) =
      .ok [[.num 1, .num 0]] ∧
    (charDBInit subBase argsC7).map
      (fun r => (setItem r.db "x" (some (.num (mkRat 1 2)))).map (fun d => d.method)) =
      .ok (.error (.outOfRange "x")) ∧
    ((0 : ℚ) ≤ mkRat 1 2 ∧ (mkRat 1 2 : ℚ) ≤ 1) := by
  exact ⟨by decide, by decide, by decide⟩

/-! ## Claims about the regular-grid validation -/

theorem linspace_length (a b : ℚ) (n : ℕ) : (linspace a b n).length = n := by
  unfold linspace
  split <;> simp

theorem zip_all_close (rtol atol : ℚ) :
    ∀ xs ys : List ℚ, xs.length = ys.length →
      (((xs.zip ys).all fun p => closeQ rtol atol p.1 p.2) = true ↔
        ∀ i, i < ys.length → closeQ rtol atol (xs.getD i 0) (ys.getD i 0) = true) := by
  intro xs
  induction xs with
  | nil =>
    intro ys hlen
    rw [List.length_nil] at hlen
    rw [List.eq_nil_of_length_eq_zero hlen.symm]
    simp
  | cons x xs ih =>
    intro ys hlen
    cases ys with
    | nil => simp at hlen
    | cons y ys =>
      simp only [List.length_cons, Nat.succ.injEq] at hlen
      rw [List.zip_cons_cons, List.all_cons, Bool.and_eq_true, ih ys hlen]
      constructor
      · rintro ⟨hxy, hrest⟩ i hi
        cases i with
        | zero => exact hxy
        | succ j =>
          exact hrest j (by simpa using hi)
      · intro h
        refine ⟨h 0 (by simp), fun j hj => h (j + 1) (by simpa using hj)⟩

theorem allcloseQ_iff (rtol atol : ℚ) (xs ys : List ℚ) (hlen : xs.length = ys.length) :
    allcloseQ rtol atol xs ys = true ↔
      ∀ i, i < ys.length → closeQ rtol atol (xs.getD i 0) (ys.getD i 0) = true := by
  unfold allcloseQ
  rw [Bool.and_eq_true]
  rw [zip_all_close rtol atol xs ys hlen]
  simp [hlen]

theorem linspace_getD (a b : ℚ) (n i : ℕ) (h2 : 2 ≤ n) (hi : i < n) :
    (linspace a b n).getD i 0 = a + i * (b - a) / ((n : ℚ) - 1) := by
  unfold linspace
  rw [if_neg (by omega)]
  rw [List.getD_eq_getElem?_getD, List.getElem?_map, List.getElem?_range hi]
  simp only [Option.map_some', Option.getD_some]
  rw [qadd_eq, qdiv_eq, qmul_eq, qsub_eq]
  congr 1
  rw [Nat.cast_sub (by omega : 1 ≤ n)]
  norm_num

/-- The default tolerances of the source (`rtol=1e-5`, `atol=1e-18`). -/
def rtol0 : ℚ := mkRat 1 100000

/-- The default absolute tolerance. -/
def atol0 : ℚ := mkRat 1 1000000000000000000

/-- A raw file with one environment value and a continuous attribute axis
`vb` taking values `{0, 1, 2, 3}` (step 1). -/
def fileC5ok : RawFile :=
  ⟨[("W", .scalar (.num 1))],
   [⟨"0", [("env", .str "tt"), ("vb", .num 0)], [], [("ids", [0])]⟩,
    ⟨"1", [("env", .str "tt"), ("vb", .num 1)], [], [("ids", [1])]⟩,
    ⟨"2", [("env", .str "tt"), ("vb", .num 2)], [], [("ids", [2])]⟩,
    ⟨"3", [("env", .str "tt"), ("vb", .num 3)], [], [("ids", [3])]⟩]⟩

/-- The same file with the continuous attribute axis `vb` taking the
irregular values `{0, 1, 3}`. -/
def fileC5bad : RawFile :=
  ⟨[("W", .scalar (.num 1))],
   [⟨"0", [("env", .str "tt"), ("vb", .num 0)], [], [("ids", [0])]⟩,
    ⟨"1", [("env", .str "tt"), ("vb", .num 1)], [], [("ids", [1])]⟩,
    ⟨"2", [("env", .str "tt"), ("vb", .num 3)], [], [("ids", [3])]⟩]⟩

/-- C5: a continuous (non-discrete, non-environment) attribute axis is
accepted exactly when its sorted, deduplicated values match the evenly
spaced sequence between its endpoints within tolerance
(`values[i] ≈ values[0] + i * (values[-1] - values[0]) / (n - 1)`): with
axis values `[0, 1, 2, 3]` the load succeeds, with `[0, 1, 3]` it raises the
irregular-grid error (an InconsistentDataError in the spec's taxonomy). -/
theorem loadSimData_regular_grid :
    (∀ (rtol atol : ℚ) (qs : List ℚ), 2 ≤ qs.length →
      (regularOk rtol atol qs = true ↔
        ∀ i, i < qs.length →
          |qs.headD 0 + (i : ℚ) * (qs.getLastD 0 - qs.headD 0) / ((qs.length : ℚ) - 1)
              - qs.getD i 0| ≤ atol + rtol * |qs.getD i 0|)) ∧
    (loadSimData rtol0 atol0 [("W", .num 1)] [] (some fileC5ok)).isOk = true ∧
    loadSimData rtol0 atol0 [("W", .num 1)] [] (some fileC5bad) =
      .error (.irregularGrid "vb") := by
  refine ⟨?_, by decide, by decide⟩
  intro rtol atol qs h2
  unfold regularOk
  rw [allcloseQ_iff rtol atol _ _ (by rw [linspace_length])]
  constructor
  · intro h i hi
    have := h i hi
    rw [linspace_getD _ _ _ _ h2 hi, closeQ_eq, decide_eq_true_eq] at this
    exact this
  · intro h i hi
    rw [linspace_getD _ _ _ _ h2 hi, closeQ_eq, decide_eq_true_eq]
    exact h i hi

/-- Witness for C5: the characterization applied to the concrete regular
axis `[0, 1, 2, 3]` at index 1, together with its concrete validation. -/
theorem loadSimData_regular_grid_witness :
    regularOk rtol0 atol0 [0, 1, 2, 3] = true ∧
    |([0, 1, 2, 3] : List ℚ).headD 0 +
        ((1 : ℕ) : ℚ) * (([0, 1, 2, 3] : List ℚ).getLastD 0 -
          ([0, 1, 2, 3] : List ℚ).headD 0) /
          ((([0, 1, 2, 3] : List ℚ).length : ℚ) - 1) -
        ([0, 1, 2, 3] : List ℚ).getD 1 0|
      ≤ atol0 + rtol0 * |([0, 1, 2, 3] : List ℚ).getD 1 0| :=
  ⟨by decide,
   (loadSimData_regular_grid.1 rtol0 atol0 [0, 1, 2, 3] (by decide)).mp
     (by decide) 1 (by decide)⟩

/-- Witness for C6 at a concrete canonical axis configuration. -/
theorem canonicalize_already_canonical_witness :
    canonicalize ["env", "vb"] (["env", "vb"] ++ ["vgs"])
        [[.str "tt"], [.num 0, .num (1/2)], [.num 0, .num 1]]
        [("ids", [([0, 0], [1, 2]), ([0, 1], [3, 4])])] =
      some ⟨["env", "vb"] ++ ["vgs"],
            [[.str "tt"], [.num 0, .num (1/2)], [.num 0, .num 1]],
            [("ids", [([0, 0], [1, 2]), ([0, 1], [3, 4])])], 0⟩ :=
  canonicalize_already_canonical ["env", "vb"] ["vgs"] _ _

/-! ## Claims about the lazy interpolant cache -/

theorem funState_ext (s₁ s₂ : FunState) (ht : s₁.tbl = s₂.tbl)
    (hb : s₁.builds = s₂.builds) : s₁ = s₂ := by
  cases s₁
  cases s₂
  simp_all

theorem store_tbl (s : FunState) (name : String) (idx : List ℤ) (f : DFun)
    (n : String) (i : List ℤ) :
    ((s.store name idx f).bump name idx).tbl n i =
      if n = name ∧ i = idx then some f else s.tbl n i := rfl

theorem coreGet_hit (db : CharDB) (s : FunState) (name : String) (idx : List ℤ)
    (f : DFun) (h : s.tbl name idx = some f) : coreGet db s name idx = (f, s) := by
  unfold coreGet
  rw [h]

theorem coreGet_mono (db : CharDB) (s : FunState) (name : String) (idx : List ℤ)
    (a : String) (b : List ℤ) (f : DFun) (h : s.tbl a b = some f) :
    (coreGet db s name idx).2.tbl a b = some f := by
  unfold coreGet
  cases hs : s.tbl name idx with
  | some g => exact h
  | none =>
    show (if a = name ∧ b = idx then some _ else s.tbl a b) = some f
    by_cases hab : a = name ∧ b = idx
    · obtain ⟨h1, h2⟩ := hab
      subst h1
      subst h2
      rw [hs] at h
      cases h
    · rw [if_neg hab]
      exact h

theorem coreGet_cached (db : CharDB) (s : FunState) (name : String) (idx : List ℤ) :
    (coreGet db s name idx).2.tbl name idx = some (coreGet db s name idx).1 := by
  unfold coreGet
  cases hs : s.tbl name idx with
  | some g => exact hs
  | none =>
    show (if name = name ∧ idx = idx then some _ else s.tbl name idx) = _
    rw [if_pos ⟨rfl, rfl⟩]

theorem coreDictAux_keys (db : CharDB) (idx : List ℤ) (names : List String) :
    ∀ s, (coreDictAux db idx names s).1.map Prod.fst = names := by
  induction names with
  | nil => intro s; rfl
  | cons n rest ih =>
    intro s
    show ((n, _) :: (coreDictAux db idx rest _).1).map Prod.fst = n :: rest
    simp [ih]

theorem coreDictAux_spec (db : CharDB) (idx : List ℤ) (names : List String) :
    ∀ s : FunState,
      (∀ a b f, s.tbl a b = some f → (coreDictAux db idx names s).2.tbl a b = some f) ∧
      (∀ p ∈ (coreDictAux db idx names s).1,
        (coreDictAux db idx names s).2.tbl p.1 idx = some p.2) ∧
      coreDictAux db idx names (coreDictAux db idx names s).2 =
        coreDictAux db idx names s := by
  induction names with
  | nil =>
    intro s
    exact ⟨fun a b f h => h, by simp [coreDictAux], rfl⟩
  | cons n rest ih =>
    intro s
    obtain ⟨ih_mono, ih_ent, ih_idem⟩ := ih (coreGet db s n idx).2
    have hshape : coreDictAux db idx (n :: rest) s =
        ((n, (coreGet db s n idx).1) :: (coreDictAux db idx rest (coreGet db s n idx).2).1,
         (coreDictAux db idx rest (coreGet db s n idx).2).2) := rfl
    have hhead : (coreDictAux db idx rest (coreGet db s n idx).2).2.tbl n idx =
        some (coreGet db s n idx).1 :=
      ih_mono n idx _ (coreGet_cached db s n idx)
    refine ⟨?_, ?_, ?_⟩
    · intro a b f h
      rw [hshape]
      exact ih_mono a b f (coreGet_mono db s n idx a b f h)
    · intro p hp
      rw [hshape] at hp ⊢
      rcases List.mem_cons.mp hp with heq | hmem
      · subst heq
        exact hhead
      · exact ih_ent p hmem
    · rw [hshape]
      show coreDictAux db idx (n :: rest) _ = _
      have hget : coreGet db (coreDictAux db idx rest (coreGet db s n idx).2).2 n idx =
          ((coreGet db s n idx).1, (coreDictAux db idx rest (coreGet db s n idx).2).2) :=
        coreGet_hit _ _ _ _ _ hhead
      show ((n, (coreGet db _ n idx).1) ::
          (coreDictAux db idx rest (coreGet db _ n idx).2).1,
          (coreDictAux db idx rest (coreGet db _ n idx).2).2) = _
      rw [hget]
      rw [ih_idem]

theorem coreDictAux_all_cached (db : CharDB) (idx : List ℤ) :
    ∀ (names : List String) (fd : List (String × DFun)) (s : FunState),
      fd.map Prod.fst = names → (∀ p ∈ fd, s.tbl p.1 idx = some p.2) →
      coreDictAux db idx names s = (fd, s) := by
  intro names
  induction names with
  | nil =>
    intro fd s hk _
    rw [List.map_eq_nil_iff] at hk
    subst hk
    rfl
  | cons n rest ih =>
    intro fd s hk hent
    cases fd with
    | nil => simp at hk
    | cons p fd2 =>
      obtain ⟨pk, pf⟩ := p
      simp only [List.map_cons, List.cons.injEq] at hk
      obtain ⟨hpk, hk2⟩ := hk
      subst hpk
      have hhit := coreGet_hit db s pk idx pf (hent (pk, pf) (List.mem_cons_self _ _))
      show (let p := coreGet db s pk idx
            let q := coreDictAux db idx rest p.2
            ((pk, p.1) :: q.1, q.2)) = _
      rw [hhit]
      have := ih fd2 s hk2 (fun p hp => hent p (List.mem_cons_of_mem _ hp))
      simp only [this]

theorem storeAll_builds (idx : List ℤ) (ds : List (String × DFun)) :
    ∀ s, (storeAll idx s ds).builds = s.builds := by
  induction ds with
  | nil => intro s; rfl
  | cons p ds ih =>
    intro s
    show (storeAll idx (s.store p.1 idx p.2) ds).builds = s.builds
    rw [ih]
    rfl

theorem storeAll_tbl (idx : List ℤ) (ds : List (String × DFun)) :
    ∀ (s : FunState) (a : String) (b : List ℤ),
      (storeAll idx s ds).tbl a b =
        if b = idx then (lastVal ds a).elim (s.tbl a b) some else s.tbl a b := by
  induction ds with
  | nil =>
    intro s a b
    show s.tbl a b = _
    rw [show lastVal [] a = none from rfl]
    simp
  | cons p ds ih =>
    intro s a b
    show (storeAll idx (s.store p.1 idx p.2) ds).tbl a b = _
    rw [ih]
    have hst : (s.store p.1 idx p.2).tbl a b =
        if a = p.1 ∧ b = idx then some p.2 else s.tbl a b := rfl
    have hlv2 : lastVal (p :: ds) a =
        (lastVal ds a).elim (if p.1 = a then some p.2 else none) some := by
      show (match lastVal ds a with
        | some f => some f
        | none => if p.1 = a then some p.2 else none) = _
      cases lastVal ds a <;> rfl
    rw [hlv2]
    by_cases hb : b = idx
    · rw [if_pos hb, if_pos hb]
      cases hlv : lastVal ds a with
      | some f => rfl
      | none =>
        simp only [Option.elim_none]
        rw [hst]
        by_cases hpa : p.1 = a
        · rw [if_pos ⟨hpa.symm, hb⟩, if_pos hpa]
          rfl
        · rw [if_neg (fun hc => hpa hc.1.symm), if_neg hpa]
          rfl
    · rw [if_neg hb, if_neg hb, hst, if_neg (fun hc => hb hc.2)]

theorem lastVal_eq_none (ds : List (String × DFun)) (a : String)
    (h : ∀ p ∈ ds, p.1 ≠ a) : lastVal ds a = none := by
  induction ds with
  | nil => rfl
  | cons p ds ih =>
    show (match lastVal ds a with
      | some f => some f
      | none => if p.1 = a then some p.2 else none) = none
    rw [ih (fun q hq => h q (List.mem_cons_of_mem _ hq))]
    rw [if_neg (h p (List.mem_cons_self _ _))]

theorem storeAll_idem (idx : List ℤ) (ds : List (String × DFun)) (s : FunState) :
    storeAll idx (storeAll idx s ds) ds = storeAll idx s ds := by
  apply funState_ext
  · funext a b
    have h1 := storeAll_tbl idx ds (storeAll idx s ds) a b
    have h2 := storeAll_tbl idx ds s a b
    rw [h1, h2]
    by_cases hb : b = idx
    · simp only [if_pos hb]
      cases hlv : lastVal ds a <;> simp [hlv]
    · simp only [if_neg hb]
  · rw [storeAll_builds, storeAll_builds]

theorem helper_hit (db : CharDB) (s : FunState) (name : String) (idx : List ℤ)
    (f : DFun) (hmem : name ∈ dataNames db ∨ name ∈ db.derivedNames)
    (hs : s.tbl name idx = some f) :
    getFunctionHelper db s name idx = .ok (some f, s) := by
  rw [getFunctionHelper, if_pos hmem, hs]

theorem helper_core (db : CharDB) (s : FunState) (name : String) (idx : List ℤ)
    (hmem : name ∈ dataNames db ∨ name ∈ db.derivedNames)
    (hs : s.tbl name idx = none) (hdata : name ∈ dataNames db) :
    getFunctionHelper db s name idx =
      .ok (some (buildInterp db name idx),
           (s.store name idx (buildInterp db name idx)).bump name idx) := by
  rw [getFunctionHelper, if_pos hmem, hs, if_pos hdata]

theorem helper_derived (db : CharDB) (s : FunState) (name : String) (idx : List ℤ)
    (hmem : name ∈ dataNames db ∨ name ∈ db.derivedNames)
    (hs : s.tbl name idx = none) (hdata : name ∉ dataNames db) :
    getFunctionHelper db s name idx =
      .ok ((storeAll idx (coreDictAux db idx (dataNames db) s).2
              (db.computeDerivedFuns (coreDictAux db idx (dataNames db) s).1)).tbl
             name idx,
           storeAll idx (coreDictAux db idx (dataNames db) s).2
             (db.computeDerivedFuns (coreDictAux db idx (dataNames db) s).1)) := by
  rw [getFunctionHelper, if_pos hmem, hs, if_neg hdata]

/-- The instrumentation invariant: no key has ever been built twice, and a
key with no cached entry has never been built. -/
def CacheInv (s : FunState) : Prop :=
  ∀ a b, s.builds a b ≤ 1 ∧ (s.tbl a b = none → s.builds a b = 0)

theorem store_builds (s : FunState) (name : String) (idx : List ℤ) (f : DFun)
    (a : String) (b : List ℤ) :
    ((s.store name idx f).bump name idx).builds a b =
      if a = name ∧ b = idx then s.builds a b + 1 else s.builds a b := rfl

theorem coreGet_inv (db : CharDB) (s : FunState) (name : String) (idx : List ℤ)
    (h : CacheInv s) : CacheInv (coreGet db s name idx).2 := by
  unfold coreGet
  cases hs : s.tbl name idx with
  | some f => exact h
  | none =>
    intro a b
    constructor
    · rw [store_builds]
      by_cases hab : a = name ∧ b = idx
      · rw [if_pos hab]
        obtain ⟨h1, h2⟩ := hab
        subst h1
        subst h2
        rw [(h a b).2 hs]
      · rw [if_neg hab]
        exact (h a b).1
    · intro htbl
      rw [store_tbl] at htbl
      by_cases hab : a = name ∧ b = idx
      · rw [if_pos hab] at htbl
        cases htbl
      · rw [if_neg hab] at htbl
        rw [store_builds, if_neg hab]
        exact (h a b).2 htbl

theorem coreDictAux_inv (db : CharDB) (idx : List ℤ) (names : List String) :
    ∀ s, CacheInv s → CacheInv (coreDictAux db idx names s).2 := by
  induction names with
  | nil => intro s h; exact h
  | cons n rest ih =>
    intro s h
    exact ih (coreGet db s n idx).2 (coreGet_inv db s n idx h)

theorem storeAll_inv (idx : List ℤ) (ds : List (String × DFun)) (s : FunState)
    (h : CacheInv s) : CacheInv (storeAll idx s ds) := by
  intro a b
  constructor
  · rw [storeAll_builds]
    exact (h a b).1
  · intro htbl
    rw [storeAll_tbl] at htbl
    rw [storeAll_builds]
    apply (h a b).2
    by_cases hb : b = idx
    · rw [if_pos hb] at htbl
      cases hlv : lastVal ds a with
      | some f => rw [hlv] at htbl; cases htbl
      | none => rw [hlv] at htbl; exact htbl
    · rw [if_neg hb] at htbl
      exact htbl

theorem helper_inv (db : CharDB) (s : FunState) (name : String) (idx : List ℤ)
    (h : CacheInv s) (r : Option DFun) (s2 : FunState)
    (hok : getFunctionHelper db s name idx = .ok (r, s2)) : CacheInv s2 := by
  by_cases hmem : name ∈ dataNames db ∨ name ∈ db.derivedNames
  · cases hs : s.tbl name idx with
    | some f =>
      rw [helper_hit db s name idx f hmem hs] at hok
      have hs2 : s = s2 := congrArg Prod.snd (Except.ok.inj hok)
      rw [← hs2]
      exact h
    | none =>
      by_cases hdata : name ∈ dataNames db
      · rw [helper_core db s name idx hmem hs hdata] at hok
        have hs2 : (s.store name idx (buildInterp db name idx)).bump name idx = s2 :=
          congrArg Prod.snd (Except.ok.inj hok)
        rw [← hs2]
        have hcg : coreGet db s name idx =
            (buildInterp db name idx,
             (s.store name idx (buildInterp db name idx)).bump name idx) := by
          unfold coreGet
          rw [hs]
        have hinv := coreGet_inv db s name idx h
        rw [hcg] at hinv
        exact hinv
      · rw [helper_derived db s name idx hmem hs hdata] at hok
        have hs2 : storeAll idx (coreDictAux db idx (dataNames db) s).2
            (db.computeDerivedFuns (coreDictAux db idx (dataNames db) s).1) = s2 :=
          congrArg Prod.snd (Except.ok.inj hok)
        rw [← hs2]
        exact storeAll_inv _ _ _ (coreDictAux_inv db idx (dataNames db) s h)
  · rw [getFunctionHelper, if_neg hmem] at hok
    cases hok

theorem runRequests_cons (db : CharDB) (r : String × List ℤ)
    (reqs : List (String × List ℤ)) (s : FunState) :
    runRequests db (r :: reqs) s =
      runRequests db reqs
        (match getFunctionHelper db s r.1 r.2 with
         | .ok p => p.2
         | .error _ => s) := rfl

theorem runRequests_inv (db : CharDB) (reqs : List (String × List ℤ)) :
    ∀ s, CacheInv s → CacheInv (runRequests db reqs s) := by
  induction reqs with
  | nil => intro s h; exact h
  | cons r reqs ih =>
    intro s h
    rw [runRequests_cons]
    apply ih
    cases hcall : getFunctionHelper db s r.1 r.2 with
    | ok p => exact helper_inv db s r.1 r.2 h p.1 p.2 (by rw [hcall])
    | error e => exact h

/-- C3: the interpolant cache is memoized.  Provided the subclass's derived
combinator produces only derived (non-core) names, (1) a second
`_get_function_helper` request with the identical output name and index
returns the identical interpolant object and leaves the lazy table unchanged
(requesting twice equals requesting once), and (2) starting from the freshly
initialized table, any sequence of requests invokes the interpolation
builder at most once per distinct `(output name, index tuple)` key. -/
theorem getFunctionHelper_memoized (db : CharDB)
    (H : ∀ fd p, p ∈ db.computeDerivedFuns fd → p.1 ∉ dataNames db) :
    (∀ s name idx,
      (getFunctionHelper db s name idx).bind
        (fun rs => getFunctionHelper db rs.2 name idx) =
      getFunctionHelper db s name idx) ∧
    (∀ reqs name idx, (runRequests db reqs initFunState).builds name idx ≤ 1) := by
  constructor
  · intro s name idx
    by_cases hmem : name ∈ dataNames db ∨ name ∈ db.derivedNames
    · cases hs : s.tbl name idx with
      | some f =>
        rw [helper_hit db s name idx f hmem hs]
        show getFunctionHelper db s name idx = _
        exact helper_hit db s name idx f hmem hs
      | none =>
        by_cases hdata : name ∈ dataNames db
        · rw [helper_core db s name idx hmem hs hdata]
          show getFunctionHelper db
            ((s.store name idx (buildInterp db name idx)).bump name idx) name idx = _
          exact helper_hit db _ name idx _ hmem (by rw [store_tbl, if_pos ⟨rfl, rfl⟩])
        · rw [helper_derived db s name idx hmem hs hdata]
          show getFunctionHelper db
            (storeAll idx (coreDictAux db idx (dataNames db) s).2
              (db.computeDerivedFuns (coreDictAux db idx (dataNames db) s).1))
            name idx = _
          have hspec := coreDictAux_spec db idx (dataNames db) s
          have hcached : coreDictAux db idx (dataNames db)
              (storeAll idx (coreDictAux db idx (dataNames db) s).2
                (db.computeDerivedFuns (coreDictAux db idx (dataNames db) s).1)) =
              ((coreDictAux db idx (dataNames db) s).1,
               storeAll idx (coreDictAux db idx (dataNames db) s).2
                (db.computeDerivedFuns (coreDictAux db idx (dataNames db) s).1)) := by
            apply coreDictAux_all_cached db idx (dataNames db) _ _
              (coreDictAux_keys db idx (dataNames db) s)
            intro q hq
            rw [storeAll_tbl, if_pos rfl]
            rw [lastVal_eq_none _ q.1 ?hkeys]
            · exact hspec.2.1 q hq
            · intro pp hpp
              have hnot := H (coreDictAux db idx (dataNames db) s).1 pp hpp
              have hq1 : q.1 ∈ dataNames db := by
                rw [← coreDictAux_keys db idx (dataNames db) s]
                exact List.mem_map_of_mem Prod.fst hq
              intro heq
              rw [heq] at hnot
              exact hnot hq1
          cases hr : (storeAll idx (coreDictAux db idx (dataNames db) s).2
              (db.computeDerivedFuns (coreDictAux db idx (dataNames db) s).1)).tbl
              name idx with
          | some f =>
            exact helper_hit db _ name idx f hmem hr
          | none =>
            rw [helper_derived db _ name idx hmem hr hdata]
            rw [hcached]
            rw [storeAll_idem]
            rw [hr]
    · rw [getFunctionHelper, if_neg hmem]
      rfl
  · intro reqs name idx
    have hinv : CacheInv initFunState := by
      intro a b
      exact ⟨Nat.zero_le 1, fun _ => rfl⟩
    exact (runRequests_inv db reqs initFunState hinv name idx).1

/-- A concrete database with one simulated output `ids` and one derived
parameter `gm`, used as the memoization witness instance. -/
def dbMemo : CharDB :=
  ⟨[], [], [], [], [.str "tt"], ["tt"], [], [], rtol0, atol0, "spline",
   [("ids", [([0], [1])])], ["gm"], fun _ => [("gm", .ext "g" [])], fun _ => []⟩

/-- Witness for C3 on the concrete instance: repeated retrieval of `ids` at
index `[0]` is idempotent, and a request sequence touching both the core and
the derived output builds each key at most once. -/
theorem getFunctionHelper_memoized_witness :
    ((getFunctionHelper dbMemo initFunState "ids" [0]).bind
        (fun rs => getFunctionHelper dbMemo rs.2 "ids" [0]) =
      getFunctionHelper dbMemo initFunState "ids" [0]) ∧
    (runRequests dbMemo [("ids", [0]), ("gm", [0]), ("ids", [0]), ("gm", [0])]
        initFunState).builds "ids" [0] ≤ 1 :=
  have h := getFunctionHelper_memoized dbMemo (by
    intro fd p hp
    have hp2 : p ∈ [(("gm" : String), DFun.ext "g" [])] := hp
    have hpe : p = ("gm", DFun.ext "g" []) := by simpa using hp2
    rw [hpe]
    decide)
  ⟨h.1 initFunState "ids" [0],
   h.2 [("ids", [0]), ("gm", [0]), ("ids", [0]), ("gm", [0])] "ids" [0]⟩

/-! ## The query path: unset continuous parameters and the input echo -/

/-- A database with one discrete axis `w`, one continuous axis `x` whose
registry binding is unset, one simulated output `ids`, and no derived
parameters, used as the query-path witness instance. -/
def dbQ : CharDB :=
  ⟨["w"], [[.num 1, .num 2]], ["x"], [[.num 0, .num 1]], [.str "tt"], ["tt"],
   [], [("w", some (.num 1)), ("x", none)], rtol0, atol0, "spline",
   [("ids", [([0, 0, 0], [1])])], [], fun _ => [], fun _ => []⟩

/-- A query call supplying no bindings: `x` falls back to the unset registry
entry. -/
def kwA : List (String × Option Value) := []

/-- A query call supplying `x = 1` directly. -/
def kwB : List (String × Option Value) := [("x", some (.num 1))]

/-- The result of the fully specified witness query. -/
def qresB : Except QErr (RMap × FunState) := query dbQ initFunState kwB

/-- The result dictionary of the witness query. -/
def rB : RMap :=
  match qresB with
  | .ok (r, _) => r
  | .error _ => fun _ => none

/-- The function-table state after the witness query. -/
def sB : FunState :=
  match qresB with
  | .ok (_, s) => s
  | .error _ => initFunState

/-- Look an entry up inside an `Except`-wrapped query result. -/
def rvalAt (e : Except QErr (RMap × FunState)) (m : String) : Option (Option RVal) :=
  match e with
  | .ok (r, _) => some (r m)
  | .error _ => none

theorem except_bind_ok {α β γ : Type} (a : α) (f : α → Except γ β) :
    (Except.ok a : Except γ α).bind f = f a := rfl

theorem except_bind_err {α β γ : Type} (e : γ) (f : α → Except γ β) :
    (Except.error e : Except γ α).bind f = .error e := rfl

theorem resolveParam_isSome (db : CharDB) (kw : List (String × Option Value))
    (p : String) (h : (db.params.lookup p).isSome) :
    ∃ w, resolveParam db kw p = .ok w := by
  cases hp : db.params.lookup p with
  | none => rw [hp] at h; exact absurd h (by decide)
  | some d => exact ⟨(kw.lookup p).getD d, by simp only [resolveParam, hp]⟩

theorem getFunArg_cons (db : CharDB) (kw : List (String × Option Value))
    (p : String) (rest : List String) :
    getFunArg db kw (p :: rest) =
      (resolveParam db kw p).bind (fun x =>
        match x with
        | none => .error (.unsetParam p)
        | some w => (getFunArg db kw rest).bind (fun t => .ok (w :: t))) := rfl

/-- If every continuous parameter has a registry entry and some continuous
parameter resolves to `None`, the argument builder raises the
value-not-specified error. -/
theorem getFunArg_unset (db : CharDB) (kw : List (String × Option Value)) :
    ∀ ps : List String, (∀ p ∈ ps, (db.params.lookup p).isSome) →
    (∃ par ∈ ps, resolveParam db kw par = .ok none) →
    ∃ q, getFunArg db kw ps = .error (.unsetParam q) := by
  intro ps
  induction ps with
  | nil =>
    intro _ htrig
    obtain ⟨par, hmem, _⟩ := htrig
    exact absurd hmem (List.not_mem_nil par)
  | cons p rest ih =>
    intro hreg htrig
    cases hp : resolveParam db kw p with
    | error e =>
      obtain ⟨w', hw'⟩ := resolveParam_isSome db kw p (hreg p (List.mem_cons_self p rest))
      rw [hp] at hw'
      simp at hw'
    | ok w =>
      match w, hp with
      | none, hp =>
        refine ⟨p, ?_⟩
        rw [getFunArg_cons, hp, except_bind_ok]
      | some v, hp =>
        obtain ⟨par, hmem, hpar⟩ := htrig
        have hmem' : par ∈ rest := by
          rcases List.mem_cons.mp hmem with h | h
          · subst h; rw [hpar] at hp; simp at hp
          · exact h
        obtain ⟨q, hq⟩ := ih (fun x hx => hreg x (List.mem_cons_of_mem p hx))
          ⟨par, hmem', hpar⟩
        refine ⟨q, ?_⟩
        rw [getFunArg_cons, hp, except_bind_ok]
        show (getFunArg db kw rest).bind _ = _
        rw [hq]
        rfl

theorem queryEcho_cons (db : CharDB) (kw : List (String × Option Value))
    (v : String) (rest : List String) (r : RMap) :
    queryEcho db kw (v :: rest) r =
      (resolveParam db kw v).bind
        (fun w => queryEcho db kw rest (rupd r v (.pval w))) := rfl

/-- The echo loop leaves names outside its list untouched, and stores for
every name in its list the resolved input value. -/
theorem queryEcho_spec (db : CharDB) (kw : List (String × Option Value)) :
    ∀ (vs : List String) (r₀ r' : RMap),
    queryEcho db kw vs r₀ = .ok r' →
    (∀ m, m ∉ vs → r' m = r₀ m) ∧
    (∀ p ∈ vs, ∃ w, resolveParam db kw p = .ok w ∧ r' p = some (.pval w)) := by
  intro vs
  induction vs with
  | nil =>
    intro r₀ r' h
    have hr : r₀ = r' := Except.ok.inj h
    constructor
    · intro m _; rw [← hr]
    · intro p hp; exact absurd hp (List.not_mem_nil p)
  | cons v rest ih =>
    intro r₀ r' h
    rw [queryEcho_cons] at h
    cases hv : resolveParam db kw v with
    | error e =>
      rw [hv, except_bind_err] at h
      simp at h
    | ok w =>
      rw [hv, except_bind_ok] at h
      obtain ⟨hpres, hecho⟩ := ih (rupd r₀ v (.pval w)) r' h
      constructor
      · intro m hm
        have hm1 : m ∉ rest := fun hh => hm (List.mem_cons_of_mem v hh)
        have hm2 : m ≠ v := fun hh => hm (hh ▸ List.mem_cons_self v rest)
        rw [hpres m hm1]
        show (if m = v then _ else r₀ m) = r₀ m
        rw [if_neg hm2]
      · intro p hp
        by_cases hpr : p ∈ rest
        · exact hecho p hpr
        · have hpv : p = v := by
            rcases List.mem_cons.mp hp with h' | h'
            · exact h'
            · exact absurd h' hpr
          subst hpv
          refine ⟨w, hv, ?_⟩
          rw [hpres p hpr]
          show (if p = p then some (RVal.pval w) else r₀ p) = some (RVal.pval w)
          rw [if_pos rfl]

/-- Overlaying a result dictionary with entries whose names all differ from
`p` does not change the entry at `p`. -/
theorem foldl_rupd_not_mem :
    ∀ (ds : List (String × RVal)) (r : RMap) (p : String),
    (∀ q ∈ ds, q.1 ≠ p) →
    (ds.foldl (fun r q => rupd r q.1 q.2) r) p = r p := by
  intro ds
  induction ds with
  | nil => intro r p _; rfl
  | cons d ds ih =>
    intro r p hq
    rw [List.foldl_cons]
    rw [ih (rupd r d.1 d.2) p (fun q hq' => hq q (List.mem_cons_of_mem d hq'))]
    show (if p = d.1 then _ else r p) = r p
    rw [if_neg (fun hh => hq d (List.mem_cons_self d ds) hh.symm)]

/-- C9: (a) when some continuous axis is supplied no value in the call's
bindings and its registry binding is unset (`None`), `query` raises the
parameter-value-not-specified error (given that every continuous axis at
least has a registry entry, as the constructor's `init_params` provides);
(b) whenever `query` returns a result dictionary, that dictionary echoes,
for every discrete and every continuous parameter, the input value actually
used — `kwargs.get(var, self[var])` — (given that the derived-parameter hook
never reuses a sweep-parameter name, so the final overlay cannot clobber an
echo). -/
theorem query_unset_param_and_echo (db : CharDB) (s : FunState)
    (kw : List (String × Option Value))
    (Hreg : ∀ p ∈ db.contParams, (db.params.lookup p).isSome)
    (Hd : ∀ r p, p ∈ db.computeDerivedVals r →
        p.1 ∉ db.discreteParams ++ db.contParams) :
    ((∃ par ∈ db.contParams, kw.lookup par = none ∧
        db.params.lookup par = some none) →
      ∃ q, query db s kw = .error (.unsetParam q)) ∧
    (∀ r s', query db s kw = .ok (r, s') →
      ∀ p ∈ db.discreteParams ++ db.contParams,
        ∃ w, resolveParam db kw p = .ok w ∧ r p = some (.pval w)) := by
  constructor
  · rintro ⟨par, hmem, hkw, hpar⟩
    have htrig : ∃ q ∈ db.contParams, resolveParam db kw q = .ok none := by
      refine ⟨par, hmem, ?_⟩
      simp only [resolveParam, hpar, hkw]
      rfl
    obtain ⟨q, hq⟩ := getFunArg_unset db kw db.contParams Hreg htrig
    refine ⟨q, ?_⟩
    unfold query
    rw [hq, except_bind_err]
  · intro r s' hok
    unfold query at hok
    cases hArg : getFunArg db kw db.contParams with
    | error e =>
      rw [hArg, except_bind_err] at hok
      simp at hok
    | ok arg =>
      rw [hArg, except_bind_ok] at hok
      cases hOut : queryOutputs db kw arg (dataNames db) (fun _ => none) s with
      | error e =>
        rw [hOut, except_bind_err] at hok
        simp at hok
      | ok rs =>
        rw [hOut, except_bind_ok] at hok
        cases hEcho : queryEcho db kw (db.discreteParams ++ db.contParams) rs.1 with
        | error e =>
          rw [hEcho, except_bind_err] at hok
          simp at hok
        | ok r₂ =>
          rw [hEcho, except_bind_ok] at hok
          have hpair := Except.ok.inj hok
          have hr : ((db.computeDerivedVals r₂).foldl
              (fun r p => rupd r p.1 p.2) r₂ : RMap) = r :=
            congrArg Prod.fst hpair
          intro p hp
          obtain ⟨hpres, hecho⟩ :=
            queryEcho_spec db kw (db.discreteParams ++ db.contParams) rs.1 r₂ hEcho
          obtain ⟨w, hw, hr₂⟩ := hecho p hp
          refine ⟨w, hw, ?_⟩
          rw [← hr]
          rw [foldl_rupd_not_mem _ r₂ p
            (fun q hq heq => Hd r₂ q hq (heq.symm ▸ hp))]
          exact hr₂

/-- Witness for C9 on the concrete instance: with no bindings the unset
continuous axis `x` raises the value-not-specified error; with `x` supplied
the query succeeds and its result echoes the value used for `x`. -/
theorem query_unset_param_and_echo_witness :
    (∃ q, query dbQ initFunState kwA = Except.error (QErr.unsetParam q)) ∧
    (∃ w, resolveParam dbQ kwB "x" = .ok w ∧
      rvalAt (query dbQ initFunState kwB) "x" = some (some (.pval w))) := by
  have hd : ∀ r p, p ∈ dbQ.computeDerivedVals r →
      p.1 ∉ dbQ.discreteParams ++ dbQ.contParams :=
    fun _ p hp => absurd hp (List.not_mem_nil p)
  constructor
  · exact (query_unset_param_and_echo dbQ initFunState kwA (by decide) hd).1
      ⟨"x", by decide, by decide, by decide⟩
  · obtain ⟨w, hw, hr⟩ := (query_unset_param_and_echo dbQ initFunState kwB
      (by decide) hd).2 rB sB rfl "x" (by decide)
    refine ⟨w, hw, ?_⟩
    show some (rB "x") = some (some (RVal.pval w))
    rw [hr]

/-! ## Synthetic full-sweep datasets (Cartesian products of axis values) -/

/-- A well-separated axis value list: every value is tolerance-equal to
itself and no two distinct entries are tolerance-equal (in either order).
This is the regime in which the tolerance comparisons of `_in_list` and
`_index_in_list` behave like exact equality. -/
def SepVals (rtol atol : ℚ) (vs : List Value) : Prop :=
  (∀ v ∈ vs, vequal rtol atol v v = true) ∧
  vs.Pairwise (fun a b =>
    vequal rtol atol a b = false ∧ vequal rtol atol b a = false)

instance (rtol atol : ℚ) (vs : List Value) : Decidable (SepVals rtol atol vs) := by
  unfold SepVals
  infer_instance

/-- All tuples of the Cartesian product of the axis value lists, leading
axis slowest. -/
def tuplesOf : List (List Value) → List (List Value)
  | [] => [[]]
  | vs :: rest => (vs.map (fun v => (tuplesOf rest).map (fun t => v :: t))).flatten

/-- The record group of one sweep-point tuple: the group name is the running
index, the attributes assign each axis name its coordinate, and a single
output dataset carries that record's sub-array. -/
def grpOf (names : List String) (out : String) (subf : ℕ → Sub)
    (it : ℕ × List Value) : Group :=
  ⟨toString it.1, names.zip it.2, [], [(out, subf it.1)]⟩

/-- The synthetic raw dataset: one record group per tuple of the full
Cartesian product of the axis values. -/
def mkGroups (names : List String) (axesVals : List (List Value))
    (out : String) (subf : ℕ → Sub) : List Group :=
  (tuplesOf axesVals).enum.map (grpOf names out subf)

/-- The per-axis deduplication fold performed by the `attr_table` loop,
viewed column-wise: each tuple updates every axis column through
`updEntry`. -/
def colsFold (rtol atol : ℚ) (acc : List (List Value)) (ts : List (List Value)) :
    List (List Value) :=
  ts.foldl (fun a t => List.zipWith (updEntry rtol atol) a t) acc

/-- The sorted, deduplicated axes computed by `_load_sim_data` from the
group attributes (`attr_order` zipped with `attr_values`). -/
def sortedAxes (rtol atol : ℚ) (gs : List Group) : List (String × List Value) :=
  (sortStrs ((attrTable rtol atol gs).map (·.1))).map
    (fun a => (a, sortVals (((attrTable rtol atol gs).lookup a).getD [])))

theorem indexInListAux_not_mem (rtol atol : ℚ) (v : Value) :
    ∀ (l : List Value), (∀ w ∈ l, vequal rtol atol w v = false) →
    ∀ i : ℤ, indexInListAux rtol atol v l i = -1 := by
  intro l
  induction l with
  | nil => intro _ i; rfl
  | cons a rest ih =>
    intro h i
    rw [indexInListAux, if_neg (by rw [h a (List.mem_cons_self a rest)]; exact Bool.false_ne_true)]
    exact ih (fun w hw => h w (List.mem_cons_of_mem a hw)) (i + 1)

theorem indexInListAux_ge_iff (rtol atol : ℚ) (v : Value) :
    ∀ (l : List Value) (i : ℤ), 0 ≤ i →
    ((0 ≤ indexInListAux rtol atol v l i) ↔ ∃ w ∈ l, vequal rtol atol w v = true) := by
  intro l
  induction l with
  | nil =>
    intro i _
    simp only [indexInListAux]
    constructor
    · intro h; exact absurd h (by decide)
    · rintro ⟨w, hw, _⟩; exact absurd hw (List.not_mem_nil w)
  | cons a rest ih =>
    intro i hi
    rw [indexInListAux]
    by_cases ha : vequal rtol atol a v = true
    · rw [if_pos ha]
      exact ⟨fun _ => ⟨a, List.mem_cons_self a rest, ha⟩, fun _ => hi⟩
    · rw [if_neg ha]
      rw [ih (i + 1) (by omega)]
      constructor
      · rintro ⟨w, hw, hww⟩
        exact ⟨w, List.mem_cons_of_mem a hw, hww⟩
      · rintro ⟨w, hw, hww⟩
        rcases List.mem_cons.mp hw with h | h
        · subst h; exact absurd hww ha
        · exact ⟨w, h, hww⟩

/-- `_in_list` finds a tolerance-equal element exactly when one exists. -/
theorem inList_iff (rtol atol : ℚ) (l : List Value) (v : Value) :
    inList rtol atol l v = true ↔ ∃ w ∈ l, vequal rtol atol w v = true := by
  rw [inList, decide_eq_true_eq]
  exact indexInListAux_ge_iff rtol atol v l 0 (by decide)

theorem inList_eq_false (rtol atol : ℚ) (l : List Value) (v : Value) :
    inList rtol atol l v = false ↔ ∀ w ∈ l, vequal rtol atol w v = false := by
  rw [← Bool.not_eq_true, (inList_iff rtol atol l v).not]
  push_neg
  constructor
  · intro h w hw
    cases hb : vequal rtol atol w v with
    | false => rfl
    | true => exact absurd hb (h w hw)
  · intro h w hw
    rw [h w hw]
    exact Bool.false_ne_true

theorem sepVals_nodup {rtol atol : ℚ} {vs : List Value} (h : SepVals rtol atol vs) :
    vs.Nodup := by
  refine List.Pairwise.imp_of_mem ?_ h.2
  intro a b ha _ hr heq
  subst heq
  rw [h.1 a ha] at hr
  exact Bool.false_ne_true hr.1.symm

theorem sepVals_vequal_false {rtol atol : ℚ} {vs : List Value}
    (h : SepVals rtol atol vs) {a b : Value} (ha : a ∈ vs) (hb : b ∈ vs)
    (hne : a ≠ b) : vequal rtol atol a b = false := by
  have hsymm : Symmetric (fun a b : Value =>
      vequal rtol atol a b = false ∧ vequal rtol atol b a = false) :=
    fun _ _ hp => ⟨hp.2, hp.1⟩
  exact (List.Pairwise.forall hsymm h.2 ha hb hne).1

theorem sepVals_vequal_iff {rtol atol : ℚ} {vs : List Value}
    (h : SepVals rtol atol vs) {a b : Value} (ha : a ∈ vs) (hb : b ∈ vs) :
    (vequal rtol atol a b = true ↔ a = b) := by
  constructor
  · intro hv
    by_contra hne
    rw [sepVals_vequal_false h ha hb hne] at hv
    exact Bool.false_ne_true hv
  · intro he; subst he; exact h.1 a ha

/-- In a separated regime, `_in_list` is plain membership (for candidate
lists drawn from the axis). -/
theorem inList_sep_iff {rtol atol : ℚ} {vs : List Value} (h : SepVals rtol atol vs)
    {c : List Value} (hc : ∀ x ∈ c, x ∈ vs) {v : Value} (hv : v ∈ vs) :
    (inList rtol atol c v = true ↔ v ∈ c) := by
  rw [inList_iff]
  constructor
  · rintro ⟨w, hw, hww⟩
    rw [(sepVals_vequal_iff h (hc w hw) hv).mp hww] at hw
    exact hw
  · intro hvc
    exact ⟨v, hvc, h.1 v hv⟩

/-- In a separated regime, `_index_in_list` is the plain index of the value. -/
theorem indexInListAux_sep {rtol atol : ℚ} {vs : List Value}
    (h : SepVals rtol atol vs) :
    ∀ (l : List Value), (∀ x ∈ l, x ∈ vs) → ∀ v ∈ vs, v ∈ l →
    ∀ i : ℤ, indexInListAux rtol atol v l i = i + (l.indexOf v : ℤ) := by
  intro l
  induction l with
  | nil => intro _ v _ hvl; exact absurd hvl (List.not_mem_nil v)
  | cons a rest ih =>
    intro hl v hv hvl i
    by_cases hav : a = v
    · subst hav
      rw [indexInListAux, if_pos (h.1 a hv), List.indexOf_cons_self]
      simp
    · rw [indexInListAux,
        if_neg (by
          rw [sepVals_vequal_false h (hl a (List.mem_cons_self a rest)) hv hav]
          exact Bool.false_ne_true)]
      have hvr : v ∈ rest := by
        rcases List.mem_cons.mp hvl with h' | h'
        · exact absurd h'.symm hav
        · exact h'
      rw [ih (fun x hx => hl x (List.mem_cons_of_mem a hx)) v hv hvr (i + 1)]
      rw [List.indexOf_cons_ne _ (fun h' => hav h')]
      push_cast
      ring

theorem indexInList_sep {rtol atol : ℚ} {vs : List Value} (h : SepVals rtol atol vs)
    {v : Value} (hv : v ∈ vs) : indexInList rtol atol vs v = (vs.indexOf v : ℤ) := by
  rw [indexInList, indexInListAux_sep h vs (fun x hx => hx) v hv hv 0]
  ring

/-- On a separated axis, distinct values receive distinct indices. -/
theorem indexInList_sep_inj {rtol atol : ℚ} {vs : List Value}
    (h : SepVals rtol atol vs) {a b : Value} (ha : a ∈ vs) (hb : b ∈ vs)
    (hix : indexInList rtol atol vs a = indexInList rtol atol vs b) : a = b := by
  rw [indexInList_sep h ha, indexInList_sep h hb] at hix
  have : vs.indexOf a = vs.indexOf b := by exact_mod_cast hix
  exact (List.indexOf_inj ha hb).mp this

theorem mem_tuplesOf {t : List Value} :
    ∀ {axesVals : List (List Value)},
    t ∈ tuplesOf axesVals ↔ List.Forall₂ (· ∈ ·) t axesVals := by
  induction t with
  | nil =>
    intro axesVals
    cases axesVals with
    | nil => simp [tuplesOf]
    | cons vs rest =>
      simp only [tuplesOf, List.mem_flatten, List.mem_map]
      constructor
      · rintro ⟨l, ⟨v, _, rfl⟩, hl⟩
        obtain ⟨t', _, ht'⟩ := List.mem_map.mp hl
        exact absurd ht' (by simp)
      · intro h
        exact absurd h (by simp)
  | cons x t ih =>
    intro axesVals
    cases axesVals with
    | nil => simp [tuplesOf]
    | cons vs rest =>
      simp only [tuplesOf, List.mem_flatten, List.mem_map, List.forall₂_cons]
      constructor
      · rintro ⟨l, ⟨v, hv, rfl⟩, hl⟩
        obtain ⟨t', ht', heq⟩ := List.mem_map.mp hl
        obtain ⟨h1, h2⟩ := List.cons.inj heq.symm
        subst h1
        exact ⟨hv, ih.mp (h2 ▸ ht')⟩
      · rintro ⟨hx, ht⟩
        exact ⟨(tuplesOf rest).map (x :: ·), ⟨x, hx, rfl⟩,
          List.mem_map.mpr ⟨t, ih.mpr ht, rfl⟩⟩

theorem tuplesOf_length :
    ∀ (axesVals : List (List Value)),
    (tuplesOf axesVals).length = (axesVals.map List.length).prod := by
  intro axesVals
  induction axesVals with
  | nil => rfl
  | cons vs rest ih =>
    simp only [tuplesOf, List.length_flatten, List.map_map, List.map_cons, List.prod_cons]
    rw [show (List.length ∘ fun v => (tuplesOf rest).map (fun t => v :: t)) =
      (fun _ => (tuplesOf rest).length) from funext (fun v => by simp), ← ih]
    induction vs with
    | nil => simp
    | cons v vs ihv =>
      simp only [List.map_cons, List.sum_cons, List.length_cons, ihv]
      ring

theorem tuple_length_eq {t : List Value} {axesVals : List (List Value)}
    (h : t ∈ tuplesOf axesVals) : t.length = axesVals.length :=
  (mem_tuplesOf.mp h).length_eq

theorem tuplesOf_ne_nil {axesVals : List (List Value)}
    (hne : ∀ vs ∈ axesVals, vs ≠ []) : tuplesOf axesVals ≠ [] := by
  intro h
  have h0 : (tuplesOf axesVals).length = 0 := by rw [h]; rfl
  rw [tuplesOf_length] at h0
  have h0m : (0 : ℕ) ∈ axesVals.map List.length := List.prod_eq_zero_iff.mp h0
  obtain ⟨vs, hvs, hvl⟩ := List.mem_map.mp h0m
  exact hne vs hvs (List.length_eq_zero.mp hvl)

theorem tuplesOf_nodup :
    ∀ {axesVals : List (List Value)}, (∀ vs ∈ axesVals, vs.Nodup) →
    (tuplesOf axesVals).Nodup := by
  intro axesVals
  induction axesVals with
  | nil => intro _; simp [tuplesOf]
  | cons vs rest ih =>
    intro h
    rw [tuplesOf, List.nodup_flatten]
    constructor
    · intro l hl
      obtain ⟨v, _, rfl⟩ := List.mem_map.mp hl
      exact List.Nodup.map (fun a b hab => (List.cons.inj hab).2)
        (ih (fun ws hws => h ws (List.mem_cons_of_mem vs hws)))
    · rw [List.pairwise_map]
      refine List.Pairwise.imp_of_mem ?_ (h vs (List.mem_cons_self vs rest))
      intro a b _ _ hab
      intro x hxa hxb
      obtain ⟨t₁, _, rfl⟩ := List.mem_map.mp hxa
      obtain ⟨t₂, _, heq⟩ := List.mem_map.mp hxb
      exact hab (List.cons.inj heq).1.symm

theorem updEntry_of_inList {rtol atol : ℚ} {l : List Value} {v : Value}
    (h : inList rtol atol l v = true) : updEntry rtol atol l v = l := by
  rw [updEntry, if_pos h]

theorem updEntry_of_not_inList {rtol atol : ℚ} {l : List Value} {v : Value}
    (h : inList rtol atol l v = false) : updEntry rtol atol l v = l ++ [v] := by
  rw [updEntry, if_neg (by rw [h]; exact Bool.false_ne_true)]

theorem inList_nil (rtol atol : ℚ) (v : Value) : inList rtol atol [] v = false := rfl

theorem addVal_absent (rtol atol : ℚ) (k : String) (v : Value) :
    ∀ (tbl : List (String × List Value)), k ∉ tbl.map (·.1) →
    addVal rtol atol tbl k v = tbl ++ [(k, [v])] := by
  intro tbl
  induction tbl with
  | nil => intro _; rfl
  | cons kv rest ih =>
    intro hk
    obtain ⟨k', l⟩ := kv
    have hk1 : k' ≠ k := fun h => hk (h ▸ List.mem_cons_self _ _)
    rw [addVal, if_neg hk1, ih (fun h => hk (List.mem_cons_of_mem _ h))]
    rfl

theorem addVal_present (rtol atol : ℚ) (n : String) (v : Value) (l₀ : List Value)
    (rest : List (String × List Value)) :
    ∀ (pre : List (String × List Value)), n ∉ pre.map (·.1) →
    addVal rtol atol (pre ++ (n, l₀) :: rest) n v =
      pre ++ (n, updEntry rtol atol l₀ v) :: rest := by
  intro pre
  induction pre with
  | nil => intro _; rw [List.nil_append, addVal, if_pos rfl]; rfl
  | cons kv pre' ih =>
    intro hn
    obtain ⟨p, lp⟩ := kv
    have hp : p ≠ n := fun h => hn (h ▸ List.mem_cons_self _ _)
    rw [List.cons_append, addVal, if_neg hp, ih (fun h => hn (List.mem_cons_of_mem _ h))]
    rfl

theorem zipFold_fresh (rtol atol : ℚ) :
    ∀ (names : List String) (t : List Value) (pre : List (String × List Value)),
    names.Nodup → (∀ n ∈ names, n ∉ pre.map (·.1)) → t.length = names.length →
    List.foldl (fun tb (kv : String × Value) => addVal rtol atol tb kv.1 kv.2)
      pre (names.zip t) = pre ++ names.zip (t.map (fun v => [v])) := by
  intro names
  induction names with
  | nil => intro t pre _ _ _; simp
  | cons n names' ih =>
    intro t pre hnd hpre hlen
    cases t with
    | nil => exact absurd hlen.symm (by simp)
    | cons v t' =>
      rw [List.zip_cons_cons, List.foldl_cons]
      rw [addVal_absent rtol atol n v pre (hpre n (List.mem_cons_self n names'))]
      rw [ih t' (pre ++ [(n, [v])]) (List.Nodup.of_cons hnd)
        (by
          intro m hm
          rw [List.map_append, List.mem_append]
          rintro (h | h)
          · exact hpre m (List.mem_cons_of_mem n hm) h
          · have : m = n := by simpa using h
            exact (List.nodup_cons.mp hnd).1 (this ▸ hm))
        (by simpa using hlen)]
      simp

theorem zipFold_upd (rtol atol : ℚ) :
    ∀ (names : List String) (t : List Value) (vls : List (List Value))
      (pre : List (String × List Value)),
    names.Nodup → (∀ n ∈ names, n ∉ pre.map (·.1)) →
    t.length = names.length → vls.length = names.length →
    List.foldl (fun tb (kv : String × Value) => addVal rtol atol tb kv.1 kv.2)
      (pre ++ names.zip vls) (names.zip t) =
      pre ++ names.zip (List.zipWith (updEntry rtol atol) vls t) := by
  intro names
  induction names with
  | nil => intro t vls pre _ _ _ _; simp
  | cons n names' ih =>
    intro t vls pre hnd hpre hlen hvlen
    cases t with
    | nil => exact absurd hlen.symm (by simp)
    | cons v t' =>
      cases vls with
      | nil => exact absurd hvlen.symm (by simp)
      | cons l₀ vls' =>
        rw [List.zip_cons_cons, List.zip_cons_cons, List.foldl_cons]
        dsimp only
        rw [addVal_present rtol atol n v l₀ (names'.zip vls') pre (hpre n (List.mem_cons_self n names'))]
        have hre : pre ++ (n, updEntry rtol atol l₀ v) :: names'.zip vls' =
            (pre ++ [(n, updEntry rtol atol l₀ v)]) ++ names'.zip vls' := by simp
        rw [hre]
        rw [ih t' vls' (pre ++ [(n, updEntry rtol atol l₀ v)]) (List.Nodup.of_cons hnd)
          (by
            intro m hm
            rw [List.map_append, List.mem_append]
            rintro (h | h)
            · exact hpre m (List.mem_cons_of_mem n hm) h
            · have : m = n := by simpa using h
              exact (List.nodup_cons.mp hnd).1 (this ▸ hm))
          (by simpa using hlen) (by simpa using hvlen)]
        simp

theorem zipWith_updEntry_blank (rtol atol : ℚ) :
    ∀ (names : List String) (t : List Value), t.length = names.length →
    List.zipWith (updEntry rtol atol) (names.map (fun _ => [])) t =
      t.map (fun v => [v]) := by
  intro names
  induction names with
  | nil => intro t h; rw [List.length_eq_zero.mp (h.trans rfl)]; rfl
  | cons n names' ih =>
    intro t h
    cases t with
    | nil => exact absurd h.symm (by simp)
    | cons v t' =>
      rw [List.map_cons, List.map_cons, List.zipWith_cons_cons,
        updEntry_of_not_inList (inList_nil rtol atol v), ih t' (by simpa using h)]
      rfl

theorem attrTable_fold_zip (rtol atol : ℚ) (names : List String) (hnd : names.Nodup) :
    ∀ (gsr : List Group) (tsr : List (List Value)) (vls : List (List Value)),
    gsr.map (·.attrs) = tsr.map (names.zip ·) →
    (∀ t ∈ tsr, t.length = names.length) → vls.length = names.length →
    List.foldl (addGroup rtol atol) (names.zip vls) gsr =
      names.zip (colsFold rtol atol vls tsr) := by
  intro gsr
  induction gsr with
  | nil =>
    intro tsr vls hmap _ _
    have : tsr = [] := by
      cases tsr with
      | nil => rfl
      | cons t tsr' => exact absurd hmap (by simp)
    subst this
    rfl
  | cons g gsr' ih =>
    intro tsr vls hmap htlen hvlen
    cases tsr with
    | nil => exact absurd hmap (by simp)
    | cons t tsr' =>
      rw [List.map_cons, List.map_cons] at hmap
      have hga : g.attrs = names.zip t := (List.cons.inj hmap).1
      have hrest := (List.cons.inj hmap).2
      rw [List.foldl_cons, addGroup, hga]
      rw [show names.zip vls = [] ++ names.zip vls from rfl]
      rw [zipFold_upd rtol atol names t vls [] hnd (by simp)
        (htlen t (List.mem_cons_self t tsr')) hvlen]
      rw [List.nil_append]
      rw [ih tsr' (List.zipWith (updEntry rtol atol) vls t) hrest
        (fun t' ht' => htlen t' (List.mem_cons_of_mem t ht'))
        (by
          rw [List.length_zipWith, hvlen, htlen t (List.mem_cons_self t tsr')]
          exact Nat.min_self _)]
      rfl

/-- The `attr_table` of a group list whose attributes are the axis names
zipped with per-group coordinate tuples is the axis names zipped with the
column-wise deduplication fold of those tuples. -/
theorem attrTable_zip (rtol atol : ℚ) (names : List String) (hnd : names.Nodup)
    (gs : List Group) (ts : List (List Value))
    (hmap : gs.map (·.attrs) = ts.map (names.zip ·))
    (htlen : ∀ t ∈ ts, t.length = names.length) (hne : ts ≠ []) :
    attrTable rtol atol gs =
      names.zip (colsFold rtol atol (names.map (fun _ => [])) ts) := by
  cases ts with
  | nil => exact absurd rfl hne
  | cons t₁ ts' =>
    cases gs with
    | nil => exact absurd hmap (by simp)
    | cons g₁ gs' =>
      rw [List.map_cons, List.map_cons] at hmap
      have hga : g₁.attrs = names.zip t₁ := (List.cons.inj hmap).1
      have hrest := (List.cons.inj hmap).2
      rw [attrTable, List.foldl_cons, addGroup, hga]
      rw [show (List.foldl (fun t kv => addVal rtol atol t kv.1 kv.2) []
        (names.zip t₁)) = [] ++ names.zip (t₁.map (fun v => [v])) from
        zipFold_fresh rtol atol names t₁ [] hnd (by simp)
          (htlen t₁ (List.mem_cons_self t₁ ts'))]
      rw [List.nil_append]
      have ht1 : t₁.map (fun v => [v]) =
          List.zipWith (updEntry rtol atol) (names.map (fun _ => [])) t₁ :=
        (zipWith_updEntry_blank rtol atol names t₁
          (htlen t₁ (List.mem_cons_self t₁ ts'))).symm
      rw [ht1]
      rw [attrTable_fold_zip rtol atol names hnd gs' ts'
        (List.zipWith (updEntry rtol atol) (names.map (fun _ => []))  t₁) hrest
        (fun t' ht' => htlen t' (List.mem_cons_of_mem t₁ ht'))
        (by
          rw [List.length_zipWith, List.length_map,
            htlen t₁ (List.mem_cons_self t₁ ts')]
          exact Nat.min_self _)]
      rfl

theorem enumFrom_map_snd {α : Type} :
    ∀ (n : ℕ) (l : List α), (List.enumFrom n l).map Prod.snd = l := by
  intro n l
  induction l generalizing n with
  | nil => rfl
  | cons a as ih => rw [List.enumFrom_cons, List.map_cons, ih (n + 1)]

theorem colsFold_cons (rtol atol : ℚ) (acc : List (List Value)) (t : List Value)
    (ts : List (List Value)) :
    colsFold rtol atol acc (t :: ts) =
      colsFold rtol atol (List.zipWith (updEntry rtol atol) acc t) ts := rfl

theorem colsFold_append (rtol atol : ℚ) (acc : List (List Value))
    (ts₁ ts₂ : List (List Value)) :
    colsFold rtol atol acc (ts₁ ++ ts₂) =
      colsFold rtol atol (colsFold rtol atol acc ts₁) ts₂ :=
  List.foldl_append ..

theorem inList_updEntry_self {rtol atol : ℚ} {c : List Value} {v : Value}
    (hvv : vequal rtol atol v v = true) :
    inList rtol atol (updEntry rtol atol c v) v = true := by
  cases h : inList rtol atol c v with
  | true => rw [updEntry_of_inList h]; exact h
  | false =>
    rw [updEntry_of_not_inList h]
    exact (inList_iff rtol atol _ v).mpr
      ⟨v, List.mem_append_right c (List.mem_cons_self v []), hvv⟩

theorem updEntry_idem {rtol atol : ℚ} {c : List Value} {v : Value}
    (hvv : vequal rtol atol v v = true) :
    updEntry rtol atol (updEntry rtol atol c v) v = updEntry rtol atol c v :=
  updEntry_of_inList (inList_updEntry_self hvv)

theorem colsFold_block (rtol atol : ℚ) {v : Value}
    (hvv : vequal rtol atol v v = true) :
    ∀ (ts : List (List Value)) (c₀ : List Value) (cs : List (List Value)),
    ts ≠ [] →
    colsFold rtol atol (c₀ :: cs) (ts.map (v :: ·)) =
      updEntry rtol atol c₀ v :: colsFold rtol atol cs ts := by
  intro ts
  induction ts with
  | nil => intro c₀ cs h; exact absurd rfl h
  | cons t ts' ih =>
    intro c₀ cs _
    rw [List.map_cons, colsFold_cons, List.zipWith_cons_cons]
    cases hts : ts' with
    | nil => rfl
    | cons t₂ ts'' =>
      rw [← hts, ih (updEntry rtol atol c₀ v) (List.zipWith (updEntry rtol atol) cs t)
        (by rw [hts]; exact List.cons_ne_nil t₂ ts''), updEntry_idem hvv]
      rfl

theorem colsFold_stable (rtol atol : ℚ) :
    ∀ (ts : List (List Value)) (acc : List (List Value)),
    (∀ t ∈ ts, List.zipWith (updEntry rtol atol) acc t = acc) →
    colsFold rtol atol acc ts = acc := by
  intro ts
  induction ts with
  | nil => intro acc _; rfl
  | cons t ts' ih =>
    intro acc h
    rw [colsFold_cons, h t (List.mem_cons_self t ts')]
    exact ih acc (fun t' ht' => h t' (List.mem_cons_of_mem t ht'))

theorem zipWith_updEntry_covered {rtol atol : ℚ} :
    ∀ {axesVals : List (List Value)} {t : List Value},
    List.Forall₂ (· ∈ ·) t axesVals → (∀ vs ∈ axesVals, SepVals rtol atol vs) →
    List.zipWith (updEntry rtol atol) axesVals t = axesVals := by
  intro axesVals t hf
  induction hf with
  | nil => intro _; rfl
  | @cons v vs t' axesRest hv _ ih =>
    intro hsep
    rw [List.zipWith_cons_cons, ih (fun ws hws => hsep ws (List.mem_cons_of_mem vs hws))]
    rw [updEntry_of_inList ((inList_sep_iff (hsep vs (List.mem_cons_self vs axesRest))
      (fun x hx => hx) hv).mpr hv)]

theorem colsFold_blocks_sep (rtol atol : ℚ) {vsFull : List Value}
    (hsep : SepVals rtol atol vsFull) {T : List (List Value)} (hT : T ≠ [])
    {restAxes : List (List Value)}
    (hstab : ∀ t ∈ T, List.zipWith (updEntry rtol atol) restAxes t = restAxes) :
    ∀ (vs' : List Value) (c₀ : List Value),
    (∀ x ∈ c₀, x ∈ vsFull) → (∀ x ∈ vs', x ∈ vsFull) →
    (c₀ ++ vs').Nodup →
    vs'.foldl (fun a v => colsFold rtol atol a (T.map (v :: ·))) (c₀ :: restAxes) =
      (c₀ ++ vs') :: restAxes := by
  intro vs'
  induction vs' with
  | nil => intro c₀ _ _ _; rw [List.foldl_nil, List.append_nil]
  | cons v vs'' ih =>
    intro c₀ hc₀ hvs hnd
    rw [List.foldl_cons]
    have hvf : v ∈ vsFull := hvs v (List.mem_cons_self v vs'')
    have hvc₀ : v ∉ c₀ := by
      intro hin
      have := List.disjoint_of_nodup_append hnd
      exact this hin (List.mem_cons_self v vs'')
    have hnotin : inList rtol atol c₀ v = false := by
      cases hb : inList rtol atol c₀ v with
      | false => rfl
      | true => exact absurd ((inList_sep_iff hsep hc₀ hvf).mp hb) hvc₀
    rw [colsFold_block rtol atol (hsep.1 v hvf) T c₀ restAxes hT,
      colsFold_stable rtol atol T restAxes hstab,
      updEntry_of_not_inList hnotin]
    rw [ih (c₀ ++ [v])
      (by
        intro x hx
        rcases List.mem_append.mp hx with h | h
        · exact hc₀ x h
        · rw [List.mem_singleton.mp h]; exact hvf)
      (fun x hx => hvs x (List.mem_cons_of_mem v hx))
      (by rw [List.append_cons] at hnd; exact hnd)]
    simp

/-- Column-wise deduplication over the full Cartesian product recovers
exactly the axis value lists, in order. -/
theorem colsFold_tuples (rtol atol : ℚ) :
    ∀ (axesVals : List (List Value)),
    (∀ vs ∈ axesVals, SepVals rtol atol vs) → (∀ vs ∈ axesVals, vs ≠ []) →
    colsFold rtol atol (axesVals.map (fun _ => [])) (tuplesOf axesVals) = axesVals := by
  intro axesVals
  induction axesVals with
  | nil => intro _ _; rfl
  | cons vs rest ih =>
    intro hsep hne
    have hsrest : ∀ ws ∈ rest, SepVals rtol atol ws :=
      fun ws hws => hsep ws (List.mem_cons_of_mem vs hws)
    have hnrest : ∀ ws ∈ rest, ws ≠ [] :=
      fun ws hws => hne ws (List.mem_cons_of_mem vs hws)
    have hsvs : SepVals rtol atol vs := hsep vs (List.mem_cons_self vs rest)
    have hTne : tuplesOf rest ≠ [] := tuplesOf_ne_nil hnrest
    have hstab : ∀ t ∈ tuplesOf rest,
        List.zipWith (updEntry rtol atol) rest t = rest :=
      fun t ht => zipWith_updEntry_covered (mem_tuplesOf.mp ht) hsrest
    obtain ⟨v₁, vs', hvs⟩ := List.exists_cons_of_ne_nil (hne vs (List.mem_cons_self vs rest))
    subst hvs
    have hunf : colsFold rtol atol (((v₁ :: vs') :: rest).map (fun _ => []))
        (tuplesOf ((v₁ :: vs') :: rest)) =
        (v₁ :: vs').foldl (fun a v => colsFold rtol atol a ((tuplesOf rest).map (v :: ·)))
          ([] :: rest.map (fun _ => [])) := by
      rw [tuplesOf]
      simp only [colsFold]
      rw [List.foldl_flatten, List.foldl_map]
      rfl
    rw [hunf, List.foldl_cons]
    rw [colsFold_block rtol atol (hsvs.1 v₁ (List.mem_cons_self v₁ vs'))
      (tuplesOf rest) [] (rest.map (fun _ => [])) hTne]
    rw [ih hsrest hnrest]
    rw [updEntry_of_not_inList (inList_nil rtol atol v₁)]
    rw [colsFold_blocks_sep rtol atol hsvs hTne hstab vs' ([] ++ [v₁])
      (by
        intro x hx
        have hx1 : x = v₁ := by simpa using hx
        rw [hx1]
        exact List.mem_cons_self v₁ vs')
      (fun x hx => List.mem_cons_of_mem v₁ hx)
      (by simpa using sepVals_nodup hsvs)]
    simp

theorem bind_ok_except {α β ε : Type} (a : α) (f : α → Except ε β) :
    ((Except.ok a : Except ε α) >>= f) = f a := rfl

theorem bind_err_except {α β ε : Type} (e : ε) (f : α → Except ε β) :
    ((Except.error e : Except ε α) >>= f) = Except.error e := rfl

theorem mkGroups_map_attrs (names : List String) (axesVals : List (List Value))
    (out : String) (subf : ℕ → Sub) :
    (mkGroups names axesVals out subf).map (·.attrs) =
      (tuplesOf axesVals).map (names.zip ·) := by
  rw [mkGroups, List.map_map]
  rw [show ((fun g : Group => g.attrs) ∘ grpOf names out subf) =
    ((names.zip ·) ∘ Prod.snd) from rfl]
  rw [← List.map_map, List.enum]
  rw [enumFrom_map_snd]

theorem mkGroups_length (names : List String) (axesVals : List (List Value))
    (out : String) (subf : ℕ → Sub) :
    (mkGroups names axesVals out subf).length = (tuplesOf axesVals).length := by
  rw [mkGroups, List.length_map, List.enum, List.enumFrom_length]

/-- The `attr_table` of the synthetic full-product dataset is exactly the
axis names paired with the axis value lists. -/
theorem attrTable_mkGroups (rtol atol : ℚ) (names : List String)
    (axesVals : List (List Value)) (out : String) (subf : ℕ → Sub)
    (hnd : names.Nodup) (hax : axesVals.length = names.length)
    (hsep : ∀ vs ∈ axesVals, SepVals rtol atol vs)
    (hne : ∀ vs ∈ axesVals, vs ≠ []) :
    attrTable rtol atol (mkGroups names axesVals out subf) =
      names.zip axesVals := by
  rw [attrTable_zip rtol atol names hnd _ (tuplesOf axesVals)
    (mkGroups_map_attrs names axesVals out subf)
    (fun t ht => (tuple_length_eq ht).trans hax) (tuplesOf_ne_nil hne)]
  have hinit : axesVals.map (fun _ => ([] : List Value)) =
      names.map (fun _ => ([] : List Value)) := by
    apply List.ext_getElem
    · rw [List.length_map, List.length_map, hax]
    · intro i h1 h2
      rw [List.getElem_map, List.getElem_map]
  rw [← hinit, colsFold_tuples rtol atol axesVals hsep hne]

theorem expectedLen_zip (names : List String) (vls : List (List Value))
    (h : names.length = vls.length) :
    expectedLen (names.zip vls) = (vls.map List.length).prod := by
  rw [expectedLen]
  rw [show (names.zip vls).map (fun kv => kv.2.length) =
    ((names.zip vls).map Prod.snd).map List.length from (List.map_map _ _ _).symm]
  rw [List.map_snd_zip names vls (le_of_eq h.symm)]

theorem zip_lookup_isSome {β : Type} :
    ∀ (names : List String) (vls : List β) (k : String),
    k ∈ names → names.length = vls.length →
    (((names.zip vls).lookup k)).isSome = true := by
  intro names
  induction names with
  | nil => intro vls k hk _; exact absurd hk (List.not_mem_nil k)
  | cons n names' ih =>
    intro vls k hk hlen
    cases vls with
    | nil => exact absurd hlen (by simp)
    | cons v vls' =>
      rw [List.zip_cons_cons]
      cases hb : (k == n) with
      | true => simp [List.lookup, hb]
      | false =>
        simp only [List.lookup, hb]
        have hkn : k ≠ n := by
          intro h
          rw [h] at hb
          simp at hb
        have hk' : k ∈ names' := by
          rcases List.mem_cons.mp hk with h | h
          · exact absurd h hkn
          · exact h
        exact ih vls' k hk' (by simpa using hlen)

theorem checkDiscrete_ok :
    ∀ (discNames : List String) (tbl : List (String × List Value)),
    (∀ d ∈ discNames, ((tbl.lookup d)).isSome = true) →
    checkDiscrete discNames tbl = .ok () := by
  intro discNames
  induction discNames with
  | nil => intro tbl _; rfl
  | cons d rest ih =>
    intro tbl h
    rw [checkDiscrete, if_pos (h d (List.mem_cons_self d rest))]
    exact ih tbl (fun d' hd' => h d' (List.mem_cons_of_mem d hd'))

theorem checkRegular_skip (rtol atol : ℚ) (discNames : List String) :
    ∀ (axlist : List (String × List Value)),
    (∀ p ∈ axlist, p.1 ∈ discNames ∨ p.1 = "env") →
    checkRegular rtol atol discNames axlist = .ok () := by
  intro axlist
  induction axlist with
  | nil => intro _; rfl
  | cons ax rest ih =>
    intro h
    obtain ⟨attr, avals⟩ := ax
    rw [checkRegular, if_pos (h (attr, avals) (List.mem_cons_self _ rest))]
    exact ih (fun p hp => h p (List.mem_cons_of_mem _ hp))

theorem findGroup_mkGroups (names : List String) (out : String) (subf : ℕ → Sub)
    {axesVals : List (List Value)} {t₁ : List Value} {ts' : List (List Value)}
    (h : tuplesOf axesVals = t₁ :: ts') :
    findGroup (mkGroups names axesVals out subf) "0" =
      some (grpOf names out subf (0, t₁)) := by
  rw [mkGroups, h]
  rw [show (t₁ :: ts').enum = (0, t₁) :: (List.enumFrom 1 ts') from rfl]
  rw [List.map_cons, findGroup]
  exact List.find?_cons_of_pos _ (show (toString (0 : ℕ) == "0") = true from by decide)

theorem groupIndex_ok (rtol atol : ℚ) :
    ∀ (axlist : List (String × List Value)) (g : Group),
    (∀ ax ∈ axlist, ((g.attrs.lookup ax.1)).isSome = true) →
    ∃ idx, groupIndex rtol atol axlist g = .ok idx := by
  intro axlist g
  induction axlist with
  | nil => intro _; exact ⟨[], rfl⟩
  | cons ax rest ih =>
    intro h
    obtain ⟨attr, avals⟩ := ax
    obtain ⟨v, hv⟩ := Option.isSome_iff_exists.mp (h (attr, avals) (List.mem_cons_self _ rest))
    obtain ⟨idx', hidx'⟩ := ih (fun a ha => h a (List.mem_cons_of_mem _ ha))
    refine ⟨indexInList rtol atol avals v :: idx', ?_⟩
    simp only [groupIndex, hv, hidx', bind_ok_except]
    rfl

theorem buildMaster_foldlM_ok (rtol atol : ℚ) (axlist : List (String × List Value)) :
    ∀ (gs : List Group) (dict₀ : List (String × Arr)),
    (∀ g ∈ gs, ∃ idx, groupIndex rtol atol axlist g = .ok idx) →
    ∃ d, List.foldlM (fun dict (g : Group) => do
      let idx ← groupIndex rtol atol axlist g
      return g.dsets.foldl (fun dd (od : String × Sub) => writeOut dd od.1 idx od.2)
        dict) dict₀ gs =
      .ok d := by
  intro gs
  induction gs with
  | nil => intro dict₀ _; exact ⟨dict₀, rfl⟩
  | cons g gs' ih =>
    intro dict₀ h
    obtain ⟨idx, hidx⟩ := h g (List.mem_cons_self g gs')
    obtain ⟨d, hd⟩ := ih (g.dsets.foldl
      (fun dd (od : String × Sub) => writeOut dd od.1 idx od.2) dict₀)
      (fun g' hg' => h g' (List.mem_cons_of_mem g hg'))
    refine ⟨d, ?_⟩
    rw [List.foldlM_cons]
    simp only [hidx, bind_ok_except]
    exact hd

theorem buildMaster_ok (rtol atol : ℚ) (axlist : List (String × List Value))
    (gs : List Group)
    (h : ∀ g ∈ gs, ∃ idx, groupIndex rtol atol axlist g = .ok idx) :
    ∃ d, buildMaster rtol atol axlist gs = .ok d :=
  buildMaster_foldlM_ok rtol atol axlist gs [] h

/-- Stepping lemma: when every stage of `_load_sim_data` succeeds, the load
returns the assembled result. -/
theorem loadSimData_ok_of (rtol atol : ℚ) (cs : List (String × Value))
    (discNames : List String) (f : RawFile) (g : Group) (swp : List (List ℚ))
    (dict : List (String × Arr))
    (hc : checkConstants rtol atol cs f.attrs = .ok ())
    (hne : f.groups.length ≠ 0)
    (hcount : expectedLen (attrTable rtol atol f.groups) = f.groups.length)
    (hd : checkDiscrete discNames (attrTable rtol atol f.groups) = .ok ())
    (hr : checkRegular rtol atol discNames
      ((sortStrs ((attrTable rtol atol f.groups).map (·.1))).map
        (fun a => (a, sortVals (((attrTable rtol atol f.groups).lookup a).getD [])))) =
      .ok ())
    (hg : findGroup f.groups "0" = some g)
    (hsw : sweepValuesOf f.attrs g.sweepParams = .ok swp)
    (hbm : buildMaster rtol atol
      ((sortStrs ((attrTable rtol atol f.groups).map (·.1))).map
        (fun a => (a, sortVals (((attrTable rtol atol f.groups).lookup a).getD []))))
      f.groups = .ok dict) :
    loadSimData rtol atol cs discNames (some f) =
      .ok ⟨dict,
        sortStrs ((attrTable rtol atol f.groups).map (·.1)) ++ g.sweepParams,
        ((sortStrs ((attrTable rtol atol f.groups).map (·.1))).map
          (fun a => sortVals (((attrTable rtol atol f.groups).lookup a).getD []))) ++
          swp.map (fun qs => qs.map Value.num),
        f.attrs.filter (fun kv => decide (kv.1 ∉ g.sweepParams))⟩ := by
  simp only [loadSimData, hc, bind_ok_except, if_neg hne,
    if_neg (not_not_intro hcount), hd, hr, hg, hsw, hbm]
  simp only [List.map_map]
  rfl

theorem map_fst_zip_lam (names : List String) (vls : List (List Value))
    (h : names.length ≤ vls.length) : (names.zip vls).map (·.1) = names :=
  List.map_fst_zip names vls h

theorem mem_of_mem_sortStrs {a : String} {l : List String}
    (h : a ∈ sortStrs l) : a ∈ l :=
  (List.Perm.mem_iff (List.perm_insertionSort sle l)).mp h

theorem mem_of_mem_mkGroups {names : List String} {axesVals : List (List Value)}
    {out : String} {subf : ℕ → Sub} {g : Group}
    (h : g ∈ mkGroups names axesVals out subf) :
    ∃ i t, t ∈ tuplesOf axesVals ∧ g = grpOf names out subf (i, t) := by
  obtain ⟨it, hit, rfl⟩ := List.mem_map.mp h
  obtain ⟨i, t⟩ := it
  refine ⟨i, t, ?_, rfl⟩
  have : (i, t).2 ∈ ((tuplesOf axesVals).enum).map Prod.snd :=
    List.mem_map_of_mem Prod.snd hit
  rw [List.enum, enumFrom_map_snd] at this
  exact this

/-- The synthetic full Cartesian product loads without error, yielding the
scatter-consolidated master dictionary and the sorted deduplicated axes. -/
theorem loadSimData_mkGroups_ok (rtol atol : ℚ) (fattrs : List (String × FAttr))
    (discNames : List String) (axesVals : List (List Value)) (out : String)
    (subf : ℕ → Sub)
    (hnd : ("env" :: discNames).Nodup)
    (hax : axesVals.length = ("env" :: discNames).length)
    (hsep : ∀ vs ∈ axesVals, SepVals rtol atol vs)
    (hne : ∀ vs ∈ axesVals, vs ≠ []) :
    ∃ dict, buildMaster rtol atol
        (sortedAxes rtol atol (mkGroups ("env" :: discNames) axesVals out subf))
        (mkGroups ("env" :: discNames) axesVals out subf) = .ok dict ∧
      loadSimData rtol atol [] discNames
        (some ⟨fattrs, mkGroups ("env" :: discNames) axesVals out subf⟩) =
        .ok ⟨dict,
          sortStrs ("env" :: discNames),
          (sortStrs ("env" :: discNames)).map
            (fun a => sortVals (((("env" :: discNames).zip axesVals).lookup a).getD [])),
          fattrs⟩ := by
  have hattr : attrTable rtol atol (mkGroups ("env" :: discNames) axesVals out subf) =
      ("env" :: discNames).zip axesVals :=
    attrTable_mkGroups rtol atol _ axesVals out subf hnd hax hsep hne
  obtain ⟨t₁, ts', hts⟩ := List.exists_cons_of_ne_nil (tuplesOf_ne_nil hne)
  have hg : findGroup (mkGroups ("env" :: discNames) axesVals out subf) "0" =
      some (grpOf ("env" :: discNames) out subf (0, t₁)) :=
    findGroup_mkGroups _ out subf hts
  have hglen : (mkGroups ("env" :: discNames) axesVals out subf).length =
      (axesVals.map List.length).prod :=
    (mkGroups_length _ axesVals out subf).trans (tuplesOf_length _)
  have hN0 : (axesVals.map List.length).prod ≠ 0 := by
    intro h0
    obtain ⟨vs, hvs, hl⟩ := List.mem_map.mp (List.prod_eq_zero_iff.mp h0)
    exact hne vs hvs (List.length_eq_zero.mp hl)
  have hlook : ∀ k ∈ ("env" :: discNames),
      (((("env" :: discNames).zip axesVals).lookup k)).isSome = true :=
    fun k hk => zip_lookup_isSome _ axesVals k hk hax.symm
  have hne' : (mkGroups ("env" :: discNames) axesVals out subf).length ≠ 0 := by
    rw [hglen]; exact hN0
  have hcount : expectedLen (attrTable rtol atol
      (mkGroups ("env" :: discNames) axesVals out subf)) =
      (mkGroups ("env" :: discNames) axesVals out subf).length := by
    rw [hattr, expectedLen_zip _ axesVals hax.symm, hglen]
  have hd : checkDiscrete discNames (attrTable rtol atol
      (mkGroups ("env" :: discNames) axesVals out subf)) = .ok () := by
    rw [hattr]
    exact checkDiscrete_ok discNames _
      (fun d hd => hlook d (List.mem_cons_of_mem _ hd))
  have hax1 : ∀ a ∈ sortStrs ((attrTable rtol atol
      (mkGroups ("env" :: discNames) axesVals out subf)).map (·.1)),
      a ∈ ("env" :: discNames) := by
    intro a ha
    rw [hattr, map_fst_zip_lam _ axesVals (le_of_eq hax.symm)] at ha
    exact mem_of_mem_sortStrs ha
  have hr : checkRegular rtol atol discNames
      ((sortStrs ((attrTable rtol atol
        (mkGroups ("env" :: discNames) axesVals out subf)).map (·.1))).map
        (fun a => (a, sortVals (((attrTable rtol atol
          (mkGroups ("env" :: discNames) axesVals out subf)).lookup a).getD [])))) =
      .ok () := by
    apply checkRegular_skip
    intro p hp
    obtain ⟨a, ha, rfl⟩ := List.mem_map.mp hp
    rcases List.mem_cons.mp (hax1 a ha) with h | h
    · exact Or.inr h
    · exact Or.inl h
  have hlookups : ∀ g ∈ mkGroups ("env" :: discNames) axesVals out subf,
      ∀ ax ∈ (sortStrs ((attrTable rtol atol
        (mkGroups ("env" :: discNames) axesVals out subf)).map (·.1))).map
        (fun a => (a, sortVals (((attrTable rtol atol
          (mkGroups ("env" :: discNames) axesVals out subf)).lookup a).getD []))),
      ((g.attrs.lookup ax.1)).isSome = true := by
    intro g hgm ax hax2
    obtain ⟨i, t, htm, rfl⟩ := mem_of_mem_mkGroups hgm
    obtain ⟨a, ha, rfl⟩ := List.mem_map.mp hax2
    show ((( ("env" :: discNames).zip t).lookup a)).isSome = true
    exact zip_lookup_isSome _ t a (hax1 a ha)
      ((tuple_length_eq htm).trans hax).symm
  obtain ⟨dict, hbm⟩ := buildMaster_ok rtol atol _
    (mkGroups ("env" :: discNames) axesVals out subf)
    (fun g hgm => groupIndex_ok rtol atol _ g (hlookups g hgm))
  refine ⟨dict, hbm, ?_⟩
  have hload := loadSimData_ok_of rtol atol [] discNames
    ⟨fattrs, mkGroups ("env" :: discNames) axesVals out subf⟩
    (grpOf ("env" :: discNames) out subf (0, t₁)) [] dict rfl hne' hcount hd hr hg
    rfl hbm
  rw [hload]
  simp only [grpOf]
  rw [hattr, map_fst_zip_lam _ axesVals (le_of_eq hax.symm)]
  rw [List.filter_eq_self.mpr (fun a _ => by simp)]
  simp

theorem colsFold_length (rtol atol : ℚ) :
    ∀ (ts : List (List Value)) (acc : List (List Value)),
    (∀ t ∈ ts, acc.length ≤ t.length) →
    (colsFold rtol atol acc ts).length = acc.length := by
  intro ts
  induction ts with
  | nil => intro acc _; rfl
  | cons t ts' ih =>
    intro acc h
    rw [colsFold_cons]
    have hz : (List.zipWith (updEntry rtol atol) acc t).length = acc.length := by
      rw [List.length_zipWith]
      exact Nat.min_eq_left (h t (List.mem_cons_self t ts'))
    rw [ih _ (fun t' ht' => by rw [hz]; exact h t' (List.mem_cons_of_mem t ht')), hz]

theorem zipWith_updEntry_sub (rtol atol : ℚ) :
    ∀ {acc axesVals : List (List Value)} {t : List Value},
    List.Forall₂ (fun c vs => (∀ x ∈ c, x ∈ vs) ∧ c.Nodup) acc axesVals →
    List.Forall₂ (· ∈ ·) t axesVals →
    (∀ vs ∈ axesVals, SepVals rtol atol vs) →
    List.Forall₂ (fun c vs => (∀ x ∈ c, x ∈ vs) ∧ c.Nodup)
      (List.zipWith (updEntry rtol atol) acc t) axesVals := by
  intro acc axesVals t hacc
  induction hacc generalizing t with
  | nil => intro _ _; exact List.Forall₂.nil
  | @cons c vs acc' axes' hR hacc' ih =>
    intro hmem hsep
    obtain ⟨v, t', hv, ht', rfl⟩ := List.forall₂_cons_right_iff.mp hmem
    rw [List.zipWith_cons_cons]
    refine List.Forall₂.cons ?_ (ih ht' (fun ws hws => hsep ws (List.mem_cons_of_mem vs hws)))
    cases hb : inList rtol atol c v with
    | true => rw [updEntry_of_inList hb]; exact hR
    | false =>
      rw [updEntry_of_not_inList hb]
      have hvnot : v ∉ c := by
        intro hvc
        rw [(inList_sep_iff (hsep vs (List.mem_cons_self vs axes')) hR.1 hv).mpr hvc] at hb
        exact Bool.false_ne_true hb.symm
      constructor
      · intro x hx
        rcases List.mem_append.mp hx with h | h
        · exact hR.1 x h
        · rw [List.mem_singleton.mp h]; exact hv
      · rw [List.nodup_append]
        exact ⟨hR.2, List.nodup_singleton v, fun x hx hx1 =>
          hvnot ((List.mem_singleton.mp hx1) ▸ hx)⟩

theorem colsFold_sub (rtol atol : ℚ) {axesVals : List (List Value)}
    (hsep : ∀ vs ∈ axesVals, SepVals rtol atol vs) :
    ∀ (ts : List (List Value)) (acc : List (List Value)),
    List.Forall₂ (fun c vs => (∀ x ∈ c, x ∈ vs) ∧ c.Nodup) acc axesVals →
    (∀ t ∈ ts, List.Forall₂ (· ∈ ·) t axesVals) →
    List.Forall₂ (fun c vs => (∀ x ∈ c, x ∈ vs) ∧ c.Nodup)
      (colsFold rtol atol acc ts) axesVals := by
  intro ts
  induction ts with
  | nil => intro acc h _; exact h
  | cons t ts' ih =>
    intro acc h hts
    rw [colsFold_cons]
    exact ih _ (zipWith_updEntry_sub rtol atol h (hts t (List.mem_cons_self t ts')) hsep)
      (fun t' ht' => hts t' (List.mem_cons_of_mem t ht'))

theorem forall₂_blank_sub (axesVals : List (List Value)) :
    List.Forall₂ (fun c vs => (∀ x ∈ c, x ∈ vs) ∧ c.Nodup)
      (axesVals.map (fun _ => [])) axesVals := by
  induction axesVals with
  | nil => exact List.Forall₂.nil
  | cons vs rest ih =>
    exact List.Forall₂.cons
      ⟨fun x hx => absurd hx (List.not_mem_nil x), List.nodup_nil⟩ ih

theorem forall₂_inList_zipWith_self (rtol atol : ℚ) :
    ∀ (t : List Value) (m : List (List Value)), t.length = m.length →
    (∀ v ∈ t, vequal rtol atol v v = true) →
    List.Forall₂ (fun v c => inList rtol atol c v = true) t
      (List.zipWith (updEntry rtol atol) m t) := by
  intro t
  induction t with
  | nil =>
    intro m _ _
    rw [List.zipWith_nil_right]
    exact List.Forall₂.nil
  | cons v t' ih =>
    intro m hlen hself
    cases m with
    | nil => exact absurd hlen (by simp)
    | cons c m' =>
      rw [List.zipWith_cons_cons]
      exact List.Forall₂.cons
        (inList_updEntry_self (hself v (List.mem_cons_self v t')))
        (ih m' (by simpa using hlen)
          (fun w hw => hself w (List.mem_cons_of_mem v hw)))

theorem inList_updEntry_mono {rtol atol : ℚ} {c : List Value} {v w : Value}
    (h : inList rtol atol c v = true) :
    inList rtol atol (updEntry rtol atol c w) v = true := by
  obtain ⟨x, hx, hxv⟩ := (inList_iff rtol atol c v).mp h
  cases hb : inList rtol atol c w with
  | true => rw [updEntry_of_inList hb]; exact h
  | false =>
    rw [updEntry_of_not_inList hb]
    exact (inList_iff rtol atol _ v).mpr ⟨x, List.mem_append_left _ hx, hxv⟩

theorem zipWith_updEntry_keep (rtol atol : ℚ) :
    ∀ {t acc : List _}, List.Forall₂ (fun v c => inList rtol atol c v = true) t acc →
    ∀ (t' : List Value), acc.length ≤ t'.length →
    List.Forall₂ (fun v c => inList rtol atol c v = true) t
      (List.zipWith (updEntry rtol atol) acc t') := by
  intro t acc h
  induction h with
  | nil => intro t' _; exact List.Forall₂.nil
  | @cons v c tr accr hvc _ ih =>
    intro t' hlen
    cases t' with
    | nil => exact absurd hlen (by simp)
    | cons w t'' =>
      rw [List.zipWith_cons_cons]
      exact List.Forall₂.cons (inList_updEntry_mono hvc) (ih t'' (by simpa using hlen))

theorem colsFold_keep (rtol atol : ℚ) :
    ∀ (ts : List (List Value)) {t acc : List _},
    List.Forall₂ (fun v c => inList rtol atol c v = true) t acc →
    (∀ t' ∈ ts, acc.length ≤ t'.length) →
    List.Forall₂ (fun v c => inList rtol atol c v = true) t
      (colsFold rtol atol acc ts) := by
  intro ts
  induction ts with
  | nil => intro t acc h _; exact h
  | cons t₀ ts' ih =>
    intro t acc h hlen
    rw [colsFold_cons]
    have hz : (List.zipWith (updEntry rtol atol) acc t₀).length = acc.length := by
      rw [List.length_zipWith]
      exact Nat.min_eq_left (hlen t₀ (List.mem_cons_self t₀ ts'))
    exact ih (zipWith_updEntry_keep rtol atol h t₀ (hlen t₀ (List.mem_cons_self t₀ ts')))
      (fun t' ht' => by rw [hz]; exact hlen t' (List.mem_cons_of_mem t₀ ht'))

theorem tuple_self_vequal {rtol atol : ℚ} {axesVals : List (List Value)}
    (hsep : ∀ vs ∈ axesVals, SepVals rtol atol vs) {t : List Value}
    (ht : List.Forall₂ (· ∈ ·) t axesVals) :
    ∀ v ∈ t, vequal rtol atol v v = true := by
  induction ht with
  | nil => intro v hv; exact absurd hv (List.not_mem_nil v)
  | @cons v₀ vs tr axr hv₀ _ ih =>
    intro v hv
    rcases List.mem_cons.mp hv with h | h
    · subst h
      exact (hsep vs (List.mem_cons_self vs axr)).1 v hv₀
    · exact ih (fun ws hws => hsep ws (List.mem_cons_of_mem vs hws)) v h

/-- Every tuple that occurs in the processed stream has each of its
coordinates marked (tolerance-present) in the final deduplicated columns. -/
theorem colsFold_covers_tuple (rtol atol : ℚ) {axesVals : List (List Value)}
    (hsep : ∀ vs ∈ axesVals, SepVals rtol atol vs)
    {ts : List (List Value)} (hts : ∀ t' ∈ ts, t' ∈ tuplesOf axesVals)
    {t : List Value} (htm : t ∈ ts) :
    List.Forall₂ (fun v c => inList rtol atol c v = true) t
      (colsFold rtol atol (axesVals.map (fun _ => [])) ts) := by
  obtain ⟨s, u, rfl⟩ := List.append_of_mem htm
  rw [colsFold_append, colsFold_cons]
  have hlen : ∀ t' ∈ s ++ t :: u, t'.length = axesVals.length :=
    fun t' ht' => tuple_length_eq (hts t' ht')
  have hmid : (colsFold rtol atol (axesVals.map (fun _ => [])) s).length =
      axesVals.length := by
    rw [colsFold_length rtol atol s _ (fun t' ht' => by
      rw [List.length_map]
      exact le_of_eq (hlen t' (List.mem_append_left _ ht')).symm)]
    exact List.length_map _ _
  have htl : t.length = axesVals.length :=
    hlen t (List.mem_append_right _ (List.mem_cons_self t u))
  have hmark := forall₂_inList_zipWith_self rtol atol t
    (colsFold rtol atol (axesVals.map (fun _ => [])) s) (htl.trans hmid.symm)
    (tuple_self_vequal hsep (mem_tuplesOf.mp
      (hts t (List.mem_append_right _ (List.mem_cons_self t u)))))
  have hzlen : (List.zipWith (updEntry rtol atol)
      (colsFold rtol atol (axesVals.map (fun _ => [])) s) t).length =
      axesVals.length := by
    rw [List.length_zipWith, hmid, htl]
    exact Nat.min_self _
  exact colsFold_keep rtol atol u hmark
    (fun t' ht' => by
      rw [hzlen, hlen t' (List.mem_append_right _ (List.mem_cons_of_mem t ht'))])

theorem set_tuple_mem {axesVals : List (List Value)} {e : List Value}
    (hef : List.Forall₂ (· ∈ ·) e axesVals) {k : ℕ} (hk : k < axesVals.length)
    {y : Value} (hy : y ∈ axesVals[k]) : (e.set k y) ∈ tuplesOf axesVals := by
  have hel : e.length = axesVals.length := hef.length_eq
  apply mem_tuplesOf.mpr
  apply List.forall₂_of_length_eq_of_get
  · rw [List.length_set]; exact hel
  · intro j h₁ h₂
    have hj : j < e.length := by simpa using h₁
    show (e.set k y)[j] ∈ axesVals[j]
    rw [List.getElem_set]
    by_cases hkj : k = j
    · subst hkj
      rw [if_pos rfl]
      exact hy
    · rw [if_neg hkj]
      exact hef.get hj h₂

/-- After removing one record of the full product, every axis value still
occurs at its position in some remaining record, provided at least two axes
carry at least two values. -/
theorem remaining_covers (rtol atol : ℚ) {axesVals : List (List Value)}
    (hsep : ∀ vs ∈ axesVals, SepVals rtol atol vs)
    {s u : List (List Value)} {e : List Value}
    (hts : tuplesOf axesVals = s ++ e :: u)
    (htwo : ∃ p₁ p₂, p₁ < p₂ ∧ p₂ < axesVals.length ∧
      2 ≤ (axesVals.getD p₁ []).length ∧ 2 ≤ (axesVals.getD p₂ []).length)
    {i : ℕ} (hi : i < axesVals.length) {x : Value} (hx : x ∈ axesVals[i]) :
    ∃ t' ∈ s ++ u, t'.length = axesVals.length ∧ t'[i]? = some x := by
  have he : e ∈ tuplesOf axesVals := by
    rw [hts]; exact List.mem_append_right _ (List.mem_cons_self e u)
  have hef : List.Forall₂ (· ∈ ·) e axesVals := mem_tuplesOf.mp he
  have hel : e.length = axesVals.length := hef.length_eq
  have hnd : (tuplesOf axesVals).Nodup :=
    tuplesOf_nodup (fun vs hvs => sepVals_nodup (hsep vs hvs))
  have hrem : ∀ t', t' ∈ tuplesOf axesVals → t' ≠ e → t' ∈ s ++ u := by
    intro t' ht' hne'
    rw [hts] at ht'
    rcases List.mem_append.mp ht' with h | h
    · exact List.mem_append_left _ h
    · rcases List.mem_cons.mp h with h' | h'
      · exact absurd h' hne'
      · exact List.mem_append_right _ h'
  by_cases hcase : e.set i x = e
  · obtain ⟨p₁, p₂, hp12, hp2, h2a, h2b⟩ := htwo
    have hp1 : p₁ < axesVals.length := lt_trans hp12 hp2
    obtain ⟨p, hp, hpne, h2p'⟩ :
        ∃ p, p < axesVals.length ∧ p ≠ i ∧ 2 ≤ (axesVals.getD p []).length := by
      by_cases hip : p₁ = i
      · exact ⟨p₂, hp2, fun h => by omega, h2b⟩
      · exact ⟨p₁, hp1, hip, h2a⟩
    have h2p : 2 ≤ axesVals[p].length := by
      rw [List.getD_eq_getElem axesVals [] hp] at h2p'
      exact h2p'
    have hndp : axesVals[p].Nodup :=
      sepVals_nodup (hsep axesVals[p] (List.getElem_mem hp))
    have h0 : 0 < axesVals[p].length := by omega
    have h1 : 1 < axesVals[p].length := by omega
    have hpl : p < e.length := by omega
    have hep : e[p] ∈ axesVals[p] :=
      hef.get (by omega) hp
    obtain ⟨y, hy, hyne⟩ : ∃ y ∈ axesVals[p], y ≠ e[p] := by
      by_cases h00 : axesVals[p][0] = e[p]
      · refine ⟨axesVals[p][1], List.getElem_mem h1, ?_⟩
        rw [← h00]
        intro heq
        have := (hndp.getElem_inj_iff).mp heq
        omega
      · exact ⟨axesVals[p][0], List.getElem_mem h0, h00⟩
    refine ⟨e.set p y, ?_, ?_, ?_⟩
    · apply hrem _ (set_tuple_mem hef hp hy)
      intro heq
      have hq : (e.set p y)[p]? = e[p]? := by rw [heq]
      rw [List.getElem?_set_self (by omega : p < e.length),
        List.getElem?_eq_getElem (by omega : p < e.length)] at hq
      exact hyne (Option.some.inj hq)
    · rw [List.length_set]; exact hel
    · rw [List.getElem?_set_ne hpne]
      have hil : i < e.length := by omega
      have hx1 : e[i] = x := by
        have := congrArg (fun l => l[i]?) hcase
        simp only [List.getElem?_set_self (by omega : i < e.length)] at this
        rw [List.getElem?_eq_getElem (by omega : i < e.length)] at this
        exact (Option.some.inj this).symm
      rw [List.getElem?_eq_getElem (by omega : i < e.length), hx1]
  · refine ⟨e.set i x, hrem _ (set_tuple_mem hef hi hx) hcase, ?_, ?_⟩
    · rw [List.length_set]; exact hel
    · rw [List.getElem?_set_self (by omega : i < e.length)]

theorem map_eq_append_cons {α β : Type} {f : α → β} :
    ∀ {l : List α} {ys₁ : List β} {y : β} {ys₂ : List β},
    l.map f = ys₁ ++ y :: ys₂ →
    ∃ xs₁ x xs₂, l = xs₁ ++ x :: xs₂ ∧ xs₁.map f = ys₁ ∧ f x = y ∧
      xs₂.map f = ys₂ := by
  intro l ys₁
  induction ys₁ generalizing l with
  | nil =>
    intro y ys₂ h
    cases l with
    | nil => exact absurd h (by simp)
    | cons a l' =>
      rw [List.map_cons, List.nil_append] at h
      exact ⟨[], a, l', rfl, rfl, (List.cons.inj h).1, (List.cons.inj h).2⟩
  | cons y₁ ys₁' ih =>
    intro y ys₂ h
    cases l with
    | nil => exact absurd h (by simp)
    | cons a l' =>
      rw [List.map_cons, List.cons_append] at h
      obtain ⟨xs₁, x, xs₂, hl, hm1, hmx, hm2⟩ := ih (List.cons.inj h).2
      exact ⟨a :: xs₁, x, xs₂, by rw [hl]; rfl, by
        rw [List.map_cons, hm1, (List.cons.inj h).1], hmx, hm2⟩

/-- A record count different from the Cartesian-product size makes
`_load_sim_data` raise the incomplete-sweep error. -/
theorem loadSimData_count_error (rtol atol : ℚ) (cs : List (String × Value))
    (discNames : List String) (f : RawFile)
    (hc : checkConstants rtol atol cs f.attrs = .ok ())
    (hne : f.groups.length ≠ 0)
    (hcount : expectedLen (attrTable rtol atol f.groups) ≠ f.groups.length) :
    loadSimData rtol atol cs discNames (some f) =
      .error (.incompleteSweep (expectedLen (attrTable rtol atol f.groups))
        f.groups.length) := by
  simp only [loadSimData, hc, bind_ok_except, if_neg hne, if_pos hcount]
  rfl

theorem map_const_nil_eq {α β : Type} (l₁ : List α) (l₂ : List β)
    (h : l₁.length = l₂.length) :
    l₁.map (fun _ => ([] : List Value)) = l₂.map (fun _ => []) := by
  apply List.ext_getElem
  · rw [List.length_map, List.length_map, h]
  · intro i h1 h2
    rw [List.getElem_map, List.getElem_map]

/-- After one record of the full product is removed, each deduplicated axis
column still has the full axis size whenever at least two axes carry at
least two values. -/
theorem colsFold_remaining_lengths (rtol atol : ℚ) {axesVals : List (List Value)}
    (hsep : ∀ vs ∈ axesVals, SepVals rtol atol vs)
    {s u : List (List Value)} {e : List Value}
    (hts : tuplesOf axesVals = s ++ e :: u)
    (htwo : ∃ p₁ p₂, p₁ < p₂ ∧ p₂ < axesVals.length ∧
      2 ≤ (axesVals.getD p₁ []).length ∧ 2 ≤ (axesVals.getD p₂ []).length) :
    (colsFold rtol atol (axesVals.map (fun _ => [])) (s ++ u)).map List.length =
      axesVals.map List.length := by
  have hmemts : ∀ t' ∈ s ++ u, t' ∈ tuplesOf axesVals := by
    intro t' h
    rw [hts]
    rcases List.mem_append.mp h with h' | h'
    · exact List.mem_append_left _ h'
    · exact List.mem_append_right _ (List.mem_cons_of_mem e h')
  have hsub := colsFold_sub rtol atol hsep (s ++ u) _ (forall₂_blank_sub axesVals)
    (fun t' ht' => mem_tuplesOf.mp (hmemts t' ht'))
  have hlc : (colsFold rtol atol (axesVals.map (fun _ => [])) (s ++ u)).length =
      axesVals.length := hsub.length_eq
  apply List.ext_getElem
  · rw [List.length_map, List.length_map, hlc]
  · intro k h1 h2
    rw [List.getElem_map, List.getElem_map]
    have hk2 : k < axesVals.length := by simpa using h2
    have hk1 : k < (colsFold rtol atol (axesVals.map (fun _ => []))
        (s ++ u)).length := by rw [hlc]; exact hk2
    have hR := hsub.get hk1 hk2
    have hcov : ∀ x ∈ axesVals[k], x ∈
        (colsFold rtol atol (axesVals.map (fun _ => [])) (s ++ u))[k] := by
      intro x hx
      obtain ⟨t', ht'm, ht'l, ht'i⟩ :=
        remaining_covers rtol atol hsep hts htwo hk2 hx
      have hmark := colsFold_covers_tuple rtol atol hsep hmemts ht'm
      have hkt : k < t'.length := by rw [ht'l]; exact hk2
      have ht'k : t'[k] = x := by
        rw [List.getElem?_eq_getElem hkt] at ht'i
        exact Option.some.inj ht'i
      have hmk : inList rtol atol
          ((colsFold rtol atol (axesVals.map (fun _ => [])) (s ++ u))[k])
          (t'[k]) = true := hmark.get hkt hk1
      rw [ht'k] at hmk
      exact (inList_sep_iff (hsep _ (List.getElem_mem hk2)) hR.1 hx).mp hmk
    have hperm := (List.perm_ext_iff_of_nodup hR.2
      (sepVals_nodup (hsep _ (List.getElem_mem hk2)))).mpr
      (fun a => ⟨fun h => hR.1 a h, fun h => hcov a h⟩)
    exact hperm.length_eq

/-- Removing one record from the synthetic full product (with at least two
multi-valued axes) makes the load fail with the incomplete-sweep error:
expected the full product size, found one record fewer. -/
theorem loadSimData_mkGroups_remove (rtol atol : ℚ) (fattrs : List (String × FAttr))
    (discNames : List String) (axesVals : List (List Value)) (out : String)
    (subf : ℕ → Sub)
    (hnd : ("env" :: discNames).Nodup)
    (hax : axesVals.length = ("env" :: discNames).length)
    (hsep : ∀ vs ∈ axesVals, SepVals rtol atol vs)
    (hne : ∀ vs ∈ axesVals, vs ≠ [])
    (gs₁ : List Group) (g : Group) (gs₂ : List Group)
    (hsplit : mkGroups ("env" :: discNames) axesVals out subf = gs₁ ++ g :: gs₂)
    (htwo : ∃ p₁ p₂, p₁ < p₂ ∧ p₂ < axesVals.length ∧
      2 ≤ (axesVals.getD p₁ []).length ∧ 2 ≤ (axesVals.getD p₂ []).length) :
    loadSimData rtol atol [] discNames (some ⟨fattrs, gs₁ ++ gs₂⟩) =
      .error (.incompleteSweep ((axesVals.map List.length).prod)
        ((axesVals.map List.length).prod - 1)) := by
  rw [mkGroups] at hsplit
  obtain ⟨xs₁, xx, xs₂, hxl, hm1, hmx, hm2⟩ := map_eq_append_cons hsplit
  have hts : tuplesOf axesVals = (xs₁.map Prod.snd) ++ xx.2 :: (xs₂.map Prod.snd) := by
    have h := congrArg (List.map Prod.snd) hxl
    rw [List.enum, enumFrom_map_snd, List.map_append, List.map_cons] at h
    exact h
  have hgroups : gs₁ ++ gs₂ = (xs₁ ++ xs₂).map (grpOf ("env" :: discNames) out subf) := by
    rw [List.map_append, hm1, hm2]
  have hattrmap : (gs₁ ++ gs₂).map (·.attrs) =
      (xs₁.map Prod.snd ++ xs₂.map Prod.snd).map (("env" :: discNames).zip ·) := by
    rw [hgroups, List.map_map]
    rw [show ((fun g : Group => g.attrs) ∘ grpOf ("env" :: discNames) out subf) =
      ((("env" :: discNames).zip ·) ∘ Prod.snd) from rfl]
    rw [← List.map_map, List.map_append]
  have hmemts : ∀ t' ∈ xs₁.map Prod.snd ++ xs₂.map Prod.snd,
      t' ∈ tuplesOf axesVals := by
    intro t' h
    rw [hts]
    rcases List.mem_append.mp h with h' | h'
    · exact List.mem_append_left _ h'
    · exact List.mem_append_right _ (List.mem_cons_of_mem _ h')
  have htlen : ∀ t' ∈ xs₁.map Prod.snd ++ xs₂.map Prod.snd,
      t'.length = ("env" :: discNames).length :=
    fun t' ht' => (tuple_length_eq (hmemts t' ht')).trans hax
  have hN2 : 2 ≤ (axesVals.map List.length).prod := by
    obtain ⟨p₁, p₂, hp12, hp2, h2a, h2b⟩ := htwo
    have hp1 : p₁ < axesVals.length := lt_trans hp12 hp2
    have hmem : axesVals[p₁].length ∈ axesVals.map List.length :=
      List.mem_map_of_mem List.length (List.getElem_mem hp1)
    have hone : ∀ n ∈ axesVals.map List.length, 1 ≤ n := by
      intro n hn
      obtain ⟨vs, hvs, rfl⟩ := List.mem_map.mp hn
      have hv := hne vs hvs
      cases vs with
      | nil => exact absurd rfl hv
      | cons a l => simp
    have hle := List.single_le_prod hone _ hmem
    rw [List.getD_eq_getElem axesVals [] hp1] at h2a
    omega
  have hsu : (xs₁.map Prod.snd ++ xs₂.map Prod.snd).length =
      (axesVals.map List.length).prod - 1 := by
    have h := congrArg List.length hts
    rw [tuplesOf_length] at h
    simp only [List.length_append, List.length_cons, List.length_map] at h ⊢
    omega
  have hgl : (gs₁ ++ gs₂).length = (axesVals.map List.length).prod - 1 := by
    rw [hgroups, List.length_map]
    simp only [List.length_append, List.length_map] at hsu ⊢
    omega
  have hsune : xs₁.map Prod.snd ++ xs₂.map Prod.snd ≠ [] := by
    intro h0
    have h := congrArg List.length h0
    rw [hsu] at h
    simp at h
    omega
  have hattr : attrTable rtol atol (gs₁ ++ gs₂) =
      ("env" :: discNames).zip (colsFold rtol atol (axesVals.map (fun _ => []))
        (xs₁.map Prod.snd ++ xs₂.map Prod.snd)) := by
    rw [attrTable_zip rtol atol _ hnd _ _ hattrmap htlen hsune]
    rw [map_const_nil_eq _ _ hax.symm]
  have hclen : (colsFold rtol atol (axesVals.map (fun _ => []))
      (xs₁.map Prod.snd ++ xs₂.map Prod.snd)).length = axesVals.length := by
    rw [colsFold_length rtol atol _ _ (fun t' ht' => by
      rw [List.length_map]
      exact le_of_eq ((htlen t' ht').trans hax.symm).symm)]
    exact List.length_map _ _
  have hE : expectedLen (attrTable rtol atol (gs₁ ++ gs₂)) =
      (axesVals.map List.length).prod := by
    rw [hattr, expectedLen_zip _ _ (by rw [hclen, hax])]
    rw [colsFold_remaining_lengths rtol atol hsep hts htwo]
  have hcnt : expectedLen (attrTable rtol atol (gs₁ ++ gs₂)) ≠ (gs₁ ++ gs₂).length := by
    rw [hE, hgl]
    omega
  have hgne : (gs₁ ++ gs₂).length ≠ 0 := by
    rw [hgl]
    omega
  have hres := loadSimData_count_error rtol atol [] discNames ⟨fattrs, gs₁ ++ gs₂⟩
    rfl hgne hcnt
  have hpay : LoadErr.incompleteSweep (expectedLen (attrTable rtol atol (gs₁ ++ gs₂)))
      ((gs₁ ++ gs₂).length) =
      .incompleteSweep ((axesVals.map List.length).prod)
        ((axesVals.map List.length).prod - 1) := by
    rw [hE, hgl]
  exact hres.trans (congrArg Except.error hpay)

/-- Duplicating one record of the synthetic full product makes the load fail
with the incomplete-sweep error (the attribute table is unchanged, so the
expected count stays at the product size while one extra record is found). -/
theorem loadSimData_mkGroups_dup (rtol atol : ℚ) (fattrs : List (String × FAttr))
    (discNames : List String) (axesVals : List (List Value)) (out : String)
    (subf : ℕ → Sub)
    (hnd : ("env" :: discNames).Nodup)
    (hax : axesVals.length = ("env" :: discNames).length)
    (hsep : ∀ vs ∈ axesVals, SepVals rtol atol vs)
    (hne : ∀ vs ∈ axesVals, vs ≠ [])
    (g : Group) (hgm : g ∈ mkGroups ("env" :: discNames) axesVals out subf)
    (nm : String) :
    loadSimData rtol atol [] discNames
      (some ⟨fattrs, mkGroups ("env" :: discNames) axesVals out subf ++
        [{ g with name := nm }]⟩) =
      .error (.incompleteSweep ((axesVals.map List.length).prod)
        ((axesVals.map List.length).prod + 1)) := by
  obtain ⟨i, t, htm, rfl⟩ := mem_of_mem_mkGroups hgm
  have hattrmap : (mkGroups ("env" :: discNames) axesVals out subf ++
      [{ grpOf ("env" :: discNames) out subf (i, t) with name := nm }]).map
        (fun g : Group => g.attrs) =
      (tuplesOf axesVals ++ [t]).map (("env" :: discNames).zip ·) := by
    rw [List.map_append, List.map_append, mkGroups_map_attrs]
    rfl
  have htlen : ∀ t' ∈ tuplesOf axesVals ++ [t],
      t'.length = ("env" :: discNames).length := by
    intro t' h
    rcases List.mem_append.mp h with h' | h'
    · exact (tuple_length_eq h').trans hax
    · rw [List.mem_singleton.mp h']
      exact (tuple_length_eq htm).trans hax
  have hattr : attrTable rtol atol (mkGroups ("env" :: discNames) axesVals out subf ++
      [{ grpOf ("env" :: discNames) out subf (i, t) with name := nm }]) =
      ("env" :: discNames).zip axesVals := by
    rw [attrTable_zip rtol atol _ hnd _ _ hattrmap htlen (by simp)]
    rw [map_const_nil_eq _ _ hax.symm]
    rw [colsFold_append, colsFold_tuples rtol atol axesVals hsep hne]
    rw [show colsFold rtol atol axesVals [t] =
      List.zipWith (updEntry rtol atol) axesVals t from rfl]
    rw [zipWith_updEntry_covered (mem_tuplesOf.mp htm) hsep]
  have hgl : (mkGroups ("env" :: discNames) axesVals out subf ++
      [{ grpOf ("env" :: discNames) out subf (i, t) with name := nm }]).length =
      (axesVals.map List.length).prod + 1 := by
    rw [List.length_append, mkGroups_length, tuplesOf_length]
    rfl
  have hE : expectedLen (attrTable rtol atol
      (mkGroups ("env" :: discNames) axesVals out subf ++
        [{ grpOf ("env" :: discNames) out subf (i, t) with name := nm }])) =
      (axesVals.map List.length).prod := by
    rw [hattr, expectedLen_zip _ _ hax.symm]
  have hcnt : expectedLen (attrTable rtol atol
      (mkGroups ("env" :: discNames) axesVals out subf ++
        [{ grpOf ("env" :: discNames) out subf (i, t) with name := nm }])) ≠
      (mkGroups ("env" :: discNames) axesVals out subf ++
        [{ grpOf ("env" :: discNames) out subf (i, t) with name := nm }]).length := by
    rw [hE, hgl]
    omega
  have hgne : (mkGroups ("env" :: discNames) axesVals out subf ++
      [{ grpOf ("env" :: discNames) out subf (i, t) with name := nm }]).length ≠ 0 := by
    rw [hgl]
    omega
  have hres := loadSimData_count_error rtol atol [] discNames
    ⟨fattrs, mkGroups ("env" :: discNames) axesVals out subf ++
      [{ grpOf ("env" :: discNames) out subf (i, t) with name := nm }]⟩
    rfl hgne hcnt
  have hpay : LoadErr.incompleteSweep
      (expectedLen (attrTable rtol atol
        (mkGroups ("env" :: discNames) axesVals out subf ++
          [{ grpOf ("env" :: discNames) out subf (i, t) with name := nm }])))
      ((mkGroups ("env" :: discNames) axesVals out subf ++
        [{ grpOf ("env" :: discNames) out subf (i, t) with name := nm }]).length) =
      .incompleteSweep ((axesVals.map List.length).prod)
        ((axesVals.map List.length).prod + 1) := by
    rw [hE, hgl]
  exact hres.trans (congrArg Except.error hpay)

/-- The axes of the concrete two-by-two sweep: two environments, one
discrete parameter with two values. -/
def axesC2 : List (List Value) := [[.str "tt", .str "ff"], [.num 1, .num 2]]

/-- Per-record sub-array contents for the synthetic datasets. -/
def subC2 : ℕ → Sub := fun i => [(i : ℚ)]

/-- The concrete full-product group list for C2. -/
def gsC2 : List Group := mkGroups ["env", "w"] axesC2 "ids" subC2

/-- A single-axis (environment-only) synthetic sweep. -/
def axesCx : List (List Value) := [[.str "tt", .str "ff"]]

/-- Its concrete group list. -/
def gsCx : List Group := mkGroups ["env"] axesCx "ids" subC2

/-- An empty placeholder group. -/
def grpNil : Group := ⟨"", [], [], []⟩

/-- C2 (amended): for a synthetic raw dataset whose records form the full
Cartesian product of well-separated axis value sets (environment and the
declared discrete axes, each nonempty), the load assembles without error;
removing one record raises the incomplete-sweep error (expected the full
product size, found one fewer) PROVIDED at least two axes carry at least two
values (with at most one multi-valued axis the shrunken attribute table can
match the reduced count and the removal goes undetected); duplicating one
record raises the same incomplete-sweep error (expected the product size,
found one more) — not the inconsistent-data error the specification
claims. -/
theorem loadSimData_sweep_counts (rtol atol : ℚ) (fattrs : List (String × FAttr))
    (discNames : List String) (axesVals : List (List Value)) (out : String)
    (subf : ℕ → Sub)
    (hnd : ("env" :: discNames).Nodup)
    (hax : axesVals.length = ("env" :: discNames).length)
    (hsep : ∀ vs ∈ axesVals, SepVals rtol atol vs)
    (hne : ∀ vs ∈ axesVals, vs ≠ []) :
    (∃ res, loadSimData rtol atol [] discNames
        (some ⟨fattrs, mkGroups ("env" :: discNames) axesVals out subf⟩) =
        .ok res) ∧
    (∀ gs₁ g gs₂,
      mkGroups ("env" :: discNames) axesVals out subf = gs₁ ++ g :: gs₂ →
      (∃ p₁ p₂, p₁ < p₂ ∧ p₂ < axesVals.length ∧
        2 ≤ (axesVals.getD p₁ []).length ∧ 2 ≤ (axesVals.getD p₂ []).length) →
      loadSimData rtol atol [] discNames (some ⟨fattrs, gs₁ ++ gs₂⟩) =
        .error (.incompleteSweep ((axesVals.map List.length).prod)
          ((axesVals.map List.length).prod - 1))) ∧
    (∀ g ∈ mkGroups ("env" :: discNames) axesVals out subf, ∀ nm,
      loadSimData rtol atol [] discNames
        (some ⟨fattrs, mkGroups ("env" :: discNames) axesVals out subf ++
          [{ g with name := nm }]⟩) =
        .error (.incompleteSweep ((axesVals.map List.length).prod)
          ((axesVals.map List.length).prod + 1))) := by
  refine ⟨?_, ?_, ?_⟩
  · obtain ⟨dict, _, hload⟩ := loadSimData_mkGroups_ok rtol atol fattrs discNames
      axesVals out subf hnd hax hsep hne
    exact ⟨_, hload⟩
  · intro gs₁ g gs₂ hsplit htwo
    exact loadSimData_mkGroups_remove rtol atol fattrs discNames axesVals out subf
      hnd hax hsep hne gs₁ g gs₂ hsplit htwo
  · intro g hgm nm
    exact loadSimData_mkGroups_dup rtol atol fattrs discNames axesVals out subf
      hnd hax hsep hne g hgm nm

/-- Witness for C2 on the concrete 2x2 sweep (environments {tt, ff},
discrete axis w with {1, 2}): the full product of 4 records loads, removing
the first record yields expected 4 but actual 3, duplicating a record yields
expected 4 but actual 5. -/
theorem loadSimData_sweep_counts_witness :
    (loadSimData rtol0 atol0 [] ["w"] (some ⟨[], gsC2⟩)).isOk = true ∧
    loadSimData rtol0 atol0 [] ["w"] (some ⟨[], gsC2.tail⟩) =
      .error (.incompleteSweep 4 3) ∧
    loadSimData rtol0 atol0 [] ["w"]
      (some ⟨[], gsC2 ++ [{ gsC2.headD grpNil with name := "dup" }]⟩) =
      .error (.incompleteSweep 4 5) := by
  have h := loadSimData_sweep_counts rtol0 atol0 [] ["w"] axesC2 "ids" subC2
    (by decide) (by decide) (by decide) (by decide)
  refine ⟨?_, ?_, ?_⟩
  · obtain ⟨res, hres⟩ := h.1
    show (loadSimData rtol0 atol0 [] ["w"]
      (some ⟨[], mkGroups ["env", "w"] axesC2 "ids" subC2⟩)).isOk = true
    rw [hres]
    rfl
  · exact h.2.1 [] (gsC2.headD grpNil) gsC2.tail (by decide)
      ⟨0, 1, by decide, by decide, by decide, by decide⟩
  · exact h.2.2 (gsC2.headD grpNil) (by decide) "dup"

/-- Counterexample to C2 as stated: in the single-axis sweep {tt, ff} with
no discrete parameters, removing one record leaves a dataset that still
loads successfully (the environment axis shrinks with it, so the count check
passes), and duplicating a record raises the incomplete-sweep count error
(expected 2, found 3), not an inconsistent-data error. -/
theorem loadSimData_sweep_counts_counterexample :
    (loadSimData rtol0 atol0 [] [] (some ⟨[], gsCx.take 1⟩)).isOk = true ∧
    loadSimData rtol0 atol0 [] []
      (some ⟨[], gsCx ++ [{ gsCx.headD grpNil with name := "dup" }]⟩) =
      .error (.incompleteSweep 2 3) :=
  ⟨by decide, by decide⟩

theorem writeOut_lookup_self :
    ∀ (dict : List (String × Arr)) (o : String) (idx : List ℤ) (d : Sub),
    (writeOut dict o idx d).lookup o = some ((idx, d) :: ((dict.lookup o).getD [])) := by
  intro dict o idx d
  induction dict with
  | nil => simp [writeOut, List.lookup]
  | cons kv rest ih =>
    obtain ⟨o', arr⟩ := kv
    by_cases ho : o' = o
    · subst ho
      rw [writeOut, if_pos rfl]
      simp [List.lookup]
    · rw [writeOut, if_neg ho]
      have hb : (o == o') = false := beq_eq_false_iff_ne.mpr (fun h => ho h.symm)
      simp [List.lookup, hb, ih]

theorem lookup_cons_ne_key {idx idx' : List ℤ} (h : idx ≠ idx') (d : Sub) (arr : Arr) :
    ((idx', d) :: arr).lookup idx = arr.lookup idx := by
  simp [List.lookup, beq_eq_false_iff_ne.mpr h]

theorem append_cons_not_mem_right {α : Type} [DecidableEq α] {a : α} :
    ∀ {l : List α}, a ∈ l → ∃ s u, l = s ++ a :: u ∧ a ∉ u := by
  intro l
  induction l with
  | nil => intro h; exact absurd h (List.not_mem_nil a)
  | cons b l' ih =>
    intro h
    by_cases h' : a ∈ l'
    · obtain ⟨s, u, hl, hnu⟩ := ih h'
      exact ⟨b :: s, u, by rw [hl]; rfl, hnu⟩
    · have hab : a = b := by
        rcases List.mem_cons.mp h with h'' | h''
        · exact h''
        · exact absurd h'' h'
      subst hab
      exact ⟨[], l', rfl, h'⟩

theorem zip_lookup_nodup {β : Type} :
    ∀ (names : List String), names.Nodup → ∀ (vls : List β) (k : ℕ)
    (hk : k < names.length) (hlen : names.length ≤ vls.length),
    (names.zip vls).lookup names[k] = some vls[k] := by
  intro names
  induction names with
  | nil => intro _ vls k hk _; exact absurd hk (by simp)
  | cons n names' ih =>
    intro hnd vls k hk hlen
    cases vls with
    | nil => exact absurd hlen (by simp)
    | cons v vls' =>
      cases k with
      | zero => simp [List.lookup]
      | succ k' =>
        have hk' : k' < names'.length := by simpa using hk
        have hne2 : names'[k'] ≠ n :=
          fun h => (List.nodup_cons.mp hnd).1 (h ▸ List.getElem_mem hk')
        rw [List.getElem_cons_succ, List.getElem_cons_succ, List.zip_cons_cons]
        have hb : (names'[k'] == n) = false := beq_eq_false_iff_ne.mpr hne2
        simp only [List.lookup, hb]
        exact ih (List.Nodup.of_cons hnd) vls' k' hk' (by simpa using hlen)

theorem groupIndex_eq_map (rtol atol : ℚ) :
    ∀ (axlist : List (String × List Value)) (g : Group),
    (∀ ax ∈ axlist, ((g.attrs.lookup ax.1)).isSome = true) →
    groupIndex rtol atol axlist g =
      .ok (axlist.map (fun ax =>
        indexInList rtol atol ax.2 (((g.attrs.lookup ax.1)).getD (.num 0)))) := by
  intro axlist g
  induction axlist with
  | nil => intro _; rfl
  | cons ax rest ih =>
    intro h
    obtain ⟨attr, avals⟩ := ax
    obtain ⟨v, hv⟩ := Option.isSome_iff_exists.mp
      (h (attr, avals) (List.mem_cons_self _ rest))
    rw [List.map_cons]
    simp only [groupIndex, hv, ih (fun a ha => h a (List.mem_cons_of_mem _ ha)),
      bind_ok_except, Option.getD_some]
    rfl

theorem sepVals_perm {rtol atol : ℚ} {l l' : List Value} (hp : l.Perm l')
    (h : SepVals rtol atol l) : SepVals rtol atol l' := by
  constructor
  · intro v hv
    exact h.1 v (hp.mem_iff.mpr hv)
  · exact (List.Perm.pairwise_iff (by intro a b hab; exact ⟨hab.2, hab.1⟩) hp).mp h.2

theorem sortVals_perm (l : List Value) : (sortVals l).Perm l :=
  List.perm_insertionSort vle l

theorem exists_ne_getElem? {t t' : List Value} (hne : t ≠ t')
    (hlen : t.length = t'.length) : ∃ k < t.length, t[k]? ≠ t'[k]? := by
  by_contra hall
  push_neg at hall
  apply hne
  apply List.ext_getElem?
  intro i
  by_cases hi : i < t.length
  · exact hall i hi
  · rw [List.getElem?_eq_none (by omega), List.getElem?_eq_none (by omega)]

theorem sortedAxes_mkGroups (rtol atol : ℚ) (names : List String)
    (axesVals : List (List Value)) (out : String) (subf : ℕ → Sub)
    (hnd : names.Nodup) (hax : axesVals.length = names.length)
    (hsep : ∀ vs ∈ axesVals, SepVals rtol atol vs)
    (hne : ∀ vs ∈ axesVals, vs ≠ []) :
    sortedAxes rtol atol (mkGroups names axesVals out subf) =
      (sortStrs names).map
        (fun a => (a, sortVals (((names.zip axesVals).lookup a).getD []))) := by
  rw [sortedAxes, attrTable_mkGroups rtol atol names axesVals out subf hnd hax hsep hne,
    map_fst_zip_lam names axesVals (le_of_eq hax.symm)]

theorem mem_of_mem_mkGroups_enum {names : List String} {axesVals : List (List Value)}
    {out : String} {subf : ℕ → Sub} {g : Group}
    (h : g ∈ mkGroups names axesVals out subf) :
    ∃ i t, (i, t) ∈ (tuplesOf axesVals).enum ∧ g = grpOf names out subf (i, t) := by
  obtain ⟨it, hit, heq⟩ := List.mem_map.mp h
  obtain ⟨i, t⟩ := it
  exact ⟨i, t, hit, heq.symm⟩

theorem enum_snd_inj {α : Type} {ts : List α} (hnd : ts.Nodup) {i i' : ℕ} {t : α}
    (h1 : (i, t) ∈ ts.enum) (h2 : (i', t) ∈ ts.enum) : i = i' := by
  rw [List.mk_mem_enum_iff_getElem?] at h1 h2
  by_contra hne
  have hb1 : i < ts.length := by
    by_contra hb
    rw [List.getElem?_eq_none (by omega)] at h1
    exact absurd h1 (by simp)
  have hb2 : i' < ts.length := by
    by_contra hb
    rw [List.getElem?_eq_none (by omega)] at h2
    exact absurd h2 (by simp)
  rcases Nat.lt_or_ge i i' with h | h
  · exact (List.nodup_iff_getElem?_ne_getElem?.mp hnd i i' h hb2) (h1.trans h2.symm)
  · have h' : i' < i := by omega
    exact (List.nodup_iff_getElem?_ne_getElem?.mp hnd i' i h' hb1) (h2.trans h1.symm)

theorem enum_mem_tuple {α : Type} {ts : List α} {i : ℕ} {t : α}
    (h : (i, t) ∈ ts.enum) : t ∈ ts := by
  rw [List.mk_mem_enum_iff_getElem?] at h
  exact List.getElem?_mem h

/-- Two records with distinct coordinate tuples receive distinct master
indices along the sorted axes. -/
theorem groupIndex_mkGroups_inj (rtol atol : ℚ) (names : List String)
    (axesVals : List (List Value)) (out : String) (subf : ℕ → Sub)
    (hnd : names.Nodup) (hax : axesVals.length = names.length)
    (hsep : ∀ vs ∈ axesVals, SepVals rtol atol vs)
    {i i' : ℕ} {t t' : List Value}
    (ht : t ∈ tuplesOf axesVals) (ht' : t' ∈ tuplesOf axesVals) (htt : t ≠ t')
    {idx idx' : List ℤ}
    (h1 : groupIndex rtol atol ((sortStrs names).map
        (fun a => (a, sortVals (((names.zip axesVals).lookup a).getD []))))
      (grpOf names out subf (i, t)) = .ok idx)
    (h2 : groupIndex rtol atol ((sortStrs names).map
        (fun a => (a, sortVals (((names.zip axesVals).lookup a).getD []))))
      (grpOf names out subf (i', t')) = .ok idx') :
    idx ≠ idx' := by
  have hlt : t.length = names.length := (tuple_length_eq ht).trans hax
  have hlt' : t'.length = names.length := (tuple_length_eq ht').trans hax
  have hsome : ∀ (u : List Value), u.length = names.length →
      ∀ ax ∈ (sortStrs names).map
        (fun a => (a, sortVals (((names.zip axesVals).lookup a).getD []))),
      (((grpOf names out subf (i, u)).attrs.lookup ax.1)).isSome = true := by
    intro u hu ax haxm
    obtain ⟨a, ha, rfl⟩ := List.mem_map.mp haxm
    exact zip_lookup_isSome names u a (mem_of_mem_sortStrs ha) hu.symm
  rw [groupIndex_eq_map rtol atol _ _ (hsome t hlt)] at h1
  rw [groupIndex_eq_map rtol atol _ _ (by
    intro ax haxm
    obtain ⟨a, ha, rfl⟩ := List.mem_map.mp haxm
    exact zip_lookup_isSome names t' a (mem_of_mem_sortStrs ha) hlt'.symm)] at h2
  have hidx := Except.ok.inj h1
  have hidx' := Except.ok.inj h2
  obtain ⟨k, hk, hkne⟩ := exists_ne_getElem? htt (hlt.trans hlt'.symm)
  have hk2 : k < names.length := by omega
  have hkt : k < t.length := hk
  have hkt' : k < t'.length := by omega
  have hkax : k < axesVals.length := by omega
  have hl1 : (names.zip t).lookup names[k] = some t[k] :=
    zip_lookup_nodup names hnd t k hk2 (le_of_eq hlt.symm)
  have hl2 : (names.zip t').lookup names[k] = some t'[k] :=
    zip_lookup_nodup names hnd t' k hk2 (le_of_eq hlt'.symm)
  have hlax : (names.zip axesVals).lookup names[k] = some axesVals[k] :=
    zip_lookup_nodup names hnd axesVals k hk2 (le_of_eq hax.symm)
  have hnmem : names[k] ∈ sortStrs names :=
    (List.Perm.mem_iff (List.perm_insertionSort sle names)).mpr (List.getElem_mem hk2)
  obtain ⟨m, hm, hmn⟩ := List.mem_iff_getElem.mp hnmem
  intro heq
  rw [← hidx, ← hidx'] at heq
  have hcomp := congrArg (fun l => l[m]?) heq
  simp only [List.getElem?_map] at hcomp
  rw [List.getElem?_eq_getElem hm] at hcomp
  have hval2 : some (indexInList rtol atol
      (sortVals (((names.zip axesVals).lookup ((sortStrs names)[m])).getD []))
      ((((names.zip t).lookup ((sortStrs names)[m]))).getD (.num 0))) =
      some (indexInList rtol atol
      (sortVals (((names.zip axesVals).lookup ((sortStrs names)[m])).getD []))
      ((((names.zip t').lookup ((sortStrs names)[m]))).getD (.num 0))) := hcomp
  have hval3 := Option.some.inj hval2
  rw [hmn] at hval3
  rw [hl1, hl2, hlax] at hval3
  simp only [Option.getD_some] at hval3
  have hcomp := hval3
  have hsepk : SepVals rtol atol (sortVals axesVals[k]) :=
    sepVals_perm (sortVals_perm axesVals[k]).symm
      (hsep _ (List.getElem_mem hkax))
  have hft : List.Forall₂ (· ∈ ·) t axesVals := mem_tuplesOf.mp ht
  have hft' : List.Forall₂ (· ∈ ·) t' axesVals := mem_tuplesOf.mp ht'
  have htk : t[k] ∈ sortVals axesVals[k] :=
    (List.Perm.mem_iff (sortVals_perm _)).mpr (hft.get hkt hkax)
  have htk' : t'[k] ∈ sortVals axesVals[k] :=
    (List.Perm.mem_iff (sortVals_perm _)).mpr (hft'.get hkt' hkax)
  have hkeq := indexInList_sep_inj hsepk htk htk' hcomp
  apply hkne
  rw [List.getElem?_eq_getElem hkt, List.getElem?_eq_getElem hkt', hkeq]

/-- Writes at indices other than `idx` never disturb the entry scattered at
`idx`. -/
theorem foldlM_writes_preserve (rtol atol : ℚ) (axlist : List (String × List Value))
    (out : String) (idx : List ℤ) (subT : Sub) :
    ∀ (post : List Group) (dictA dictB : List (String × Arr)),
    List.foldlM (fun dict (g : Group) => do
      let idx2 ← groupIndex rtol atol axlist g
      return g.dsets.foldl (fun dd (od : String × Sub) => writeOut dd od.1 idx2 od.2)
        dict) dictA post = .ok dictB →
    (∀ g' ∈ post, (∃ sub', g'.dsets = [(out, sub')]) ∧
      ∃ idx', groupIndex rtol atol axlist g' = .ok idx' ∧ idx' ≠ idx) →
    ∀ arrA, dictA.lookup out = some arrA → arrA.lookup idx = some subT →
    ∃ arrB, dictB.lookup out = some arrB ∧ arrB.lookup idx = some subT := by
  intro post
  induction post with
  | nil =>
    intro dictA dictB h _ arrA hA hAi
    have hAB : dictA = dictB := Except.ok.inj h
    exact ⟨arrA, hAB ▸ hA, hAi⟩
  | cons g' post' ih =>
    intro dictA dictB h hprop arrA hA hAi
    obtain ⟨⟨sub', hds⟩, idx', hidx', hne'⟩ := hprop g' (List.mem_cons_self g' post')
    rw [List.foldlM_cons] at h
    simp only [hidx', bind_ok_except, hds, List.foldl_cons, List.foldl_nil] at h
    have h2 : List.foldlM (fun dict (g : Group) => do
        let idx2 ← groupIndex rtol atol axlist g
        return g.dsets.foldl (fun dd (od : String × Sub) => writeOut dd od.1 idx2 od.2)
          dict) (writeOut dictA out idx' sub') post' = .ok dictB := h
    have hA2 : (writeOut dictA out idx' sub').lookup out =
        some ((idx', sub') :: arrA) := by
      rw [writeOut_lookup_self, hA]
      rfl
    have hAi2 : ((idx', sub') :: arrA).lookup idx = some subT := by
      rw [lookup_cons_ne_key (fun hh => hne' hh.symm) sub' arrA]
      exact hAi
    exact ih (writeOut dictA out idx' sub') dictB h2
      (fun g2 hg2 => hprop g2 (List.mem_cons_of_mem _ hg2)) _ hA2 hAi2

/-- Reading the consolidated master dictionary back at a record's index
returns exactly that record's sub-array. -/
theorem buildMaster_mkGroups_readback (rtol atol : ℚ) (names : List String)
    (axesVals : List (List Value)) (out : String) (subf : ℕ → Sub)
    (hnd : names.Nodup) (hax : axesVals.length = names.length)
    (hsep : ∀ vs ∈ axesVals, SepVals rtol atol vs)
    {dict : List (String × Arr)}
    (hbm : buildMaster rtol atol ((sortStrs names).map
        (fun a => (a, sortVals (((names.zip axesVals).lookup a).getD []))))
      (mkGroups names axesVals out subf) = .ok dict)
    {g : Group} (hgm : g ∈ mkGroups names axesVals out subf) :
    ∃ idx, groupIndex rtol atol ((sortStrs names).map
        (fun a => (a, sortVals (((names.zip axesVals).lookup a).getD [])))) g =
      .ok idx ∧
      ((dict.lookup out).getD []).lookup idx = some ((g.dsets.lookup out).getD []) := by
  have hidxall : ∀ g' ∈ mkGroups names axesVals out subf,
      ∃ idx0, groupIndex rtol atol ((sortStrs names).map
        (fun a => (a, sortVals (((names.zip axesVals).lookup a).getD [])))) g' =
        .ok idx0 := by
    intro g' hg'
    obtain ⟨i', t', htm', rfl⟩ := mem_of_mem_mkGroups hg'
    apply groupIndex_ok
    intro ax haxm
    obtain ⟨a, ha, rfl⟩ := List.mem_map.mp haxm
    exact zip_lookup_isSome names t' a (mem_of_mem_sortStrs ha)
      ((tuple_length_eq htm').trans hax).symm
  obtain ⟨s, u, hgs, hgu⟩ := append_cons_not_mem_right hgm
  obtain ⟨idx, hidx⟩ := hidxall g hgm
  obtain ⟨i, t, hitm, hgg⟩ := mem_of_mem_mkGroups_enum hgm
  have hds : g.dsets = [(out, subf i)] := by rw [hgg]; rfl
  obtain ⟨dict₁, hd1⟩ := buildMaster_foldlM_ok rtol atol ((sortStrs names).map
      (fun a => (a, sortVals (((names.zip axesVals).lookup a).getD [])))) s []
    (fun g2 hg2 => hidxall g2 (by rw [hgs]; exact List.mem_append_left _ hg2))
  have hbm0 : List.foldlM (fun dict (g : Group) => do
      let idx2 ← groupIndex rtol atol ((sortStrs names).map
        (fun a => (a, sortVals (((names.zip axesVals).lookup a).getD [])))) g
      return g.dsets.foldl (fun dd (od : String × Sub) => writeOut dd od.1 idx2 od.2)
        dict) [] (s ++ g :: u) = .ok dict := by
    rw [← hgs]
    exact hbm
  rw [List.foldlM_append, hd1, bind_ok_except, List.foldlM_cons] at hbm0
  simp only [hidx, bind_ok_except, hds, List.foldl_cons, List.foldl_nil] at hbm0
  have hbm2 : List.foldlM (fun dict (g : Group) => do
      let idx2 ← groupIndex rtol atol ((sortStrs names).map
        (fun a => (a, sortVals (((names.zip axesVals).lookup a).getD [])))) g
      return g.dsets.foldl (fun dd (od : String × Sub) => writeOut dd od.1 idx2 od.2)
        dict) (writeOut dict₁ out idx (subf i)) u = .ok dict := hbm0
  have hprop : ∀ g2 ∈ u, (∃ sub', g2.dsets = [(out, sub')]) ∧
      ∃ idx2, groupIndex rtol atol ((sortStrs names).map
        (fun a => (a, sortVals (((names.zip axesVals).lookup a).getD [])))) g2 =
        .ok idx2 ∧ idx2 ≠ idx := by
    intro g2 hg2
    have hg2m : g2 ∈ mkGroups names axesVals out subf := by
      rw [hgs]
      exact List.mem_append_right _ (List.mem_cons_of_mem _ hg2)
    obtain ⟨i2, t2, hitm2, hgg2⟩ := mem_of_mem_mkGroups_enum hg2m
    refine ⟨⟨subf i2, by rw [hgg2]; rfl⟩, ?_⟩
    obtain ⟨idx2, hidx2⟩ := hidxall g2 hg2m
    refine ⟨idx2, hidx2, ?_⟩
    have htne : t2 ≠ t := by
      intro hte
      subst hte
      have hii : i2 = i := enum_snd_inj
        (tuplesOf_nodup (fun vs hvs => sepVals_nodup (hsep vs hvs))) hitm2 hitm
      rw [hii, ← hgg] at hgg2
      rw [hgg2] at hg2
      exact hgu hg2
    exact groupIndex_mkGroups_inj rtol atol names axesVals out subf hnd hax hsep
      (enum_mem_tuple hitm2) (enum_mem_tuple hitm) htne
      (hgg2 ▸ hidx2) (hgg ▸ hidx)
  obtain ⟨arrB, hB, hBi⟩ := foldlM_writes_preserve rtol atol _ out idx (subf i)
    u _ dict hbm2 hprop ((idx, subf i) :: (dict₁.lookup out).getD [])
    (writeOut_lookup_self dict₁ out idx (subf i)) (by simp [List.lookup])
  refine ⟨idx, hidx, ?_⟩
  rw [hB]
  show arrB.lookup idx = some ((g.dsets.lookup out).getD [])
  rw [hBi, hds]
  simp [List.lookup]

/-- The result the concrete 2x2 witness load produces. -/
def resC4 : LoadResult :=
  match loadSimData rtol0 atol0 [] ["w"] (some ⟨[], gsC2⟩) with
  | .ok r => r
  | .error _ => ⟨[], [], [], []⟩

/-- C4: for a valid complete-sweep record set (the synthetic full Cartesian
product over well-separated axes), assembling the dense master dictionary
and then reading it back at the master index of any record's
environment/discrete sweep point reproduces that record's sub-array exactly
(the scatter write of lines 676-687 lands each record at a distinct index,
and later writes never disturb it). -/
theorem loadSimData_scatter_readback (rtol atol : ℚ) (fattrs : List (String × FAttr))
    (discNames : List String) (axesVals : List (List Value)) (out : String)
    (subf : ℕ → Sub)
    (hnd : ("env" :: discNames).Nodup)
    (hax : axesVals.length = ("env" :: discNames).length)
    (hsep : ∀ vs ∈ axesVals, SepVals rtol atol vs)
    (hne : ∀ vs ∈ axesVals, vs ≠ []) :
    ∀ res, loadSimData rtol atol [] discNames
        (some ⟨fattrs, mkGroups ("env" :: discNames) axesVals out subf⟩) = .ok res →
      ∀ g ∈ mkGroups ("env" :: discNames) axesVals out subf,
        ∃ idx, groupIndex rtol atol
            (sortedAxes rtol atol (mkGroups ("env" :: discNames) axesVals out subf))
            g = .ok idx ∧
          ((res.masterDict.lookup out).getD []).lookup idx =
            some ((g.dsets.lookup out).getD []) := by
  intro res hres g hgm
  obtain ⟨dict, hbm, hload⟩ := loadSimData_mkGroups_ok rtol atol fattrs discNames
    axesVals out subf hnd hax hsep hne
  rw [hres] at hload
  have hmd : res.masterDict = dict := by
    rw [Except.ok.inj hload]
  rw [hmd]
  rw [sortedAxes_mkGroups rtol atol _ axesVals out subf hnd hax hsep hne]
  rw [sortedAxes_mkGroups rtol atol _ axesVals out subf hnd hax hsep hne] at hbm
  exact buildMaster_mkGroups_readback rtol atol _ axesVals out subf hnd hax hsep
    hbm hgm

/-- Witness for C4 on the concrete 2x2 sweep: the first record's sub-array
is read back at its own master index. -/
theorem loadSimData_scatter_readback_witness :
    ∃ idx, groupIndex rtol0 atol0 (sortedAxes rtol0 atol0 gsC2)
        (gsC2.headD grpNil) = .ok idx ∧
      ((resC4.masterDict.lookup "ids").getD []).lookup idx =
        some (((gsC2.headD grpNil).dsets.lookup "ids").getD []) :=
  loadSimData_scatter_readback rtol0 atol0 [] ["w"] axesC2 "ids" subC2
    (by decide) (by decide) (by decide) (by decide) resC4 rfl
    (gsC2.headD grpNil) (by decide)

end BagCharDB


